import Mathlib

/-!
# Verification of `Vector<E>` (src/vector.h)

A shallow embedding of the container defined in `src/vector.h` and the proofs of its
specified properties.

Modelling conventions.

* `size_type` values are natural numbers.  No arithmetic on them wraps in the code paths
  modelled here except the final `i--` of the loop of `insert`, whose wrapped value is
  never used.  `size_type` is taken to have 64 bits; the one computation that can leave
  its range is the conversion of `max_sz * LOAD_FACTOR + LOAD_CONSTANT` in `grow()`, which
  is embedded as truncation without a bound.  The truncated value is a `size_type` exactly
  when `max_sz < 11400954310080068608` (`grow_target_fits`); from there on the conversion
  is undefined in the code, and no array has that many slots.
* `pointer values` is `none` for `nullptr` and `some a` for a pointer to the first slot of
  an array whose slots are the entries of `a`.  Reading or writing through a null pointer
  or outside the array is undefined behaviour, which every operation reports explicitly.
* `new value_type[n]` always succeeds and yields `n` default-initialised slots.
* `delete[]` is recorded in the second embedding, where the arrays live in a free store.
  In the first embedding, where the array is part of the vector, its one observable effect
  is on an argument that refers to a slot of the released array (`reserve_releases`); the
  two embeddings agree on it (`Mem.push_back_sim`, `Mem.insert_sim`).
* An iterator holds a pointer into the storage of its vector; it is modelled by the signed
  offset of that pointer from `values`.
* An argument of type `const_reference` is a reference: it refers either to an object that
  is not a slot of the array the vector owns, or to a slot of that array, as in
  `v.push_back(v[0])`.  The member function reads it where the code reads it, so it sees
  what the slot holds at that moment, and reading a slot of an array that `delete[]` has
  released is undefined behaviour.
* `double` arithmetic is IEEE-754 binary64 with round-to-nearest, ties-to-even, every
  operation rounded once; only non-negative finite values occur and the exponent range is
  not limited.
-/

namespace PR2

/-! ## Binary64 arithmetic used by `grow` -/

/-- A non-negative `double`, the dyadic rational `num / 2 ^ scale`. -/
structure Dbl where
  num : Nat
  scale : Nat
deriving DecidableEq, Repr

/-- The number of low bits of `N` that do not fit into 53 significant bits; the first
argument bounds the number of halvings and `N` itself is always enough. -/
def excessBits : Nat → Nat → Nat
  | 0, _ => 0
  | fuel + 1, N => if N < 2 ^ 53 then 0 else excessBits fuel (N / 2) + 1

/-- Round a numerator to 53 significant bits, to nearest, ties to even. -/
def roundMant (N : Nat) : Nat :=
  if N < 2 ^ 53 then N
  else
    let s := excessBits N N
    let q := N / 2 ^ s
    let r := N % 2 ^ s
    if 2 ^ s < 2 * r ∨ (2 * r = 2 ^ s ∧ q % 2 = 1) then (q + 1) * 2 ^ s else q * 2 ^ s

/-- Round an exact dyadic result to the nearest `double`. -/
def Dbl.round (x : Dbl) : Dbl := ⟨roundMant x.num, x.scale⟩

/-- Conversion `size_type -> double`. -/
def Dbl.ofSize (n : Nat) : Dbl := Dbl.round ⟨n, 0⟩

/-- Multiplication of two `double`s. -/
def Dbl.mul (x y : Dbl) : Dbl := Dbl.round ⟨x.num * y.num, x.scale + y.scale⟩

/-- Addition of two `double`s. -/
def Dbl.add (x y : Dbl) : Dbl :=
  Dbl.round ⟨x.num * 2 ^ y.scale + y.num * 2 ^ x.scale, x.scale + y.scale⟩

/-- Conversion `double -> size_type`, which truncates. -/
def Dbl.toSize (x : Dbl) : Nat := x.num / 2 ^ x.scale

/-- The largest value of `size_type`, which is `std::size_t` with 64 bits. -/
def SIZE_MAX : Nat := 18446744073709551615

/-- The member `static constexpr size_type LOAD_CONSTANT{ 5 }`. -/
def LOAD_CONSTANT : Nat := 5

/-- The member `static constexpr double LOAD_FACTOR{ 1.618 }`: the `double` nearest to
1618/1000, which is `7286824197085463 / 2 ^ 52`. -/
def LOAD_FACTOR : Dbl := ⟨7286824197085463, 52⟩

/-! ## Storage -/

/-- A value of type `pointer`: `none` is `nullptr`, `some a` points to the first slot of an
array with the slots `a`. -/
abbrev Ptr (E : Type) := Option (List E)

/-- The expression `new value_type[n]`. -/
def new_array {E : Type} [Inhabited E] (n : Nat) : Ptr E := some (List.replicate n default)

/-- Read `p[i]`; `none` is undefined behaviour. -/
def load {E : Type} (p : Ptr E) (i : Nat) : Option E :=
  match p with
  | none => none
  | some a => a[i]?

/-- Write `p[i] = x`; `none` is undefined behaviour. -/
def store {E : Type} (p : Ptr E) (i : Nat) (x : E) : Option (Ptr E) :=
  match p with
  | none => none
  | some a => if i < a.length then some (some (a.set i x)) else none

/-- What an argument of type `const_reference` refers to when a member function is called on
a vector: an object that is not a slot of the array `values` points to, which the call
leaves as it is and whose value is `x`; or slot `i` of that array, as `v[0]` in
`v.push_back(v[0])`. -/
inductive const_reference (E : Type) where
  | object (x : E)
  | slot (i : Nat)
deriving DecidableEq, Repr

/-- Read through a reference.  `released` tells whether `delete[]` has released the array
that `values` pointed to when the member function was called; while it has not, that array
is the one `p`, the present `values`, points to.  `none` is undefined behaviour. -/
def const_reference.read {E : Type} (val : const_reference E) (released : Bool) (p : Ptr E) :
    Option E :=
  match val with
  | .object x => some x
  | .slot i => if released then none else load p i

/-- The loop `for (size_type i{lo}; i < hi; ++i) body`, run as `forUp body (hi - lo) lo`:
the first argument counts the iterations left, the second is `i`. -/
def forUp {σ : Type} (body : Nat → σ → Option σ) : Nat → Nat → σ → Option σ
  | 0, _, s => some s
  | n + 1, i, s => (body i s).bind (forUp body n (i + 1))

/-- The loop `for (size_type i{hi}; i-- > lo;) body`, run as `forDown body lo hi`: the
test compares the value of `i` before the decrement, the body sees the value after it. -/
def forDown {σ : Type} (body : Nat → σ → Option σ) (lo : Nat) : Nat → σ → Option σ
  | 0, s => some s
  | i + 1, s => if i + 1 > lo then (body i s).bind (forDown body lo i) else some s

/-! ## The container -/

/-- The data members of `Vector<E>`. -/
structure Vector (E : Type) where
  sz : Nat
  max_sz : Nat
  values : Ptr E
deriving DecidableEq, Repr

/-- The exceptions the container throws. -/
inductive Exn where
  | out_of_range (what : String)
deriving DecidableEq, Repr

/-- The result of calling a member function: it returns `result` and leaves the object in
state `self`, or it throws `e` and leaves the object in state `self`, or its behaviour is
undefined. -/
inductive Outcome (E α : Type) where
  | ok (result : α) (self : Vector E)
  | thrown (e : Exn) (self : Vector E)
  | undefined
deriving DecidableEq, Repr

/-- Sequencing of two calls: the second runs on the state the first returned in. -/
def Outcome.andThen {E α β : Type} (o : Outcome E α) (f : α → Vector E → Outcome E β) :
    Outcome E β :=
  match o with
  | .ok a s => f a s
  | .thrown e s => .thrown e s
  | .undefined => .undefined

/-- A call that neither throws nor returns a value, from the state it produces. -/
def Outcome.ofState {E : Type} (o : Option (Vector E)) : Outcome E Unit :=
  match o with
  | some s => .ok () s
  | none => .undefined

/-- The class `ConstIterator`: the offset of its `ptr` from `values`. -/
structure ConstIterator where
  ptr : Int
deriving DecidableEq, Repr

/-- The class `Iterator`: the offset of its `ptr` from `values`. -/
structure Iterator where
  ptr : Int
deriving DecidableEq, Repr

/-- The conversion `Iterator::operator const_iterator()`. -/
def Iterator.toConst (it : Iterator) : ConstIterator := ⟨it.ptr⟩

/-- The member `ConstIterator::operator==`. -/
def ConstIterator.eq (a rop : ConstIterator) : Bool := decide (a.ptr = rop.ptr)

/-- The member `Iterator::operator==`. -/
def Iterator.eq (a : Iterator) (rop : ConstIterator) : Bool := a.toConst.eq rop

/-- The member `ConstIterator::operator-`. -/
def ConstIterator.sub (a rop : ConstIterator) : Int := a.ptr - rop.ptr

/-- The member `Iterator::operator*` on the storage `mem` the iterator points into; `none`
is undefined behaviour. -/
def Iterator.deref {E : Type} (it : Iterator) (mem : Ptr E) : Option E :=
  if it.ptr < 0 then none else load mem it.ptr.toNat

namespace Vector

variable {E : Type} [Inhabited E]

/-- The constructor `Vector()`. -/
def default_ctor : Vector E := ⟨0, 0, none⟩

/-- The constructor `Vector(size_type n)`. -/
def sized_ctor (n : Nat) : Vector E := ⟨0, n, if n ≤ 0 then none else new_array n⟩

/-- The member `reserve`. -/
def reserve (self : Vector E) (n : Nat) : Outcome E Unit :=
  if self.max_sz ≥ n then .ok () self
  else
    match forUp (fun i buf => (load self.values i).bind (store buf i))
        (self.sz - 0) 0 (new_array n) with
    | none => .undefined
    | some buf => .ok () { self with values := buf, max_sz := n }

/-- The argument `max_sz * LOAD_FACTOR + LOAD_CONSTANT` that `grow` passes to `reserve`,
converted to `size_type` by truncation.  The result is at most `SIZE_MAX`, as the code needs
it to be, exactly when `max_sz < 11400954310080068608`. -/
def grow_target (max_sz : Nat) : Nat :=
  Dbl.toSize (Dbl.add (Dbl.mul (Dbl.ofSize max_sz) LOAD_FACTOR) (Dbl.ofSize LOAD_CONSTANT))

/-- The member `grow`. -/
def grow (self : Vector E) : Outcome E Unit :=
  reserve self (grow_target self.max_sz)

/-- Whether `reserve(n)` reaches its statement `delete[] values`. -/
def reserve_releases (self : Vector E) (n : Nat) : Bool :=
  if self.max_sz ≥ n then false else true

/-- Whether `grow()` reaches the statement `delete[] values` of `reserve`. -/
def grow_releases (self : Vector E) : Bool :=
  reserve_releases self (grow_target self.max_sz)

/-- The member `shrink_to_fit`. -/
def shrink_to_fit (self : Vector E) : Outcome E Unit :=
  if self.max_sz ≤ self.sz then .ok () self
  else
    match forUp (fun i buf => (load self.values i).bind (store buf i))
        (self.sz - 0) 0 (new_array self.sz) with
    | none => .undefined
    | some buf => .ok () { self with values := buf, max_sz := self.sz }

/-- The statement `values[sz++] = x`. -/
def store_back (self : Vector E) (x : E) : Option (Vector E) :=
  (store self.values self.sz x).map fun p => { self with values := p, sz := self.sz + 1 }

/-- The constructor `Vector(std::initializer_list<value_type> l)`. -/
def list_ctor (l : List E) : Option (Vector E) :=
  l.foldl (fun o v => o.bind fun self => store_back self v) (some (sized_ctor l.length))

/-- The constructor `Vector(const Vector& v)`. -/
def copy_ctor (v : Vector E) : Option (Vector E) :=
  let self : Vector E := sized_ctor v.max_sz
  forUp (fun _ self => (load v.values self.sz).bind fun x =>
      (store self.values self.sz x).map fun p => { self with values := p, sz := self.sz + 1 })
    (v.sz - self.sz) self.sz self

/-- The object the parameter `v` of `operator=` refers to: another vector, or the target
of the assignment itself. -/
inductive Source (E : Type) where
  | other (v : Vector E)
  | self

/-- The state of the object that `v` refers to when the target is in state `self`. -/
def Source.get (src : Source E) (self : Vector E) : Vector E :=
  match src with
  | .other v => v
  | .self => self

/-- The member `operator=`. -/
def operator_assign (self : Vector E) (v : Source E) : Outcome E Unit :=
  let self1 : Vector E :=
    if (v.get self).sz > self.max_sz then
      let self0 : Vector E := { self with values := new_array (v.get self).max_sz }
      { self0 with max_sz := (v.get self0).max_sz }
    else self
  let self2 : Vector E := { self1 with sz := 0 }
  Outcome.ofState <|
    forUp (fun _ self => (load (v.get self).values self.sz).bind fun x =>
        (store self.values self.sz x).map fun p => { self with values := p, sz := self.sz + 1 })
      ((v.get self2).sz - self2.sz) self2.sz self2

/-- The member `size`. -/
def size (self : Vector E) : Nat := self.sz

/-- The member `empty`. -/
def empty (self : Vector E) : Bool := decide (self.sz ≤ 0)

/-- The member `capacity`. -/
def capacity (self : Vector E) : Nat := self.max_sz

/-- The member `clear`. -/
def clear (self : Vector E) : Outcome E Unit := .ok () { self with sz := 0 }

/-- The member `push_back`.  The statement `values[sz++] = val` reads `val` after the growth
step. -/
def push_back (self : Vector E) (val : const_reference E) : Outcome E Unit :=
  let released : Bool := if self.sz ≥ self.max_sz then grow_releases self else false
  (if self.sz ≥ self.max_sz then grow self else .ok () self).andThen fun _ self =>
    Outcome.ofState ((val.read released self.values).bind (store_back self))

/-- The member `pop_back`. -/
def pop_back (self : Vector E) : Outcome E Unit :=
  if self.sz ≤ 0 then
    .thrown (.out_of_range "pop_back() was called on an empty Vector") self
  else .ok () { self with sz := self.sz - 1 }

/-- The member `operator[]`, mutable form; the reference it returns is modelled by the
value of the slot. -/
def operator_index (self : Vector E) (index : Nat) : Outcome E E :=
  if index ≥ self.sz ∨ index < 0 then
    .thrown (.out_of_range ("index " ++ toString index ++ " out of range for size "
      ++ toString self.sz)) self
  else
    match load self.values index with
    | none => .undefined
    | some x => .ok x self

/-- The member `operator[]`, read-only form. -/
def operator_index_const (self : Vector E) (index : Nat) : Outcome E E :=
  if index ≥ self.sz ∨ index < 0 then
    .thrown (.out_of_range ("index " ++ toString index ++ " out of range for size "
      ++ toString self.sz)) self
  else
    match load self.values index with
    | none => .undefined
    | some x => .ok x self

/-- The member `begin`. -/
def begin (_self : Vector E) : Iterator := ⟨0⟩

/-- The member `end`. -/
def end_ (self : Vector E) : Iterator := ⟨(self.sz : Int)⟩

/-- The member `insert`.  The statement `values[current] = val` reads `val` after the growth
step and after the loop that shifts the tail. -/
def insert (self : Vector E) (pos : ConstIterator) (val : const_reference E) :
    Outcome E Iterator :=
  let diff : Int := pos.sub (begin self).toConst
  if diff < 0 then .thrown (.out_of_range "iterator out of range") self
  else
    let current : Nat := diff.toNat
    if current > self.sz then .thrown (.out_of_range "iterator out of range") self
    else
      let released : Bool := if self.sz ≥ self.max_sz then grow_releases self else false
      (if self.sz ≥ self.max_sz then grow self else .ok () self).andThen fun _ self =>
        match forDown (fun i p => (load p i).bind (store p (i + 1))) current self.sz
            self.values with
        | none => .undefined
        | some p =>
          match (val.read released p).bind (store p current) with
          | none => .undefined
          | some p => .ok ⟨(current : Int)⟩ { self with values := p, sz := self.sz + 1 }

/-- The member `erase`. -/
def erase (self : Vector E) (pos : ConstIterator) : Outcome E Iterator :=
  let diff : Int := pos.sub (begin self).toConst
  if diff < 0 then .thrown (.out_of_range "iterator out of range") self
  else
    let current : Nat := diff.toNat
    if current ≥ self.sz then .thrown (.out_of_range "iterator out of range") self
    else
      match forUp (fun i p => (load p (i + 1)).bind (store p i)) (self.sz - 1 - current)
          current self.values with
      | none => .undefined
      | some p => .ok ⟨(current : Int)⟩ { self with values := p, sz := self.sz - 1 }

/-! ## Predicates used in the statements -/

/-- The slots of the storage, none for a null pointer. -/
def slots (self : Vector E) : List E := self.values.getD []

/-- The live elements: the slots at positions `[0, sz)`. -/
def live (self : Vector E) : List E := self.slots.take self.sz

/-- The invariant `size <= capacity`. -/
def Inv (self : Vector E) : Prop := self.sz ≤ self.max_sz

/-- The storage `values` points to has `max_sz` slots (none when it is null). -/
def Alloc (self : Vector E) : Prop := self.slots.length = self.max_sz

instance (self : Vector E) : Decidable self.Inv :=
  inferInstanceAs (Decidable (self.sz ≤ self.max_sz))

instance (self : Vector E) : Decidable self.Alloc :=
  inferInstanceAs (Decidable (self.slots.length = self.max_sz))

/-- Calling `push_back` for each argument of `xs` in order. -/
def push_back_all (self : Vector E) (xs : List (const_reference E)) : Outcome E Unit :=
  xs.foldl (fun o x => o.andThen fun _ self => push_back self x) (.ok () self)

end Vector

/-- The property `P` holds of the state a call leaves the object in, whether it returned
or threw, and the call has defined behaviour. -/
def Outcome.Leaves {E α : Type} (o : Outcome E α) (P : Vector E → Prop) : Prop :=
  match o with
  | .ok _ s => P s
  | .thrown _ s => P s
  | .undefined => False

/-- The call threw an exception. -/
def Outcome.Raises {E α : Type} (o : Outcome E α) : Prop :=
  match o with
  | .thrown _ _ => True
  | _ => False

instance {E α : Type} (o : Outcome E α) (P : Vector E → Prop) [DecidablePred P] :
    Decidable (o.Leaves P) :=
  match o with
  | .ok _ s => inferInstanceAs (Decidable (P s))
  | .thrown _ s => inferInstanceAs (Decidable (P s))
  | .undefined => isFalse fun h => h

instance {E α : Type} (o : Outcome E α) : Decidable o.Raises :=
  match o with
  | .ok _ _ => isFalse fun h => h
  | .thrown _ _ => isTrue trivial
  | .undefined => isFalse fun h => h

/-! ## Cost of reallocation -/

namespace Vector

variable {E : Type} [Inhabited E]

/-- The number of times `reserve(n)` executes the assignment `buf[i] = values[i]`. -/
def reserve_copies (self : Vector E) (n : Nat) : Nat :=
  if self.max_sz ≥ n then 0 else self.sz - 0

/-- The number of element copies `grow()` makes. -/
def grow_copies (self : Vector E) : Nat :=
  reserve_copies self (grow_target self.max_sz)

/-- The number of element copies into new storage that `push_back` makes. -/
def push_back_copies (self : Vector E) : Nat :=
  if self.sz ≥ self.max_sz then grow_copies self else 0

/-- The total number of element copies into new storage made by calling `push_back` for
each argument of `xs` in order. -/
def push_back_all_copies : Vector E → List (const_reference E) → Nat
  | _, [] => 0
  | self, x :: xs =>
    push_back_copies self +
      match push_back self x with
      | .ok _ self1 => push_back_all_copies self1 xs
      | _ => 0

end Vector

/-! ## Formatting -/

namespace Vector

variable {E : Type}

/-- The member `print`.  The stream is the text written to it so far and `render` is the
text that `operator<<` of the element type writes; `none` is undefined behaviour. -/
def print (render : E → String) (self : Vector E) (o : String) : Option String :=
  let o := o ++ "["
  (forUp (fun i (st : String × Bool) =>
      let o := if !st.2 then st.1 ++ ", " else st.1
      let first := if !st.2 then st.2 else false
      (load self.values i).map fun x => (o ++ render x, first))
    (self.sz - 0) 0 (o, true)).map fun st => st.1 ++ "]"

/-- The free function `operator<<` for `Vector<E>`. -/
def operator_shl (render : E → String) (o : String) (v : Vector E) : Option String :=
  v.print render o

/-- The storage is allocated exactly when the capacity is positive. -/
def StorageIff (self : Vector E) : Prop := self.values.isSome = true ↔ 0 < self.max_sz

instance (self : Vector E) : Decidable self.StorageIff :=
  inferInstanceAs (Decidable (self.values.isSome = true ↔ 0 < self.max_sz))

end Vector

/-! ## The container with its storage in the free store

The definitions above keep the array of a vector inside the vector.  To speak about two
vectors and the storage each of them owns, the member functions below are embedded once
more with `values` an address into a free store that all objects share. -/

/-- The free store: the arrays allocated so far, each at the position that is its address;
an entry is `none` once `delete[]` has released it. -/
abbrev Store (E : Type) := List (Ptr E)

/-- The data members of a `Vector<E>` whose `values` is `none` for `nullptr` or the
address of an array in the free store. -/
structure Obj where
  sz : Nat
  max_sz : Nat
  values : Option Nat
deriving DecidableEq, Repr

namespace Mem

variable {E : Type} [Inhabited E]

/-- The array a pointer points to: `none` for a null pointer, for an address that was never
allocated and for released storage. -/
def deref (h : Store E) (p : Option Nat) : Ptr E :=
  match p with
  | none => none
  | some a => (h[a]?).join

/-- The vector an object denotes: its data members with the array `values` points to. -/
def view (h : Store E) (o : Obj) : Vector E := ⟨o.sz, o.max_sz, deref h o.values⟩

/-- Read `p[i]`; `none` is undefined behaviour. -/
def load (h : Store E) (p : Option Nat) (i : Nat) : Option E := PR2.load (deref h p) i

/-- Write `p[i] = x`; `none` is undefined behaviour. -/
def store (h : Store E) (p : Option Nat) (i : Nat) (x : E) : Option (Store E) :=
  match p with
  | none => none
  | some a => (PR2.store (deref h p) i x).map fun blk => h.set a blk

/-- The expression `new value_type[n]`: a new array at an address not in use before. -/
def new_array (h : Store E) (n : Nat) : Store E × Option Nat :=
  (h ++ [PR2.new_array n], some h.length)

/-- The statement `delete[] p`. -/
def delete_array (h : Store E) (p : Option Nat) : Store E :=
  match p with
  | none => h
  | some a => h.set a none

/-- The constructor `Vector(size_type n)`. -/
def sized_ctor (h : Store E) (n : Nat) : Store E × Obj :=
  if n ≤ 0 then (h, ⟨0, n, none⟩) else ((new_array h n).1, ⟨0, n, (new_array h n).2⟩)

/-- The constructor `Vector(const Vector& v)`. -/
def copy_ctor (h : Store E) (v : Obj) : Option (Store E × Obj) :=
  forUp (fun _ (st : Store E × Obj) => (load st.1 v.values st.2.sz).bind fun x =>
      (store st.1 st.2.values st.2.sz x).map fun h1 => (h1, { st.2 with sz := st.2.sz + 1 }))
    (v.sz - (sized_ctor h v.max_sz).2.sz) (sized_ctor h v.max_sz).2.sz (sized_ctor h v.max_sz)

/-- The member `operator=` called with another object `v`. -/
def operator_assign (h : Store E) (self v : Obj) : Option (Store E × Obj) :=
  let st1 : Store E × Obj :=
    if v.sz > self.max_sz then
      ((new_array (delete_array h self.values) v.max_sz).1,
        { self with values := (new_array (delete_array h self.values) v.max_sz).2,
                    max_sz := v.max_sz })
    else (h, self)
  let st2 : Store E × Obj := (st1.1, { st1.2 with sz := 0 })
  forUp (fun _ (st : Store E × Obj) => (load st.1 v.values st.2.sz).bind fun x =>
      (store st.1 st.2.values st.2.sz x).map fun h1 => (h1, { st.2 with sz := st.2.sz + 1 }))
    (v.sz - st2.2.sz) st2.2.sz st2

/-- The member `reserve`. -/
def reserve (h : Store E) (self : Obj) (n : Nat) : Option (Store E × Obj) :=
  if self.max_sz ≥ n then some (h, self)
  else
    (forUp (fun i h1 => (load h1 self.values i).bind (store h1 (new_array h n).2 i))
        (self.sz - 0) 0 (new_array h n).1).map fun h2 =>
      (delete_array h2 self.values, { self with values := (new_array h n).2, max_sz := n })

/-- The member `grow`. -/
def grow (h : Store E) (self : Obj) : Option (Store E × Obj) :=
  reserve h self (Vector.grow_target self.max_sz)

/-- Read through a reference: `p` is what `values` was when the member function was called,
so a slot is read from the array at that address as the store holds it now. -/
def read (h : Store E) (p : Option Nat) (val : const_reference E) : Option E :=
  match val with
  | .object x => some x
  | .slot i => load h p i

/-- The member `push_back`. -/
def push_back (h : Store E) (self : Obj) (val : const_reference E) : Option (Store E × Obj) :=
  (if self.sz ≥ self.max_sz then grow h self else some (h, self)).bind fun st =>
    (read st.1 self.values val).bind fun x =>
      (store st.1 st.2.values st.2.sz x).map fun h1 => (h1, { st.2 with sz := st.2.sz + 1 })

end Mem

namespace Mem

/-- The pointer `values` of an object is null or the address of an array of the store. -/
def Allocated {E : Type} (h : Store E) (o : Obj) : Prop :=
  match o.values with
  | none => True
  | some a => a < h.length

instance {E : Type} (h : Store E) (o : Obj) : Decidable (Allocated h o) := by
  unfold Allocated
  cases o.values with
  | none => exact isTrue trivial
  | some a => exact inferInstanceAs (Decidable (a < h.length))

/-- Two objects do not point to the same array. -/
def Separate (a b : Obj) : Prop :=
  match a.values with
  | none => True
  | some p => b.values ≠ some p

instance (a b : Obj) : Decidable (Separate a b) := by
  unfold Separate
  cases a.values with
  | none => exact isTrue trivial
  | some p => exact inferInstanceAs (Decidable (b.values ≠ some p))

end Mem

namespace Mem

variable {E : Type} [Inhabited E]

/-- The result of calling a member function that may throw, in the free store: it returns
`result`, or throws `e`, and leaves the store in state `h` and the object in state `self`;
or its behaviour is undefined. -/
inductive Result (E α : Type) where
  | ok (result : α) (h : Store E) (self : Obj)
  | thrown (e : Exn) (h : Store E) (self : Obj)
  | undefined
deriving DecidableEq, Repr

/-- The property `P` holds of the store and the object as a call leaves them, whether it
returned or threw, and the call has defined behaviour. -/
def Result.Leaves {α : Type} (r : Result E α) (P : Store E → Obj → Prop) : Prop :=
  match r with
  | .ok _ h self => P h self
  | .thrown _ h self => P h self
  | .undefined => False

/-- The same for a member function that does not throw. -/
def Leaves (r : Option (Store E × Obj)) (P : Store E → Obj → Prop) : Prop :=
  match r with
  | some (h, self) => P h self
  | none => False

instance {α : Type} (r : Result E α) (P : Store E → Obj → Prop) [∀ h o, Decidable (P h o)] :
    Decidable (r.Leaves P) :=
  match r with
  | .ok _ h self => inferInstanceAs (Decidable (P h self))
  | .thrown _ h self => inferInstanceAs (Decidable (P h self))
  | .undefined => isFalse fun h => h

instance (r : Option (Store E × Obj)) (P : Store E → Obj → Prop) [∀ h o, Decidable (P h o)] :
    Decidable (Leaves r P) :=
  match r with
  | some (h, self) => inferInstanceAs (Decidable (P h self))
  | none => isFalse fun h => h

/-- The member `begin`: iterators are offsets from `values`, as above. -/
def begin (_self : Obj) : Iterator := ⟨0⟩

/-- The member `clear`. -/
def clear (h : Store E) (self : Obj) : Option (Store E × Obj) :=
  some (h, { self with sz := 0 })

/-- The member `shrink_to_fit`. -/
def shrink_to_fit (h : Store E) (self : Obj) : Option (Store E × Obj) :=
  if self.max_sz ≤ self.sz then some (h, self)
  else
    (forUp (fun i h1 => (load h1 self.values i).bind (store h1 (new_array h self.sz).2 i))
        (self.sz - 0) 0 (new_array h self.sz).1).map fun h2 =>
      (delete_array h2 self.values,
        { self with values := (new_array h self.sz).2, max_sz := self.sz })

/-- The member `pop_back`. -/
def pop_back (h : Store E) (self : Obj) : Result E Unit :=
  if self.sz ≤ 0 then
    .thrown (.out_of_range "pop_back() was called on an empty Vector") h self
  else .ok () h { self with sz := self.sz - 1 }

/-- The member `insert`. -/
def insert (h : Store E) (self : Obj) (pos : ConstIterator) (val : const_reference E) :
    Result E Iterator :=
  let diff : Int := pos.sub (begin self).toConst
  if diff < 0 then .thrown (.out_of_range "iterator out of range") h self
  else
    let current : Nat := diff.toNat
    if current > self.sz then .thrown (.out_of_range "iterator out of range") h self
    else
      match (if self.sz ≥ self.max_sz then grow h self else some (h, self)) with
      | none => .undefined
      | some (h1, self1) =>
        match forDown (fun i h2 => (load h2 self1.values i).bind
            (store h2 self1.values (i + 1))) current self1.sz h1 with
        | none => .undefined
        | some h2 =>
          match (read h2 self.values val).bind (store h2 self1.values current) with
          | none => .undefined
          | some h3 => .ok ⟨(current : Int)⟩ h3 { self1 with sz := self1.sz + 1 }

/-- The member `erase`. -/
def erase (h : Store E) (self : Obj) (pos : ConstIterator) : Result E Iterator :=
  let diff : Int := pos.sub (begin self).toConst
  if diff < 0 then .thrown (.out_of_range "iterator out of range") h self
  else
    let current : Nat := diff.toNat
    if current ≥ self.sz then .thrown (.out_of_range "iterator out of range") h self
    else
      match forUp (fun i h1 => (load h1 self.values (i + 1)).bind (store h1 self.values i))
          (self.sz - 1 - current) current h with
      | none => .undefined
      | some h1 => .ok ⟨(current : Int)⟩ h1 { self with sz := self.sz - 1 }

end Mem

namespace Mem

/-- What a call on the object `o` in the store `h` guarantees about the store `h2` and the
object `o2` it leaves behind: the object points into the store, no address went out of
use, and every array other than the one of `o` is as it was and is not the array of
`o2`. -/
def Frame {E : Type} (h : Store E) (o : Obj) (h2 : Store E) (o2 : Obj) : Prop :=
  Allocated h2 o2 ∧ h.length ≤ h2.length ∧
    ∀ a, a < h.length → o.values ≠ some a → h2[a]? = h[a]? ∧ o2.values ≠ some a

instance {E : Type} [DecidableEq E] (h : Store E) (o : Obj) (h2 : Store E) (o2 : Obj) :
    Decidable (Frame h o h2 o2) :=
  inferInstanceAs (Decidable (Allocated h2 o2 ∧ h.length ≤ h2.length ∧
    ∀ a, a < h.length → o.values ≠ some a → h2[a]? = h[a]? ∧ o2.values ≠ some a))

end Mem

/-! ## Rounding -/

theorem excessBits_small (fuel N : Nat) (h : N < 2 ^ 53) : excessBits fuel N = 0 := by
  cases fuel with
  | zero => rfl
  | succ f => rw [excessBits, if_pos h]

theorem excessBits_spec (fuel : Nat) : ∀ N : Nat, N < 2 ^ (53 + fuel) →
    N / 2 ^ excessBits fuel N < 2 ^ 53 ∧ (2 ^ 53 ≤ N → 2 ^ 52 ≤ N / 2 ^ excessBits fuel N) := by
  induction fuel with
  | zero =>
    intro N hN
    simp only [excessBits, pow_zero, Nat.div_one, Nat.add_zero] at *
    exact ⟨hN, fun h => absurd hN (by omega)⟩
  | succ f ih =>
    intro N hN
    by_cases hs : N < 2 ^ 53
    · rw [excessBits, if_pos hs]
      simp only [pow_zero, Nat.div_one]
      exact ⟨hs, fun h => absurd hs (by omega)⟩
    · have hhalf : N / 2 < 2 ^ (53 + f) := by
        have : 2 ^ (53 + (f + 1)) = 2 * 2 ^ (53 + f) := by rw [← Nat.add_assoc, pow_succ]; ring
        omega
      have hdiv : N / 2 ^ (excessBits f (N / 2) + 1) = N / 2 / 2 ^ excessBits f (N / 2) := by
        rw [pow_succ, Nat.mul_comm, Nat.div_div_eq_div_mul]
      rw [excessBits, if_neg hs, hdiv]
      refine ⟨(ih _ hhalf).1, fun _ => ?_⟩
      by_cases h2 : 2 ^ 53 ≤ N / 2
      · exact (ih _ hhalf).2 h2
      · rw [excessBits_small f (N / 2) (by omega)]
        simp only [pow_zero, Nat.div_one]
        omega

theorem roundMant_lower (N : Nat) : (2 ^ 53 - 1) * N ≤ 2 ^ 53 * roundMant N := by
  unfold roundMant
  by_cases hs : N < 2 ^ 53
  · rw [if_pos hs]
    exact Nat.mul_le_mul_right N (by norm_num)
  · rw [if_neg hs]
    have hfuel : N < 2 ^ (53 + N) :=
      lt_of_lt_of_le (Nat.lt_two_pow N) (Nat.pow_le_pow_right (by norm_num) (by omega))
    have hq := (excessBits_spec N N hfuel).2 (by omega)
    generalize excessBits N N = s at hq ⊢
    have hP : 0 < 2 ^ s := Nat.two_pow_pos s
    have hdm := Nat.div_add_mod N (2 ^ s)
    have hr := Nat.mod_lt N hP
    rw [Nat.mul_comm (2 ^ s)] at hdm
    simp only []
    generalize N / 2 ^ s = q at *
    generalize N % 2 ^ s = r at *
    generalize 2 ^ s = P at *
    have hX : 2 ^ 52 * P ≤ q * P := Nat.mul_le_mul_right P hq
    rw [Nat.add_mul, Nat.one_mul]
    generalize q * P = X at *
    split <;> omega

theorem grow_target_gt (c : Nat) : c < Vector.grow_target c := by
  unfold Vector.grow_target Dbl.toSize Dbl.add Dbl.mul Dbl.ofSize Dbl.round LOAD_FACTOR
    LOAD_CONSTANT
  simp only [Nat.add_zero, Nat.zero_add, pow_zero, Nat.mul_one]
  have h1 := roundMant_lower c
  have h2 := roundMant_lower (roundMant c * 7286824197085463)
  have h3 := roundMant_lower
    (roundMant (roundMant c * 7286824197085463) + roundMant 5 * 2 ^ 52)
  have h5 : roundMant 5 = 5 := by decide
  rw [h5] at h3 ⊢
  generalize roundMant (roundMant (roundMant c * 7286824197085463) + 5 * 2 ^ 52) = d at *
  generalize roundMant (roundMant c * 7286824197085463) = b at *
  generalize roundMant c = a at *
  rw [Nat.lt_iff_add_one_le, Nat.le_div_iff_mul_le (Nat.two_pow_pos 52)]
  omega


/-! ## Storage loops -/

section Loops

variable {E : Type}

theorem load_some (a : List E) (i : Nat) : load (some a) i = a[i]? := rfl

theorem store_some (a : List E) (i : Nat) (x : E) (h : i < a.length) :
    store (some a) i x = some (some (a.set i x)) := by
  simp [store, h]

/-- The element-wise copy `buf[i] = values[i]` for `i` in `[i, i + n)`. -/
theorem copy_loop_spec (a : List E) (n : Nat) : ∀ (i : Nat) (b : List E),
    i + n ≤ a.length → i + n ≤ b.length →
    ∃ b1, forUp (fun i buf => (load (some a) i).bind (store buf i)) n i (some b)
        = some (some b1) ∧ b1.length = b.length ∧
      ∀ j, b1[j]? = if i ≤ j ∧ j < i + n then a[j]? else b[j]? := by
  induction n with
  | zero =>
    intro i b _ _
    refine ⟨b, rfl, rfl, fun j => ?_⟩
    rw [if_neg (by omega)]
  | succ n ih =>
    intro i b ha hb
    have hia : i < a.length := by omega
    obtain ⟨b1, h1, h2, h3⟩ := ih (i + 1) (b.set i a[i]) (by omega)
      (by rw [List.length_set]; omega)
    refine ⟨b1, ?_, by rw [h2, List.length_set], fun j => ?_⟩
    · rw [forUp, load_some, List.getElem?_eq_getElem hia, Option.some_bind,
        store_some _ _ _ (by omega), Option.some_bind, h1]
    · rw [h3 j, List.getElem?_set]
      by_cases hj : i = j
      · subst hj
        rw [if_neg (by omega), if_pos rfl, if_pos (by omega), if_pos (by omega),
          List.getElem?_eq_getElem hia]
      · rw [if_neg hj]
        by_cases hj2 : i + 1 ≤ j ∧ j < i + 1 + n
        · rw [if_pos hj2, if_pos (by omega)]
        · rw [if_neg hj2, if_neg (by omega)]

/-- The loop of `insert`: `values[i + 1] = values[i]` for `i` from `hi - 1` down to `lo`. -/
theorem shift_up_spec (lo : Nat) : ∀ (hi : Nat) (a : List E), hi < a.length →
    ∃ a1, forDown (fun i p => (load p i).bind (store p (i + 1))) lo hi (some a)
        = some (some a1) ∧ a1.length = a.length ∧
      ∀ j, a1[j]? = if lo < j ∧ j ≤ hi then a[j - 1]? else a[j]? := by
  intro hi
  induction hi with
  | zero =>
    intro a _
    refine ⟨a, rfl, rfl, fun j => ?_⟩
    rw [if_neg (by omega)]
  | succ i ih =>
    intro a ha
    by_cases hlo : i + 1 > lo
    · have hia : i < a.length := by omega
      obtain ⟨a1, h1, h2, h3⟩ := ih (a.set (i + 1) a[i]) (by rw [List.length_set]; omega)
      refine ⟨a1, ?_, by rw [h2, List.length_set], fun j => ?_⟩
      · rw [forDown, if_pos hlo, load_some, List.getElem?_eq_getElem hia, Option.some_bind,
          store_some _ _ _ ha, Option.some_bind, h1]
      · rw [h3 j]
        by_cases hj : lo < j ∧ j ≤ i
        · rw [if_pos hj, if_pos (by omega), List.getElem?_set, if_neg (by omega)]
        · rw [if_neg hj, List.getElem?_set]
          by_cases hj2 : i + 1 = j
          · subst hj2
            rw [if_pos rfl, if_pos ha, if_pos (by omega), Nat.add_sub_cancel,
              List.getElem?_eq_getElem hia]
          · rw [if_neg hj2, if_neg (by omega)]
    · refine ⟨a, ?_, rfl, fun j => ?_⟩
      · rw [forDown, if_neg hlo]
      · rw [if_neg (by omega)]

/-- The loop of `erase`: `values[i] = values[i + 1]` for `i` in `[i, i + n)`. -/
theorem shift_down_spec (n : Nat) : ∀ (i : Nat) (a : List E), i + n < a.length →
    ∃ a1, forUp (fun i p => (load p (i + 1)).bind (store p i)) n i (some a)
        = some (some a1) ∧ a1.length = a.length ∧
      ∀ j, a1[j]? = if i ≤ j ∧ j < i + n then a[j + 1]? else a[j]? := by
  induction n with
  | zero =>
    intro i a _
    refine ⟨a, rfl, rfl, fun j => ?_⟩
    rw [if_neg (by omega)]
  | succ n ih =>
    intro i a ha
    have hia : i + 1 < a.length := by omega
    obtain ⟨a1, h1, h2, h3⟩ := ih (i + 1) (a.set i a[i + 1]) (by rw [List.length_set]; omega)
    refine ⟨a1, ?_, by rw [h2, List.length_set], fun j => ?_⟩
    · rw [forUp, load_some, List.getElem?_eq_getElem hia, Option.some_bind,
        store_some _ _ _ (by omega), Option.some_bind, h1]
    · rw [h3 j]
      by_cases hj : i + 1 ≤ j ∧ j < i + 1 + n
      · rw [if_pos hj, if_pos (by omega), List.getElem?_set, if_neg (by omega)]
      · rw [if_neg hj, List.getElem?_set]
        by_cases hj2 : i = j
        · subst hj2
          rw [if_pos rfl, if_pos (by omega), if_pos (by omega), List.getElem?_eq_getElem hia]
        · rw [if_neg hj2, if_neg (by omega)]

end Loops


/-! ## Lists of live elements -/

section Lists

variable {E : Type}

theorem take_eq_take_of_getElem? (l1 l2 : List E) (k : Nat)
    (h : ∀ j, j < k → l1[j]? = l2[j]?) : l1.take k = l2.take k := by
  apply List.ext_getElem?
  intro j
  rw [List.getElem?_take, List.getElem?_take]
  by_cases hj : j < k
  · rw [if_pos hj, if_pos hj, h j hj]
  · rw [if_neg hj, if_neg hj]

theorem getElem?_insert_list (xs : List E) (k : Nat) (hk : k ≤ xs.length) (val : E) (j : Nat) :
    (xs.take k ++ [val] ++ xs.drop k)[j]?
      = if j < k then xs[j]? else if j = k then some val else xs[j - 1]? := by
  have hlen : (xs.take k).length = k := by rw [List.length_take]; omega
  rw [List.append_assoc, List.getElem?_append, hlen]
  by_cases h1 : j < k
  · rw [if_pos h1, if_pos h1, List.getElem?_take_of_lt h1]
  · rw [if_neg h1, if_neg h1]
    by_cases h2 : j = k
    · subst h2
      rw [if_pos rfl, Nat.sub_self, List.singleton_append, List.getElem?_cons_zero]
    · rw [if_neg h2]
      obtain ⟨m, hm⟩ : ∃ m, j - k = m + 1 := ⟨j - k - 1, by omega⟩
      rw [hm, List.singleton_append, List.getElem?_cons_succ, List.getElem?_drop]
      congr 1
      omega

theorem getElem?_erase_list (xs : List E) (k : Nat) (hk : k ≤ xs.length) (j : Nat) :
    (xs.take k ++ xs.drop (k + 1))[j]? = if j < k then xs[j]? else xs[j + 1]? := by
  have hlen : (xs.take k).length = k := by rw [List.length_take]; omega
  rw [List.getElem?_append, hlen]
  by_cases h1 : j < k
  · rw [if_pos h1, if_pos h1, List.getElem?_take_of_lt h1]
  · rw [if_neg h1, if_neg h1, List.getElem?_drop]
    congr 1
    omega

end Lists


/-! ## Capacity management -/

namespace Vector

variable {E : Type} [Inhabited E]

theorem reserve_spec (v : Vector E) (n : Nat) (hA : v.Alloc) (hI : v.Inv) :
    ∃ v1, v.reserve n = .ok () v1 ∧ v1.sz = v.sz ∧ v1.max_sz = max v.max_sz n ∧
      v1.live = v.live ∧ v1.Alloc ∧ (n ≤ v.max_sz → v1 = v) := by
  obtain ⟨sz, cap, vals⟩ := v
  simp only [Alloc, Inv, slots, live] at *
  unfold reserve
  by_cases h : cap ≥ n
  · exact ⟨_, if_pos h, rfl, (Nat.max_eq_left h).symm, rfl, hA, fun _ => rfl⟩
  · rw [if_neg h]
    simp only [Nat.sub_zero]
    have hmax : n = max cap n := (Nat.max_eq_right (by omega)).symm
    cases vals with
    | none =>
      simp only [Option.getD_none, List.length_nil] at hA
      have hsz : sz = 0 := by omega
      subst hsz
      refine ⟨_, rfl, rfl, hmax, ?_, ?_, fun h1 => absurd h1 (by omega)⟩
      · simp only [List.take_zero]
      · simp only [new_array, Option.getD_some, List.length_replicate]
    | some a =>
      simp only [Option.getD_some] at hA ⊢
      obtain ⟨b1, h1, h2, h3⟩ := copy_loop_spec a sz 0 (List.replicate n default)
        (by omega) (by rw [List.length_replicate]; omega)
      simp only [new_array, h1]
      refine ⟨_, rfl, rfl, hmax, ?_, ?_, fun h1 => absurd h1 (by omega)⟩
      · simp only [Option.getD_some]
        apply take_eq_take_of_getElem?
        intro j hj
        rw [h3 j, if_pos (by omega)]
      · simp only [Option.getD_some, h2, List.length_replicate]

end Vector


/-! ## Appending and positional insertion and removal -/

namespace Vector

section Storage

variable {E : Type}

theorem values_of_alloc (v : Vector E) (hA : v.Alloc) (h : 0 < v.max_sz) :
    ∃ a, v.values = some a ∧ a.length = v.max_sz := by
  obtain ⟨sz, cap, vals⟩ := v
  simp only [Alloc, slots] at *
  cases vals with
  | none =>
    simp only [Option.getD_none, List.length_nil] at hA
    omega
  | some a => exact ⟨a, rfl, by simpa using hA⟩

theorem live_of_values (v : Vector E) (a : List E) (h : v.values = some a) :
    v.live = a.take v.sz := by
  simp only [live, slots, h, Option.getD_some]

theorem alloc_of_values (v : Vector E) (a : List E) (h : v.values = some a)
    (hl : a.length = v.max_sz) : v.Alloc := by
  simp only [Alloc, slots, h, Option.getD_some, hl]

theorem length_live (v : Vector E) (hA : v.Alloc) (hI : v.Inv) : v.live.length = v.sz := by
  simp only [Alloc, Inv, live, List.length_take] at *
  omega

theorem take_set_succ (a : List E) (k : Nat) (x : E) (hk : k < a.length) :
    (a.set k x).take (k + 1) = a.take k ++ [x] := by
  apply List.ext_getElem?
  intro j
  have hlen : (a.take k).length = k := by rw [List.length_take]; omega
  rw [List.getElem?_take, List.getElem?_set, List.getElem?_append, hlen]
  by_cases h1 : j < k
  · rw [if_pos (by omega), if_neg (by omega), if_pos h1, List.getElem?_take_of_lt h1]
  · rw [if_neg h1]
    by_cases h2 : j = k
    · subst h2
      rw [if_pos (by omega), if_pos rfl, if_pos hk, Nat.sub_self, List.getElem?_cons_zero]
    · rw [if_neg (by omega)]
      obtain ⟨m, hm⟩ : ∃ m, j - k = m + 1 := ⟨j - k - 1, by omega⟩
      rw [hm, List.getElem?_cons_succ, List.getElem?_nil]

/-- The member `erase` at a position that references a live element. -/
theorem erase_spec (v : Vector E) (index : Nat) (hA : v.Alloc) (hI : v.Inv)
    (hi : index < v.sz) :
    ∃ v2, v.erase ⟨(index : Int)⟩ = .ok ⟨(index : Int)⟩ v2 ∧ v2.sz = v.sz - 1 ∧
      v2.live = v.live.take index ++ v.live.drop (index + 1) ∧ v2.Alloc ∧ v2.Inv ∧
      v2.max_sz = v.max_sz := by
  have hI1 : v.sz ≤ v.max_sz := hI
  obtain ⟨a, ha, hl⟩ := values_of_alloc v hA (by omega)
  obtain ⟨a1, s1, s2, s3⟩ := shift_down_spec (v.sz - 1 - index) index a (by omega)
  refine ⟨{ v with values := some a1, sz := v.sz - 1 }, ?_, rfl, ?_, ?_, ?_, rfl⟩
  · have hd : ¬ ((index : Int) < 0) := by omega
    have hc : ¬ (index ≥ v.sz) := by omega
    simp only [erase, ConstIterator.sub, begin, Iterator.toConst, if_neg hd, Int.sub_zero,
      Int.toNat_ofNat, if_neg hc, ha, s1]
  · have hlen : v.live.length = v.sz := length_live v hA hI
    rw [live_of_values v a ha] at hlen ⊢
    rw [live_of_values _ a1 rfl]
    simp only []
    apply List.ext_getElem?
    intro j
    rw [getElem?_erase_list _ _ (by omega), List.getElem?_take, s3 j]
    by_cases c1 : j < index
    · rw [if_pos (by omega), if_neg (by omega), if_pos c1, List.getElem?_take_of_lt (by omega)]
    · rw [if_neg c1]
      by_cases c2 : j < v.sz - 1
      · rw [if_pos c2, if_pos (by omega), List.getElem?_take_of_lt (by omega)]
      · rw [if_neg c2, List.getElem?_take, if_neg (by omega)]
  · simp only [Alloc, slots, Option.getD_some, s2, hl]
  · simp only [Inv]; omega

/-- The call `grow()` always releases the array: its target exceeds the capacity. -/
theorem grow_releases_of_full (v : Vector E) : grow_releases v = true := by
  have hgt := grow_target_gt v.max_sz
  simp only [grow_releases, reserve_releases]
  rw [if_neg (by omega)]

end Storage

variable {E : Type} [Inhabited E]

/-- The growth step `if (sz >= max_sz) grow();` leaves a free slot behind the live
elements. -/
theorem grow_if_full_spec (v : Vector E) (hA : v.Alloc) (hI : v.Inv) :
    ∃ v1 a1, (if v.sz ≥ v.max_sz then grow v else Outcome.ok () v) = .ok () v1 ∧
      v1.values = some a1 ∧ a1.length = v1.max_sz ∧ v1.sz = v.sz ∧ v1.sz < v1.max_sz ∧
      a1.take v1.sz = v.live ∧
      v1.max_sz = (if v.sz ≥ v.max_sz then grow_target v.max_sz else v.max_sz) := by
  by_cases h : v.sz ≥ v.max_sz
  · simp only [if_pos h, grow]
    obtain ⟨v1, h1, h2, h3, h4, h5, _⟩ := reserve_spec v (grow_target v.max_sz) hA hI
    have hgt := grow_target_gt v.max_sz
    have hcap : v1.max_sz = grow_target v.max_sz := by rw [h3]; exact Nat.max_eq_right (by omega)
    obtain ⟨a1, ha1, hl1⟩ := values_of_alloc v1 h5 (by omega)
    refine ⟨v1, a1, h1, ha1, hl1, h2, ?_, ?_, hcap⟩
    · simp only [Inv] at hI; omega
    · rw [← live_of_values v1 a1 ha1, h4]
  · simp only [if_neg h]
    obtain ⟨a1, ha1, hl1⟩ := values_of_alloc v hA (by omega)
    exact ⟨v, a1, rfl, ha1, hl1, rfl, by omega, (live_of_values v a1 ha1).symm, rfl⟩

theorem push_back_spec (v : Vector E) (x : E) (hA : v.Alloc) (hI : v.Inv) :
    ∃ v2, v.push_back (.object x) = .ok () v2 ∧ v2.sz = v.sz + 1 ∧ v2.live = v.live ++ [x] ∧
      v2.Alloc ∧ v2.Inv ∧
      v2.max_sz = (if v.sz ≥ v.max_sz then grow_target v.max_sz else v.max_sz) := by
  obtain ⟨v1, a1, h1, h2, h3, h4, h5, h6, h7⟩ := grow_if_full_spec v hA hI
  refine ⟨{ v1 with values := some (a1.set v1.sz x), sz := v1.sz + 1 }, ?_, ?_, ?_, ?_, ?_, h7⟩
  · simp only [push_back, h1, Outcome.andThen, const_reference.read, Option.some_bind,
      store_back, h2, store_some a1 v1.sz x (by omega), Option.map_some', Outcome.ofState]
  · simp only [h4]
  · rw [live_of_values _ (a1.set v1.sz x) rfl]
    simp only []
    rw [take_set_succ a1 v1.sz x (by omega), h6]
  · simp only [Alloc, slots, Option.getD_some, List.length_set, h3]
  · simp only [Inv]; omega

theorem insert_spec (v : Vector E) (index : Nat) (val : E) (hA : v.Alloc) (hI : v.Inv)
    (hi : index ≤ v.sz) :
    ∃ v2, v.insert ⟨(index : Int)⟩ (.object val) = .ok ⟨(index : Int)⟩ v2 ∧
      v2.sz = v.sz + 1 ∧
      v2.live = v.live.take index ++ [val] ++ v.live.drop index ∧ v2.Alloc ∧ v2.Inv ∧
      v2.max_sz = (if v.sz ≥ v.max_sz then grow_target v.max_sz else v.max_sz) := by
  obtain ⟨v1, a1, h1, h2, h3, h4, h5, h6, h7⟩ := grow_if_full_spec v hA hI
  obtain ⟨a2, s1, s2, s3⟩ := shift_up_spec index v1.sz a1 (by omega)
  refine ⟨{ v1 with values := some (a2.set index val), sz := v1.sz + 1 }, ?_, ?_, ?_, ?_, ?_, h7⟩
  · have hd : ¬ ((index : Int) < 0) := by omega
    have hc : ¬ (index > v.sz) := by omega
    simp only [insert, ConstIterator.sub, begin, Iterator.toConst, if_neg hd, Int.sub_zero,
      Int.toNat_ofNat, if_neg hc, h1, Outcome.andThen, h2, s1, const_reference.read,
      Option.some_bind, store_some a2 index val (by omega)]
  · simp only [h4]
  · have hlen : v.live.length = v.sz := length_live v hA hI
    rw [live_of_values _ (a2.set index val) rfl]
    simp only []
    apply List.ext_getElem?
    intro j
    rw [getElem?_insert_list _ _ (by omega), List.getElem?_take, List.getElem?_set, ← h6]
    by_cases c1 : j < index
    · rw [if_pos (by omega), if_neg (by omega), if_pos c1, s3 j, if_neg (by omega),
        List.getElem?_take_of_lt (by omega)]
    · rw [if_neg c1]
      by_cases c2 : j = index
      · subst c2
        rw [if_pos (by omega), if_pos rfl, if_pos (by omega), if_pos rfl]
      · rw [if_neg c2]
        by_cases c3 : j < v1.sz + 1
        · rw [if_pos c3, if_neg (by omega), s3 j, if_pos (by omega),
            List.getElem?_take_of_lt (by omega)]
        · rw [if_neg c3, List.getElem?_take, if_neg (by omega)]
  · simp only [Alloc, slots, Option.getD_some, List.length_set, s2, h3]
  · simp only [Inv]; omega

/-- The growth step does not throw. -/
theorem grow_if_full_not_thrown (v : Vector E) (e : Exn) (s : Vector E) :
    (if v.sz ≥ v.max_sz then grow v else Outcome.ok () v) ≠ .thrown e s := by
  split
  · unfold grow reserve
    split
    · simp
    · split <;> simp
  · simp

/-- When the vector is full, `push_back` with a reference to one of its own slots reads the
array that `grow()` has released. -/
theorem push_back_slot_full (v : Vector E) (i : Nat) (h : v.sz ≥ v.max_sz) :
    v.push_back (.slot i) = .undefined := by
  simp only [push_back, if_pos h, grow_releases_of_full, const_reference.read, if_true,
    Option.none_bind, Outcome.ofState]
  cases hc : grow v with
  | ok u s1 => rfl
  | thrown e s1 =>
    have := grow_if_full_not_thrown v e s1
    rw [if_pos h] at this
    exact absurd hc this
  | undefined => rfl

/-- When the vector has a free slot, `push_back` with a reference to one of its own slots
stores what that slot holds. -/
theorem push_back_slot_free (v : Vector E) (i : Nat) (h : ¬ v.sz ≥ v.max_sz) :
    v.push_back (.slot i) =
      match load v.values i with
      | none => .undefined
      | some x => v.push_back (.object x) := by
  simp only [push_back, if_neg h, Outcome.andThen, const_reference.read, Bool.false_eq_true,
    if_false]
  cases load v.values i with
  | none => rfl
  | some x => rfl

/-- A call of `push_back` has undefined behaviour or does what the call with the value it
reads does. -/
theorem push_back_cases (v : Vector E) (val : const_reference E) :
    v.push_back val = .undefined ∨ ∃ x, v.push_back val = v.push_back (.object x) := by
  cases val with
  | object x => exact Or.inr ⟨x, rfl⟩
  | slot i =>
    by_cases h : v.sz ≥ v.max_sz
    · exact Or.inl (push_back_slot_full v i h)
    · rw [push_back_slot_free v i h]
      cases load v.values i with
      | none => exact Or.inl rfl
      | some x => exact Or.inr ⟨x, rfl⟩

end Vector


/-! ## Construction, assignment and shrinking -/

namespace Vector

section Storage

variable {E : Type}

/-- The loop `for (; sz < v.sz; ++sz) values[sz] = v.values[sz];` of the copy constructor
and of `operator=`, with `a` the slots of `v.values`. -/
theorem member_copy_loop_spec (a : List E) (n : Nat) : ∀ (i : Nat) (t : Vector E)
    (b : List E), t.values = some b → t.sz + n ≤ a.length → t.sz + n ≤ b.length →
    ∃ b1, forUp (fun _ self => (load (some a) self.sz).bind fun x =>
          (store self.values self.sz x).map fun p =>
            { self with values := p, sz := self.sz + 1 }) n i t
        = some { t with values := some b1, sz := t.sz + n } ∧ b1.length = b.length ∧
      ∀ j, b1[j]? = if t.sz ≤ j ∧ j < t.sz + n then a[j]? else b[j]? := by
  induction n with
  | zero =>
    intro i t b hb _ _
    refine ⟨b, ?_, rfl, fun j => ?_⟩
    · rw [forUp, ← hb]; rfl
    · rw [if_neg (by omega)]
  | succ n ih =>
    intro i t b hb ha hlb
    have hia : t.sz < a.length := by omega
    obtain ⟨b1, h1, h2, h3⟩ := ih (i + 1)
      { t with values := some (b.set t.sz a[t.sz]), sz := t.sz + 1 } (b.set t.sz a[t.sz]) rfl
      (by simp only []; omega) (by simp only [List.length_set]; omega)
    refine ⟨b1, ?_, by rw [h2, List.length_set], fun j => ?_⟩
    · rw [forUp, load_some, List.getElem?_eq_getElem hia, Option.some_bind, hb,
        store_some _ _ _ (by omega), Option.map_some', Option.some_bind, h1]
      simp only [Nat.add_assoc, Nat.add_comm 1 n]
    · rw [h3 j, List.getElem?_set]
      simp only []
      by_cases hj : t.sz = j
      · subst hj
        rw [if_neg (by omega), if_pos rfl, if_pos (by omega), if_pos (by omega),
          List.getElem?_eq_getElem hia]
      · rw [if_neg hj]
        by_cases hj2 : t.sz + 1 ≤ j ∧ j < t.sz + 1 + n
        · rw [if_pos hj2, if_pos (by omega)]
        · rw [if_neg hj2, if_neg (by omega)]

/-- The loop `for (const auto& v : l) values[sz++] = v;` of the list constructor. -/
theorem store_back_fold_spec (l : List E) : ∀ (t : Vector E) (b : List E),
    t.values = some b → t.sz + l.length ≤ b.length →
    ∃ b1, l.foldl (fun o v => o.bind fun self => store_back self v) (some t)
        = some { t with values := some b1, sz := t.sz + l.length } ∧ b1.length = b.length ∧
      b1.take (t.sz + l.length) = b.take t.sz ++ l := by
  induction l with
  | nil =>
    intro t b hb _
    refine ⟨b, ?_, rfl, ?_⟩
    · rw [List.foldl_nil, ← hb]; rfl
    · simp only [List.length_nil, Nat.add_zero, List.append_nil]
  | cons x l ih =>
    intro t b hb hlb
    simp only [List.length_cons] at hlb
    obtain ⟨b1, h1, h2, h3⟩ := ih
      { t with values := some (b.set t.sz x), sz := t.sz + 1 } (b.set t.sz x) rfl
      (by simp only [List.length_set]; omega)
    refine ⟨b1, ?_, by rw [h2, List.length_set], ?_⟩
    · rw [List.foldl_cons, Option.some_bind, store_back, hb, store_some _ _ _ (by omega),
        Option.map_some', h1]
      simp only [List.length_cons, Nat.add_assoc, Nat.add_comm 1 l.length]
    · simp only [] at h3
      rw [List.length_cons, ← Nat.add_assoc, Nat.add_right_comm, h3,
        take_set_succ b t.sz x (by omega), List.append_assoc, List.singleton_append]

theorem pop_back_ok (v : Vector E) (h : 0 < v.sz) :
    v.pop_back = .ok () { v with sz := v.sz - 1 } := by
  rw [pop_back, if_neg (by omega)]

theorem pop_back_thrown (v : Vector E) (h : v.sz = 0) :
    v.pop_back = .thrown (.out_of_range "pop_back() was called on an empty Vector") v := by
  rw [pop_back, if_pos (by omega)]

end Storage

variable {E : Type} [Inhabited E]

theorem shrink_to_fit_spec (v : Vector E) (hA : v.Alloc) (hI : v.Inv) :
    ∃ v1, v.shrink_to_fit = .ok () v1 ∧ v1.sz = v.sz ∧ v1.max_sz = v.sz ∧
      v1.live = v.live ∧ v1.Alloc ∧ (v.sz = v.max_sz → v1 = v) := by
  have hI1 : v.sz ≤ v.max_sz := hI
  unfold shrink_to_fit
  by_cases h : v.max_sz ≤ v.sz
  · exact ⟨v, if_pos h, rfl, by omega, rfl, hA, fun _ => rfl⟩
  · rw [if_neg h]
    obtain ⟨a, ha, hl⟩ := values_of_alloc v hA (by omega)
    obtain ⟨b1, h1, h2, h3⟩ := copy_loop_spec a v.sz 0 (List.replicate v.sz default)
      (by omega) (by rw [List.length_replicate]; omega)
    simp only [Nat.sub_zero, new_array, ha, h1]
    refine ⟨_, rfl, rfl, rfl, ?_, ?_, fun h1 => absurd h1 (by omega)⟩
    · rw [live_of_values v a ha, live_of_values _ b1 rfl]
      simp only []
      apply take_eq_take_of_getElem?
      intro j hj
      rw [h3 j, if_pos (by omega)]
    · exact alloc_of_values _ b1 rfl (by rw [h2, List.length_replicate])

theorem list_ctor_spec (l : List E) :
    ∃ v, list_ctor l = some v ∧ v.sz = l.length ∧ v.max_sz = l.length ∧ v.live = l ∧
      v.Alloc := by
  cases l with
  | nil => exact ⟨⟨0, 0, none⟩, rfl, rfl, rfl, rfl, rfl⟩
  | cons x l =>
    obtain ⟨b1, h1, h2, h3⟩ := store_back_fold_spec (x :: l)
      (⟨0, (x :: l).length, some (List.replicate (x :: l).length default)⟩ : Vector E) _ rfl
      (by simp only [List.length_replicate]; omega)
    simp only [Nat.zero_add, List.take_zero, List.nil_append] at h1 h3
    refine ⟨⟨(x :: l).length, (x :: l).length, some b1⟩, ?_, rfl, rfl, ?_, ?_⟩
    · rw [← h1]; rfl
    · rw [live_of_values _ b1 rfl]
      exact h3
    · exact alloc_of_values _ b1 rfl (by rw [h2, List.length_replicate])

theorem copy_ctor_spec (s : Vector E) (hA : s.Alloc) (hI : s.Inv) :
    ∃ v, copy_ctor s = some v ∧ v.sz = s.sz ∧ v.max_sz = s.max_sz ∧ v.live = s.live ∧
      v.Alloc := by
  have hI1 : s.sz ≤ s.max_sz := hI
  by_cases hc : s.max_sz = 0
  · have hsz : s.sz = 0 := by omega
    refine ⟨⟨0, 0, none⟩, ?_, hsz.symm, hc.symm, ?_, rfl⟩
    · simp only [copy_ctor, sized_ctor, hc, hsz, Nat.sub_zero, forUp, Nat.le_refl, if_true]
    · simp only [live, hsz, List.take_zero]
  · obtain ⟨a, ha, hl⟩ := values_of_alloc s hA (by omega)
    obtain ⟨b1, h1, h2, h3⟩ := member_copy_loop_spec a (s.sz - 0) 0
      (⟨0, s.max_sz, some (List.replicate s.max_sz default)⟩ : Vector E) _ rfl
      (by simp only []; omega) (by simp only [List.length_replicate]; omega)
    simp only [Nat.zero_add, Nat.sub_zero] at h1 h3
    refine ⟨⟨s.sz, s.max_sz, some b1⟩, ?_, rfl, rfl, ?_, ?_⟩
    · simp only [copy_ctor, sized_ctor, if_neg (show ¬ s.max_sz ≤ 0 by omega), new_array, ha,
        Nat.sub_zero]
      exact h1
    · rw [live_of_values s a ha, live_of_values _ b1 rfl]
      apply take_eq_take_of_getElem?
      intro j hj
      simp only [] at hj
      rw [h3 j, if_pos (by omega)]
    · exact alloc_of_values _ b1 rfl (by rw [h2, List.length_replicate])

theorem operator_assign_other_spec (t s : Vector E) (hA : t.Alloc) (hsA : s.Alloc)
    (hsI : s.Inv) :
    ∃ t1, t.operator_assign (.other s) = .ok () t1 ∧ t1.sz = s.sz ∧ t1.live = s.live ∧
      t1.max_sz = (if s.sz > t.max_sz then s.max_sz else t.max_sz) ∧ t1.Alloc := by
  have hsI1 : s.sz ≤ s.max_sz := hsI
  by_cases hz : s.sz = 0
  · refine ⟨{ (if s.sz > t.max_sz then
        ({ t with values := new_array s.max_sz, max_sz := s.max_sz } : Vector E) else t)
        with sz := 0 }, ?_, hz.symm, ?_, ?_, ?_⟩
    · simp only [operator_assign, Source.get, hz, Nat.sub_zero, forUp, Outcome.ofState]
    · simp only [live, hz, List.take_zero]
    · simp only [hz, gt_iff_lt, Nat.not_lt_zero, if_false]
    · simp only [hz, gt_iff_lt, Nat.not_lt_zero, if_false]
      exact hA
  · obtain ⟨a, ha, hl⟩ := values_of_alloc s hsA (by omega)
    by_cases hgt : s.sz > t.max_sz
    · obtain ⟨b1, h1, h2, h3⟩ := member_copy_loop_spec a (s.sz - 0) 0
        (⟨0, s.max_sz, some (List.replicate s.max_sz default)⟩ : Vector E) _ rfl
        (by simp only []; omega) (by simp only [List.length_replicate]; omega)
      simp only [Nat.zero_add, Nat.sub_zero] at h1 h3
      refine ⟨⟨s.sz, s.max_sz, some b1⟩, ?_, rfl, ?_, ?_, ?_⟩
      · simp only [operator_assign, Source.get, if_pos hgt, new_array, ha, Outcome.ofState,
          Nat.sub_zero]
        rw [h1]
      · rw [live_of_values s a ha, live_of_values _ b1 rfl]
        apply take_eq_take_of_getElem?
        intro j hj
        simp only [] at hj
        rw [h3 j, if_pos (by omega)]
      · rw [if_pos hgt]
      · exact alloc_of_values _ b1 rfl (by rw [h2, List.length_replicate])
    · obtain ⟨b, hb, hbl⟩ := values_of_alloc t hA (by omega)
      obtain ⟨b1, h1, h2, h3⟩ := member_copy_loop_spec a (s.sz - 0) 0
        (⟨0, t.max_sz, some b⟩ : Vector E) _ rfl
        (by simp only []; omega) (by simp only []; omega)
      simp only [Nat.zero_add, Nat.sub_zero] at h1 h3
      refine ⟨⟨s.sz, t.max_sz, some b1⟩, ?_, rfl, ?_, ?_, ?_⟩
      · simp only [operator_assign, Source.get, if_neg hgt, ha, hb, Outcome.ofState,
          Nat.sub_zero]
        rw [h1]
      · rw [live_of_values s a ha, live_of_values _ b1 rfl]
        apply take_eq_take_of_getElem?
        intro j hj
        simp only [] at hj
        rw [h3 j, if_pos (by omega)]
      · rw [if_neg hgt]
      · exact alloc_of_values _ b1 rfl (by rw [h2, hbl])

theorem operator_assign_self_spec (t : Vector E) (hI : t.Inv) :
    t.operator_assign .self = .ok () { t with sz := 0 } := by
  have hI1 : t.sz ≤ t.max_sz := hI
  simp only [operator_assign, Source.get, if_neg (show ¬ t.sz > t.max_sz by omega),
    Nat.sub_self, forUp, Outcome.ofState]

end Vector


/-! ## Range checks and element access -/

namespace Vector

section Storage

variable {E : Type}

theorem load_values (v : Vector E) (i : Nat) : load v.values i = v.slots[i]? := by
  obtain ⟨sz, cap, vals⟩ := v
  cases vals <;> rfl

theorem getElem?_live (v : Vector E) (i : Nat) :
    v.live[i]? = if i < v.sz then v.slots[i]? else none := by
  rw [live, List.getElem?_take]

theorem operator_index_ok (v : Vector E) (i : Nat) (x : E) (h : v.live[i]? = some x) :
    v.operator_index i = .ok x v := by
  rw [getElem?_live] at h
  by_cases hi : i < v.sz
  · rw [if_pos hi] at h
    simp only [operator_index, load_values, h]
    rw [if_neg (by omega)]
  · rw [if_neg hi] at h
    exact absurd h (by simp)

theorem operator_index_const_ok (v : Vector E) (i : Nat) (x : E) (h : v.live[i]? = some x) :
    v.operator_index_const i = .ok x v := by
  rw [getElem?_live] at h
  by_cases hi : i < v.sz
  · rw [if_pos hi] at h
    simp only [operator_index_const, load_values, h]
    rw [if_neg (by omega)]
  · rw [if_neg hi] at h
    exact absurd h (by simp)

theorem const_iterator_eq (pos : ConstIterator) (h : 0 ≤ pos.ptr) :
    pos = ⟨((pos.ptr.toNat : Nat) : Int)⟩ := by
  obtain ⟨p⟩ := pos
  simp only [ConstIterator.mk.injEq]
  exact (Int.toNat_of_nonneg h).symm

theorem erase_thrown (v : Vector E) (pos : ConstIterator)
    (h : pos.ptr < 0 ∨ (v.sz : Int) ≤ pos.ptr) :
    v.erase pos = .thrown (.out_of_range "iterator out of range") v := by
  simp only [erase, ConstIterator.sub, begin, Iterator.toConst, Int.sub_zero]
  by_cases h1 : pos.ptr < 0
  · rw [if_pos h1]
  · rw [if_neg h1, if_pos (by omega)]

theorem erase_not_thrown (v : Vector E) (pos : ConstIterator) (h1 : 0 ≤ pos.ptr)
    (h2 : pos.ptr < (v.sz : Int)) (e : Exn) (s : Vector E) : v.erase pos ≠ .thrown e s := by
  simp only [erase, ConstIterator.sub, begin, Iterator.toConst, Int.sub_zero]
  rw [if_neg (by omega), if_neg (by omega)]
  split <;> simp

end Storage

variable {E : Type} [Inhabited E]

theorem reserve_not_thrown (v : Vector E) (n : Nat) (e : Exn) (s : Vector E) :
    v.reserve n ≠ .thrown e s := by
  unfold reserve
  split
  · simp
  · split <;> simp

theorem insert_thrown (v : Vector E) (pos : ConstIterator) (val : const_reference E)
    (h : pos.ptr < 0 ∨ (v.sz : Int) < pos.ptr) :
    v.insert pos val = .thrown (.out_of_range "iterator out of range") v := by
  simp only [insert, ConstIterator.sub, begin, Iterator.toConst, Int.sub_zero]
  by_cases h1 : pos.ptr < 0
  · rw [if_pos h1]
  · rw [if_neg h1, if_pos (by omega)]

theorem insert_not_thrown (v : Vector E) (pos : ConstIterator) (val : const_reference E)
    (h1 : 0 ≤ pos.ptr)
    (h2 : pos.ptr ≤ (v.sz : Int)) (e : Exn) (s : Vector E) :
    v.insert pos val ≠ .thrown e s := by
  simp only [insert, ConstIterator.sub, begin, Iterator.toConst, Int.sub_zero]
  rw [if_neg (by omega), if_neg (by omega)]
  have hg : ∀ e s, (if v.sz ≥ v.max_sz then grow v else Outcome.ok () v) ≠ .thrown e s := by
    intro e s
    split
    · exact reserve_not_thrown _ _ _ _
    · simp
  cases hc : (if v.sz ≥ v.max_sz then grow v else Outcome.ok () v) with
  | thrown e1 s1 => exact absurd hc (hg e1 s1)
  | undefined => simp [Outcome.andThen]
  | ok u s1 =>
    simp only [Outcome.andThen]
    split
    · simp
    · split <;> simp

/-- What `insert` does at a position inside `[begin(), end()]`. -/
theorem insert_in_range (v : Vector E) (pos : ConstIterator) (val : const_reference E)
    (h1 : 0 ≤ pos.ptr) (h2 : pos.ptr ≤ (v.sz : Int)) :
    v.insert pos val =
      (if v.sz ≥ v.max_sz then grow v else Outcome.ok () v).andThen fun _ self =>
        match forDown (fun i p => (load p i).bind (store p (i + 1))) pos.ptr.toNat self.sz
            self.values with
        | none => .undefined
        | some p =>
          match (val.read (if v.sz ≥ v.max_sz then grow_releases v else false) p).bind
              (store p pos.ptr.toNat) with
          | none => .undefined
          | some p => .ok ⟨(pos.ptr.toNat : Int)⟩ { self with values := p, sz := self.sz + 1 } := by
  simp only [insert, ConstIterator.sub, begin, Iterator.toConst, Int.sub_zero]
  rw [if_neg (by omega), if_neg (by omega)]

/-- When the vector is full, `insert` at a valid position with a reference to one of its own
slots reads the array that `grow()` has released. -/
theorem insert_slot_full (v : Vector E) (pos : ConstIterator) (i : Nat) (h1 : 0 ≤ pos.ptr)
    (h2 : pos.ptr ≤ (v.sz : Int)) (h : v.sz ≥ v.max_sz) :
    v.insert pos (.slot i) = .undefined := by
  rw [insert_in_range v pos _ h1 h2]
  simp only [if_pos h, grow_releases_of_full, const_reference.read, if_true, Option.none_bind]
  cases hc : grow v with
  | ok u s1 =>
    simp only [Outcome.andThen]
    split <;> rfl
  | thrown e s1 =>
    have := grow_if_full_not_thrown v e s1
    rw [if_pos h] at this
    exact absurd hc this
  | undefined => rfl

/-- When the vector has a free slot, `insert` at a valid position with a reference to one of
its own slots stores what that slot holds once the tail has been shifted. -/
theorem insert_slot_free (v : Vector E) (pos : ConstIterator) (i : Nat) (h1 : 0 ≤ pos.ptr)
    (h2 : pos.ptr ≤ (v.sz : Int)) (h : ¬ v.sz ≥ v.max_sz) :
    v.insert pos (.slot i) =
      match forDown (fun j p => (load p j).bind (store p (j + 1))) pos.ptr.toNat v.sz
          v.values with
      | none => .undefined
      | some p =>
        match load p i with
        | none => .undefined
        | some x => v.insert pos (.object x) := by
  simp only [insert_in_range v pos _ h1 h2, if_neg h, Outcome.andThen, const_reference.read,
    Bool.false_eq_true, if_false, Option.some_bind]
  cases forDown (fun j p => (load p j).bind (store p (j + 1))) pos.ptr.toNat v.sz
      v.values with
  | none => rfl
  | some p =>
    simp only []
    cases load p i with
    | none => rfl
    | some x => rfl

/-- A call of `insert` has undefined behaviour or does what the call with the value it reads
does. -/
theorem insert_cases (v : Vector E) (pos : ConstIterator) (val : const_reference E) :
    v.insert pos val = .undefined ∨ ∃ x, v.insert pos val = v.insert pos (.object x) := by
  cases val with
  | object x => exact Or.inr ⟨x, rfl⟩
  | slot i =>
    by_cases hr : pos.ptr < 0 ∨ (v.sz : Int) < pos.ptr
    · exact Or.inr ⟨default, by rw [insert_thrown v pos _ hr, insert_thrown v pos _ hr]⟩
    · by_cases h : v.sz ≥ v.max_sz
      · exact Or.inl (insert_slot_full v pos i (by omega) (by omega) h)
      · rw [insert_slot_free v pos i (by omega) (by omega) h]
        cases forDown (fun j p => (load p j).bind (store p (j + 1))) pos.ptr.toNat v.sz
            v.values with
        | none => exact Or.inl rfl
        | some p =>
          simp only []
          cases load p i with
          | none => exact Or.inl rfl
          | some x => exact Or.inr ⟨x, rfl⟩

end Vector


/-! ## The storage has `max_sz` slots -/

section Representation

open Vector

variable {E : Type} [Inhabited E]

/-- The hypothesis `Alloc` of the statements below holds of every vector the program can
build: the constructors establish it and every member function that changes the state
leaves it true, whether it returns or throws. -/
theorem storage_matches_capacity :
    (default_ctor : Vector E).Alloc ∧
    (∀ n : Nat, (sized_ctor n : Vector E).Alloc) ∧
    (∀ l : List E, ∃ v, list_ctor l = some v ∧ v.Alloc) ∧
    (∀ s : Vector E, s.Alloc → s.Inv → ∃ v, copy_ctor s = some v ∧ v.Alloc) ∧
    (∀ t : Vector E, t.Alloc → t.Inv →
      (∀ s : Vector E, s.Alloc → s.Inv → (t.operator_assign (.other s)).Leaves Alloc) ∧
      (t.operator_assign .self).Leaves Alloc ∧
      t.clear.Leaves Alloc ∧
      (∀ n : Nat, (t.reserve n).Leaves Alloc) ∧
      t.shrink_to_fit.Leaves Alloc ∧
      (∀ val : E, (t.push_back (.object val)).Leaves Alloc) ∧
      t.pop_back.Leaves Alloc ∧
      (∀ (pos : ConstIterator) (val : E), (t.insert pos (.object val)).Leaves Alloc) ∧
      (∀ pos : ConstIterator, (t.erase pos).Leaves Alloc)) := by
  refine ⟨rfl, fun n => ?_, fun l => ?_, fun s hA hI => ?_,
    fun t hA hI => ⟨fun s hsA hsI => ?_, ?_, hA, fun n => ?_, ?_, fun val => ?_, ?_,
      fun pos val => ?_, fun pos => ?_⟩⟩
  · by_cases hn : n ≤ 0
    · have h0 : n = 0 := by omega
      subst h0
      rfl
    · simp only [Alloc, slots, sized_ctor, if_neg hn, new_array, Option.getD_some,
        List.length_replicate]
  · obtain ⟨v, h1, _, _, _, h5⟩ := list_ctor_spec l
    exact ⟨v, h1, h5⟩
  · obtain ⟨v, h1, _, _, _, h5⟩ := copy_ctor_spec s hA hI
    exact ⟨v, h1, h5⟩
  · obtain ⟨t1, h1, _, _, _, h5⟩ := operator_assign_other_spec t s hA hsA hsI
    rw [h1]
    exact h5
  · rw [operator_assign_self_spec t hI]
    exact hA
  · obtain ⟨v1, h1, _, _, _, h5, _⟩ := reserve_spec t n hA hI
    rw [h1]
    exact h5
  · obtain ⟨v1, h1, _, _, _, h5, _⟩ := shrink_to_fit_spec t hA hI
    rw [h1]
    exact h5
  · obtain ⟨v1, h1, _, _, h4, _⟩ := push_back_spec t val hA hI
    rw [h1]
    exact h4
  · by_cases hz : t.sz = 0
    · rw [pop_back_thrown t hz]
      exact hA
    · rw [pop_back_ok t (by omega)]
      exact hA
  · have ht : t.sz ≤ t.max_sz := hI
    by_cases hr : pos.ptr < 0 ∨ (t.sz : Int) < pos.ptr
    · rw [insert_thrown t pos (.object val) hr]
      exact hA
    · obtain ⟨v1, h1, _, _, h4, _⟩ := insert_spec t pos.ptr.toNat val hA hI (by omega)
      rw [const_iterator_eq pos (by omega), h1]
      exact h4
  · by_cases hr : pos.ptr < 0 ∨ (t.sz : Int) ≤ pos.ptr
    · rw [erase_thrown t pos hr]
      exact hA
    · obtain ⟨v1, h1, _, _, h4, _⟩ := erase_spec t pos.ptr.toNat hA hI (by omega)
      rw [const_iterator_eq pos (by omega), h1]
      exact h4

end Representation

/-! ## The specified properties -/

section Claims

open Vector

variable {E : Type} [Inhabited E]

/-- C1: `size <= capacity` is an invariant of the container.  It holds after default,
sized, list and copy construction, and copy-assignment (from another vector and from the
target itself), `clear`, `reserve`, `shrink_to_fit`, `push_back`, `pop_back`, `insert`
and `erase` all have defined behaviour and leave it true, whether they return or throw;
for `push_back` and `insert` that is so for every argument that is not a slot of the
vector, and with any argument they leave it true whenever their behaviour is defined. -/
theorem size_le_capacity_invariant :
    (default_ctor : Vector E).Inv ∧
    (∀ n : Nat, (sized_ctor n : Vector E).Inv) ∧
    (∀ l : List E, ∃ v, list_ctor l = some v ∧ v.Inv) ∧
    (∀ s : Vector E, s.Alloc → s.Inv → ∃ v, copy_ctor s = some v ∧ v.Inv) ∧
    (∀ t : Vector E, t.Alloc → t.Inv →
      (∀ s : Vector E, s.Alloc → s.Inv → (t.operator_assign (.other s)).Leaves Vector.Inv) ∧
      (t.operator_assign .self).Leaves Vector.Inv ∧
      t.clear.Leaves Vector.Inv ∧
      (∀ n : Nat, (t.reserve n).Leaves Vector.Inv) ∧
      t.shrink_to_fit.Leaves Vector.Inv ∧
      (∀ val : E, (t.push_back (.object val)).Leaves Vector.Inv) ∧
      t.pop_back.Leaves Vector.Inv ∧
      (∀ (pos : ConstIterator) (val : E), (t.insert pos (.object val)).Leaves Vector.Inv) ∧
      (∀ pos : ConstIterator, (t.erase pos).Leaves Vector.Inv) ∧
      (∀ val : const_reference E,
        t.push_back val = .undefined ∨ (t.push_back val).Leaves Vector.Inv) ∧
      (∀ (pos : ConstIterator) (val : const_reference E),
        t.insert pos val = .undefined ∨ (t.insert pos val).Leaves Vector.Inv)) := by
  have hpush : ∀ t : Vector E, t.Alloc → t.Inv → ∀ val : E,
      (t.push_back (.object val)).Leaves Vector.Inv := by
    intro t hA hI val
    obtain ⟨v1, h1, _, _, _, h5, _⟩ := push_back_spec t val hA hI
    rw [h1]
    exact h5
  have hins : ∀ t : Vector E, t.Alloc → t.Inv → ∀ (pos : ConstIterator) (val : E),
      (t.insert pos (.object val)).Leaves Vector.Inv := by
    intro t hA hI pos val
    by_cases hr : pos.ptr < 0 ∨ (t.sz : Int) < pos.ptr
    · rw [insert_thrown t pos _ hr]
      exact hI
    · obtain ⟨v1, h1, _, _, _, h5, _⟩ := insert_spec t pos.ptr.toNat val hA hI (by omega)
      rw [const_iterator_eq pos (by omega), h1]
      exact h5
  refine ⟨Nat.le_refl 0, fun n => Nat.zero_le n, fun l => ?_, fun s hA hI => ?_,
    fun t hA hI => ⟨fun s hsA hsI => ?_, ?_, ?_, fun n => ?_, ?_, hpush t hA hI, ?_,
      hins t hA hI, fun pos => ?_, fun val => ?_, fun pos val => ?_⟩⟩
  · obtain ⟨v, h1, h2, h3, _⟩ := list_ctor_spec l
    exact ⟨v, h1, by show v.sz ≤ v.max_sz; rw [h2, h3]⟩
  · obtain ⟨v, h1, h2, h3, _⟩ := copy_ctor_spec s hA hI
    exact ⟨v, h1, by show v.sz ≤ v.max_sz; rw [h2, h3]; exact hI⟩
  · obtain ⟨t1, h1, h2, _, h4, _⟩ := operator_assign_other_spec t s hA hsA hsI
    have hs : s.sz ≤ s.max_sz := hsI
    rw [h1]
    show t1.sz ≤ t1.max_sz
    rw [h2, h4]
    split <;> omega
  · rw [operator_assign_self_spec t hI]
    exact Nat.zero_le _
  · exact Nat.zero_le _
  · obtain ⟨v1, h1, h2, h3, _⟩ := reserve_spec t n hA hI
    have ht : t.sz ≤ t.max_sz := hI
    rw [h1]
    show v1.sz ≤ v1.max_sz
    rw [h2, h3]
    omega
  · obtain ⟨v1, h1, h2, h3, _⟩ := shrink_to_fit_spec t hA hI
    rw [h1]
    show v1.sz ≤ v1.max_sz
    rw [h2, h3]
  · have ht : t.sz ≤ t.max_sz := hI
    by_cases hz : t.sz = 0
    · rw [pop_back_thrown t hz]
      exact hI
    · rw [pop_back_ok t (by omega)]
      show t.sz - 1 ≤ t.max_sz
      omega
  · by_cases hr : pos.ptr < 0 ∨ (t.sz : Int) ≤ pos.ptr
    · rw [erase_thrown t pos hr]
      exact hI
    · obtain ⟨v1, h1, _, _, _, h5, _⟩ := erase_spec t pos.ptr.toNat hA hI (by omega)
      rw [const_iterator_eq pos (by omega), h1]
      exact h5
  · rcases push_back_cases t val with h | ⟨x, h⟩
    · exact Or.inl h
    · rw [h]
      exact Or.inr (hpush t hA hI x)
  · rcases insert_cases t pos val with h | ⟨x, h⟩
    · exact Or.inl h
    · rw [h]
      exact Or.inr (hins t hA hI pos x)

/-- C1, instance: `push_back` on the full vector `[1, 2]` of capacity 2 and `erase` at
offset 5 (which throws) both leave `size <= capacity` true. -/
theorem size_le_capacity_invariant_witness :
    ((⟨2, 2, some [1, 2]⟩ : Vector Nat).push_back (.object 3)).Leaves Vector.Inv ∧
      ((⟨2, 2, some [1, 2]⟩ : Vector Nat).erase ⟨5⟩).Leaves Vector.Inv :=
  ⟨((@size_le_capacity_invariant Nat _).2.2.2.2 ⟨2, 2, some [1, 2]⟩
      (by decide) (by decide)).2.2.2.2.2.1 3,
    ((@size_le_capacity_invariant Nat _).2.2.2.2 ⟨2, 2, some [1, 2]⟩
      (by decide) (by decide)).2.2.2.2.2.2.2.2.1 ⟨5⟩⟩

end Claims


section Claims

open Vector

variable {E : Type} [Inhabited E]

theorem push_back_all_spec (xs : List E) : ∀ v : Vector E, v.Alloc → v.Inv →
    ∃ v1, v.push_back_all (xs.map .object) = .ok () v1 ∧ v1.sz = v.sz + xs.length ∧
      v1.live = v.live ++ xs ∧ v1.Alloc ∧ v1.Inv := by
  induction xs with
  | nil =>
    intro v hA hI
    exact ⟨v, rfl, rfl, (List.append_nil _).symm, hA, hI⟩
  | cons x xs ih =>
    intro v hA hI
    obtain ⟨v1, h1, h2, h3, h4, h5, _⟩ := push_back_spec v x hA hI
    obtain ⟨v2, g1, g2, g3, g4, g5⟩ := ih v1 h4 h5
    refine ⟨v2, ?_, ?_, ?_, g4, g5⟩
    · rw [← g1]
      simp only [push_back_all, List.map_cons, List.foldl_cons, Outcome.andThen, h1]
    · rw [g2, h2, List.length_cons]; omega
    · rw [g3, h3, List.append_assoc, List.singleton_append]

/-- Calling `push_back` for each value of a list `xs` in order on a default-constructed
vector, every value passed from outside the storage of the vector, succeeds and yields
`size() == xs.length`, `capacity() >= xs.length` and `operator[](i) == xs[i]` for every
`i < xs.length`; each single `push_back` of such a value appends it behind the live
elements, which stay as they were. -/
theorem push_back_all_objects (xs : List E) :
    (∃ v, (default_ctor : Vector E).push_back_all (xs.map .object) = .ok () v ∧
      v.size = xs.length ∧ v.capacity ≥ xs.length ∧
      ∀ (i : Nat) (x : E), xs[i]? = some x →
        v.operator_index i = .ok x v ∧ v.operator_index_const i = .ok x v) ∧
    (∀ (v : Vector E) (x : E), v.Alloc → v.Inv →
      ∃ v1, v.push_back (.object x) = .ok () v1 ∧ v1.size = v.size + 1 ∧
        v1.live = v.live ++ [x]) := by
  constructor
  · obtain ⟨v, h1, h2, h3, _, h5⟩ := push_back_all_spec xs (default_ctor : Vector E) rfl
      (Nat.le_refl 0)
    have hsz : v.sz = xs.length := by rw [h2]; exact Nat.zero_add _
    have hlive : v.live = xs := by rw [h3]; rfl
    have hcap : v.sz ≤ v.max_sz := h5
    refine ⟨v, h1, hsz, ?_, fun i x hx => ?_⟩
    · show xs.length ≤ v.max_sz
      omega
    · rw [← hlive] at hx
      exact ⟨operator_index_ok v i x hx, operator_index_const_ok v i x hx⟩
  · intro v x hA hI
    obtain ⟨v1, h1, h2, h3, _⟩ := push_back_spec v x hA hI
    exact ⟨v1, h1, h2, h3⟩

/-- C2, failing input: `Vector<int> v; v.push_back(1); v.push_back(2); v.push_back(3);
v.push_back(4); v.push_back(5); v.push_back(v[0]);`.  The first five calls leave
`[1, 2, 3, 4, 5]` with capacity 5 and `v[0]` is 1.  The sixth call finds the vector full:
`grow()` copies the elements to a new array and releases the old one, and the statement
`values[sz++] = val` then reads `val`, a slot of the released array, so the call has
undefined behaviour and no sixth element with the value 1 is stored.  The same value passed
from outside the storage gives `[1, 2, 3, 4, 5, 1]`. -/
theorem push_back_sequence_own_element :
    (default_ctor : Vector Nat).push_back_all
        [.object 1, .object 2, .object 3, .object 4, .object 5]
      = .ok () ⟨5, 5, some [1, 2, 3, 4, 5]⟩ ∧
    (⟨5, 5, some [1, 2, 3, 4, 5]⟩ : Vector Nat).operator_index 0
      = .ok 1 ⟨5, 5, some [1, 2, 3, 4, 5]⟩ ∧
    (⟨5, 5, some [1, 2, 3, 4, 5]⟩ : Vector Nat).push_back (.slot 0) = .undefined ∧
    (default_ctor : Vector Nat).push_back_all
        [.object 1, .object 2, .object 3, .object 4, .object 5, .slot 0]
      = .undefined ∧
    Mem.push_back [some [1, 2, 3, 4, 5]] ⟨5, 5, some 0⟩ (.slot 0) = none ∧
    (default_ctor : Vector Nat).push_back_all
        [.object 1, .object 2, .object 3, .object 4, .object 5, .object 1]
      = .ok () ⟨6, 13, some [1, 2, 3, 4, 5, 1, 0, 0, 0, 0, 0, 0, 0]⟩ := by
  decide

end Claims


section Positions

open Vector

variable {E : Type}

theorem const_iterator_of_offset (v : Vector E) (pos : ConstIterator) (index : Nat)
    (h : pos.sub (begin v).toConst = (index : Int)) : pos = ⟨(index : Int)⟩ := by
  obtain ⟨p⟩ := pos
  simp only [ConstIterator.sub, begin, Iterator.toConst, Int.sub_zero] at h
  rw [h]

theorem deref_of_live (v : Vector E) (i : Nat) (x : E) (h : v.live[i]? = some x) :
    (⟨(i : Int)⟩ : Iterator).deref v.values = some x := by
  rw [getElem?_live] at h
  by_cases hi : i < v.sz
  · rw [if_pos hi] at h
    simp only [Iterator.deref, Int.toNat_ofNat, load_values, h]
    rw [if_neg (by omega)]
  · rw [if_neg hi] at h
    exact absurd h (by simp)

end Positions

section Claims

open Vector

variable {E : Type} [Inhabited E]

/-- On a vector with `size <= capacity`, `insert` of a value passed from outside the storage
of the vector, at a position whose offset `index` from `begin()` satisfies `index <= size`,
succeeds, whether or not it has to grow; the live elements become
`xs[0..index) ++ [value] ++ xs[index..size)`, the size grows by one, and the returned
iterator is at offset `index` of the resulting storage and references the inserted value. -/
theorem insert_object_correct (v : Vector E) (pos : ConstIterator) (index : Nat) (val : E)
    (hA : v.Alloc) (hI : v.Inv) (hpos : pos.sub (begin v).toConst = (index : Int))
    (hi : index ≤ v.size) :
    ∃ v2 it, v.insert pos (.object val) = .ok it v2 ∧
      v2.live = v.live.take index ++ [val] ++ v.live.drop index ∧
      v2.size = v.size + 1 ∧
      it.toConst.sub (begin v2).toConst = (index : Int) ∧
      it.deref v2.values = some val := by
  obtain ⟨v2, h1, h2, h3, _⟩ := insert_spec v index val hA hI hi
  have hlen : v.live.length = v.sz := length_live v hA hI
  have hi1 : index ≤ v.sz := hi
  refine ⟨v2, ⟨(index : Int)⟩, ?_, h3, h2, ?_, ?_⟩
  · rw [const_iterator_of_offset v pos index hpos, h1]
  · simp only [ConstIterator.sub, begin, Iterator.toConst, Int.sub_zero]
  · apply deref_of_live
    rw [h3, getElem?_insert_list _ _ (by omega), if_neg (by omega), if_pos rfl]

/-- C3, failing input: `Vector<int> v{1, 2, 3}; v.reserve(5); v.insert(v.begin(), v[2]);`.
The vector is `[1, 2, 3]` with capacity 5, so `insert` does not grow.  Its loop shifts the
tail first, which leaves the slots `1, 1, 2, 3`, and only then does `values[current] = val`
read `val`, which is slot 2 and now holds 2: the live elements become `[2, 1, 2, 3]` and the
returned iterator references 2, where the value passed was 3 and `[3, 1, 2, 3]` is what the
value 3 passed from outside the storage gives.  Without the `reserve` the vector is full,
`grow()` releases the array, and the read of `val` is undefined. -/
theorem insert_own_element :
    list_ctor [1, 2, 3] = some (⟨3, 3, some [1, 2, 3]⟩ : Vector Nat) ∧
    (⟨3, 3, some [1, 2, 3]⟩ : Vector Nat).reserve 5 = .ok () ⟨3, 5, some [1, 2, 3, 0, 0]⟩ ∧
    (⟨3, 5, some [1, 2, 3, 0, 0]⟩ : Vector Nat).operator_index 2
      = .ok 3 ⟨3, 5, some [1, 2, 3, 0, 0]⟩ ∧
    (⟨3, 5, some [1, 2, 3, 0, 0]⟩ : Vector Nat).insert
        (begin (⟨3, 5, some [1, 2, 3, 0, 0]⟩ : Vector Nat)).toConst (.slot 2)
      = .ok ⟨0⟩ ⟨4, 5, some [2, 1, 2, 3, 0]⟩ ∧
    (⟨4, 5, some [2, 1, 2, 3, 0]⟩ : Vector Nat).live = [2, 1, 2, 3] ∧
    (⟨0⟩ : Iterator).deref (some [2, 1, 2, 3, 0]) = some 2 ∧
    Mem.insert [some [1, 2, 3, 0, 0]] ⟨3, 5, some 0⟩ ⟨0⟩ (.slot 2)
      = .ok ⟨0⟩ [some [2, 1, 2, 3, 0]] ⟨4, 5, some 0⟩ ∧
    (⟨3, 5, some [1, 2, 3, 0, 0]⟩ : Vector Nat).insert ⟨0⟩ (.object 3)
      = .ok ⟨0⟩ ⟨4, 5, some [3, 1, 2, 3, 0]⟩ ∧
    (⟨3, 3, some [1, 2, 3]⟩ : Vector Nat).insert ⟨0⟩ (.slot 2) = .undefined := by
  decide

end Claims

section Claims

open Vector

variable {E : Type}

/-- C4: `erase` at a position whose offset `index` from `begin()` satisfies
`index < size` succeeds; the live elements become `xs[0..index) ++ xs[index+1..size)`,
the size drops by one and the capacity stays; the returned iterator is at offset `index`,
it references the former successor of the removed element when there is one, and it
equals `end()` exactly when the removed element was the last one. -/
theorem erase_correct (v : Vector E) (pos : ConstIterator) (index : Nat)
    (hA : v.Alloc) (hI : v.Inv) (hpos : pos.sub (begin v).toConst = (index : Int))
    (hi : index < v.size) :
    ∃ v2 it, v.erase pos = .ok it v2 ∧
      v2.live = v.live.take index ++ v.live.drop (index + 1) ∧
      v2.size + 1 = v.size ∧ v2.capacity = v.capacity ∧
      it.toConst.sub (begin v2).toConst = (index : Int) ∧
      (∀ x : E, v.live[index + 1]? = some x → it.deref v2.values = some x) ∧
      (it.eq (end_ v2).toConst = true ↔ index + 1 = v.size) := by
  obtain ⟨v2, h1, h2, h3, _, _, h6⟩ := erase_spec v index hA hI hi
  have hlen : v.live.length = v.sz := length_live v hA hI
  have hi1 : index < v.sz := hi
  refine ⟨v2, ⟨(index : Int)⟩, ?_, h3, ?_, h6, ?_, fun x hx => ?_, ?_⟩
  · rw [const_iterator_of_offset v pos index hpos, h1]
  · show v2.sz + 1 = v.sz
    omega
  · simp only [ConstIterator.sub, begin, Iterator.toConst, Int.sub_zero]
  · apply deref_of_live
    rw [h3, getElem?_erase_list _ _ (by omega), if_neg (by omega), hx]
  · simp only [Iterator.eq, ConstIterator.eq, Iterator.toConst, end_, decide_eq_true_eq, size,
      h2]
    omega

/-- C4, instance: erasing offset 1 of `[1, 2, 3]` stored with capacity 5. -/
theorem erase_correct_witness :
    ∃ v2 it, (⟨3, 5, some [1, 2, 3, 0, 0]⟩ : Vector Nat).erase ⟨1⟩ = .ok it v2 ∧
      v2.live = [1] ++ [3] ∧ v2.size + 1 = 3 ∧ v2.capacity = 5 ∧
      it.toConst.sub (begin v2).toConst = 1 ∧
      (∀ x : Nat, [1, 2, 3][1 + 1]? = some x → it.deref v2.values = some x) ∧
      (it.eq (end_ v2).toConst = true ↔ 1 + 1 = 3) :=
  erase_correct ⟨3, 5, some [1, 2, 3, 0, 0]⟩ ⟨1⟩ 1 (by decide) (by decide) (by decide)
    (by decide)

end Claims

section Claims

open Vector

variable {E : Type} [Inhabited E]

/-- For a value passed from outside the storage of the vector, `insert` and `erase` are
inverses at a fixed logical position.  On a vector with `size <= capacity`, inserting such
a value at offset `k <= size` and then erasing offset `k` of the result both succeed and
restore the original size and the original live elements in their order; on `[a, b, c]`
with `k = 1` the intermediate contents are `[a, x, b, c]`. -/
theorem insert_object_erase_inverse (v : Vector E) (pos : ConstIterator) (k : Nat) (val : E)
    (hA : v.Alloc) (hI : v.Inv) (hpos : pos.sub (begin v).toConst = (k : Int))
    (hk : k ≤ v.size) :
    (∃ v1 it, v.insert pos (.object val) = .ok it v1 ∧
      v1.live = v.live.take k ++ [val] ++ v.live.drop k ∧
      ∀ pos1 : ConstIterator, pos1.sub (begin v1).toConst = (k : Int) →
        ∃ v2 it2, v1.erase pos1 = .ok it2 v2 ∧ v2.size = v.size ∧ v2.live = v.live) ∧
    (∀ a b c x : E, ∃ w w1 it w2 it2, list_ctor [a, b, c] = some w ∧
      w.insert ⟨1⟩ (.object x) = .ok it w1 ∧ w1.live = [a, x, b, c] ∧
      w1.erase ⟨1⟩ = .ok it2 w2 ∧ w2.live = [a, b, c] ∧ w2.size = 3) := by
  have key : ∀ (u : Vector E) (j : Nat) (y : E), u.Alloc → u.Inv → j ≤ u.sz →
      ∃ u1, u.insert ⟨(j : Int)⟩ (.object y) = .ok ⟨(j : Int)⟩ u1 ∧
        u1.live = u.live.take j ++ [y] ++ u.live.drop j ∧
        ∃ u2, u1.erase ⟨(j : Int)⟩ = .ok ⟨(j : Int)⟩ u2 ∧ u2.sz = u.sz ∧
          u2.live = u.live := by
    intro u j y huA huI hj
    obtain ⟨u1, h1, h2, h3, h4, h5, _⟩ := insert_spec u j y huA huI hj
    obtain ⟨u2, g1, g2, g3, _⟩ := erase_spec u1 j h4 h5 (by omega)
    have hlen : u.live.length = u.sz := length_live u huA huI
    refine ⟨u1, h1, h3, u2, g1, by omega, ?_⟩
    rw [g3, h3]
    apply List.ext_getElem?
    intro n
    have hl : j ≤ (u.live.take j ++ [y] ++ u.live.drop j).length := by
      simp only [List.length_append, List.length_take, List.length_drop, List.length_singleton]
      omega
    rw [getElem?_erase_list _ _ hl, getElem?_insert_list _ _ (by omega),
      getElem?_insert_list _ _ (by omega)]
    by_cases c : n < j
    · rw [if_pos c, if_pos c]
    · rw [if_neg c, if_neg (by omega), if_neg (by omega), Nat.add_sub_cancel]
  constructor
  · obtain ⟨v1, h1, h2, v2, h3, h4, h5⟩ := key v k val hA hI hk
    refine ⟨v1, ⟨(k : Int)⟩, ?_, h2, fun pos1 hp1 => ⟨v2, ⟨(k : Int)⟩, ?_, h4, h5⟩⟩
    · rw [const_iterator_of_offset v pos k hpos, h1]
    · rw [const_iterator_of_offset v1 pos1 k hp1, h3]
  · intro a b c x
    obtain ⟨w, hw1, hw2, hw3, hw4, hw5⟩ := list_ctor_spec [a, b, c]
    have hwI : w.Inv := by show w.sz ≤ w.max_sz; rw [hw2, hw3]
    obtain ⟨w1, h1, h2, w2, h3, h4, h5⟩ := key w 1 x hw5 hwI
      (by rw [hw2]; exact Nat.le_add_left 1 2)
    refine ⟨w, w1, ⟨1⟩, w2, ⟨1⟩, hw1, h1, ?_, h3, ?_, ?_⟩
    · rw [h2, hw4]; rfl
    · rw [h5, hw4]
    · show w2.sz = 3
      rw [h4, hw2]; rfl

/-- C5, failing input: `Vector<int> v{1, 2, 3}; v.insert(v.begin(), v[2]);
v.erase(v.begin());`.  The list constructor leaves `[1, 2, 3]` with capacity 3, so `insert`
grows first: `reserve` releases the array, and `values[current] = val` then reads `val`, a
slot of the released array.  The behaviour of `insert` is undefined and nothing is
restored.  With capacity 5 instead, the intermediate contents are `[2, 1, 2, 3]`, not
`[3, 1, 2, 3]`, and `erase` then restores `[1, 2, 3]`. -/
theorem insert_erase_own_element :
    list_ctor [1, 2, 3] = some (⟨3, 3, some [1, 2, 3]⟩ : Vector Nat) ∧
    (⟨3, 3, some [1, 2, 3]⟩ : Vector Nat).insert
        (begin (⟨3, 3, some [1, 2, 3]⟩ : Vector Nat)).toConst (.slot 2) = .undefined ∧
    (((⟨3, 3, some [1, 2, 3]⟩ : Vector Nat).insert ⟨0⟩ (.slot 2)).andThen
        fun _ s => s.erase (begin s).toConst) = .undefined ∧
    Mem.insert [some [1, 2, 3]] ⟨3, 3, some 0⟩ ⟨0⟩ (.slot 2) = .undefined ∧
    (((⟨3, 3, some [1, 2, 3]⟩ : Vector Nat).insert ⟨0⟩ (.object 3)).andThen
        fun _ s => s.erase (begin s).toConst)
      = .ok ⟨0⟩ ⟨3, 9, some [1, 2, 3, 3, 0, 0, 0, 0, 0]⟩ ∧
    (((⟨3, 5, some [1, 2, 3, 0, 0]⟩ : Vector Nat).insert ⟨0⟩ (.slot 2)).andThen
        fun _ s => s.erase (begin s).toConst)
      = .ok ⟨0⟩ ⟨3, 5, some [1, 2, 3, 3, 0]⟩ := by
  decide

end Claims


section Claims

open Vector

variable {E : Type}

theorem raises_iff {α : Type} (o : Outcome E α) : o.Raises ↔ ∃ e s, o = .thrown e s := by
  cases o with
  | ok a s => simp [Outcome.Raises]
  | thrown e s => simp [Outcome.Raises]
  | undefined => simp [Outcome.Raises]

/-- C6: both forms of `operator[]` throw `std::out_of_range` exactly when
`index >= size()`, leaving the vector as it was; when `index < size()` on a vector with
`size <= capacity` they return the live element at `index` and leave the vector as it
was.  In particular `index == size()` throws and `index == size() - 1` succeeds on a
non-empty vector. -/
theorem operator_index_range (v : Vector E) (index : Nat) :
    ((v.operator_index index).Raises ↔ index ≥ v.size) ∧
    ((v.operator_index_const index).Raises ↔ index ≥ v.size) ∧
    (index ≥ v.size → ∃ what : String,
      what = "index " ++ toString index ++ " out of range for size " ++ toString v.size ∧
      v.operator_index index = .thrown (.out_of_range what) v ∧
      v.operator_index_const index = .thrown (.out_of_range what) v) ∧
    (v.Alloc → v.Inv → index < v.size → ∃ x : E, v.live[index]? = some x ∧
      v.operator_index index = .ok x v ∧ v.operator_index_const index = .ok x v) ∧
    (v.operator_index v.size).Raises ∧ (v.operator_index_const v.size).Raises ∧
    (v.Alloc → v.Inv → v.size ≠ 0 → ∃ x : E,
      v.operator_index (v.size - 1) = .ok x v ∧
      v.operator_index_const (v.size - 1) = .ok x v) := by
  have hthrow : ∀ i : Nat, i ≥ v.sz → ∃ what : String,
      what = "index " ++ toString i ++ " out of range for size " ++ toString v.size ∧
      v.operator_index i = .thrown (.out_of_range what) v ∧
      v.operator_index_const i = .thrown (.out_of_range what) v := by
    intro i hi
    refine ⟨_, rfl, ?_, ?_⟩
    · rw [operator_index, if_pos (Or.inl hi)]; rfl
    · rw [operator_index_const, if_pos (Or.inl hi)]; rfl
  have hok : v.Alloc → v.Inv → ∀ i : Nat, i < v.sz → ∃ x : E, v.live[i]? = some x ∧
      v.operator_index i = .ok x v ∧ v.operator_index_const i = .ok x v := by
    intro hA hI i hi
    have hlen : v.live.length = v.sz := length_live v hA hI
    have hx : v.live[i]? = some (v.live[i]) := List.getElem?_eq_getElem (by omega)
    exact ⟨_, hx, operator_index_ok v i _ hx, operator_index_const_ok v i _ hx⟩
  have hno : ∀ i : Nat, i < v.sz →
      ¬ (v.operator_index i).Raises ∧ ¬ (v.operator_index_const i).Raises := by
    intro i hi
    constructor
    · rw [operator_index, if_neg (by omega)]
      split <;> simp [Outcome.Raises]
    · rw [operator_index_const, if_neg (by omega)]
      split <;> simp [Outcome.Raises]
  refine ⟨⟨fun h => ?_, fun h => ?_⟩, ⟨fun h => ?_, fun h => ?_⟩, hthrow index,
    fun hA hI hi => hok hA hI index hi, ?_, ?_, fun hA hI hne => ?_⟩
  · by_cases hi : index < v.sz
    · exact absurd h (hno index hi).1
    · exact Nat.le_of_not_lt hi
  · obtain ⟨w, _, h1, _⟩ := hthrow index h
    rw [h1]; trivial
  · by_cases hi : index < v.sz
    · exact absurd h (hno index hi).2
    · exact Nat.le_of_not_lt hi
  · obtain ⟨w, _, _, h2⟩ := hthrow index h
    rw [h2]; trivial
  · obtain ⟨w, _, h1, _⟩ := hthrow v.sz (Nat.le_refl _)
    show (v.operator_index v.sz).Raises
    rw [h1]; trivial
  · obtain ⟨w, _, _, h2⟩ := hthrow v.sz (Nat.le_refl _)
    show (v.operator_index_const v.sz).Raises
    rw [h2]; trivial
  · have hne1 : v.sz ≠ 0 := hne
    obtain ⟨x, _, h1, h2⟩ := hok hA hI (v.sz - 1) (by omega)
    exact ⟨x, h1, h2⟩

/-- C6, instance: on `[7, 8]` index 2 throws and index 1 returns 8. -/
theorem operator_index_range_witness :
    (∃ what : String,
      what = "index " ++ toString 2 ++ " out of range for size "
        ++ toString (⟨2, 2, some [7, 8]⟩ : Vector Nat).size ∧
      (⟨2, 2, some [7, 8]⟩ : Vector Nat).operator_index 2
        = .thrown (.out_of_range what) ⟨2, 2, some [7, 8]⟩ ∧
      (⟨2, 2, some [7, 8]⟩ : Vector Nat).operator_index_const 2
        = .thrown (.out_of_range what) ⟨2, 2, some [7, 8]⟩) ∧
    (∃ x : Nat, (⟨2, 2, some [7, 8]⟩ : Vector Nat).live[1]? = some x ∧
      (⟨2, 2, some [7, 8]⟩ : Vector Nat).operator_index 1 = .ok x ⟨2, 2, some [7, 8]⟩ ∧
      (⟨2, 2, some [7, 8]⟩ : Vector Nat).operator_index_const 1
        = .ok x ⟨2, 2, some [7, 8]⟩) :=
  ⟨(operator_index_range (⟨2, 2, some [7, 8]⟩ : Vector Nat) 2).2.2.1 (by decide),
    (operator_index_range (⟨2, 2, some [7, 8]⟩ : Vector Nat) 1).2.2.2.1 (by decide)
      (by decide) (by decide)⟩

/-- C7: `pop_back` throws `std::out_of_range` exactly when `size() == 0` and then leaves
the vector as it was, in particular on a default-constructed vector; otherwise it returns,
`size` is one less, and the capacity and every slot of the storage, so every element at
positions `[0, size - 1)`, are as before. -/
theorem pop_back_behaviour (v : Vector E) :
    (v.pop_back.Raises ↔ v.size = 0) ∧
    (v.size = 0 →
      v.pop_back = .thrown (.out_of_range "pop_back() was called on an empty Vector") v) ∧
    ((default_ctor : Vector E).pop_back
      = .thrown (.out_of_range "pop_back() was called on an empty Vector") default_ctor) ∧
    (v.size ≠ 0 → ∃ v1, v.pop_back = .ok () v1 ∧ v1.size + 1 = v.size ∧
      v1.capacity = v.capacity ∧ v1.values = v.values ∧
      v1.live = v.live.take (v.size - 1)) := by
  refine ⟨⟨fun h => ?_, fun h => ?_⟩, fun h => pop_back_thrown v h, rfl, fun h => ?_⟩
  · by_cases hz : v.sz = 0
    · exact hz
    · rw [pop_back_ok v (by omega)] at h
      exact absurd h (by simp [Outcome.Raises])
  · rw [pop_back_thrown v h]; trivial
  · have hz : v.sz ≠ 0 := h
    refine ⟨_, pop_back_ok v (by omega), ?_, rfl, rfl, ?_⟩
    · show v.sz - 1 + 1 = v.sz
      omega
    · show v.slots.take (v.sz - 1) = (v.slots.take v.sz).take (v.sz - 1)
      rw [List.take_take, Nat.min_eq_left (by omega)]

/-- C7, instance: `pop_back` on `[7, 8]` and on an empty vector of capacity 2. -/
theorem pop_back_behaviour_witness :
    (∃ v1, (⟨2, 2, some [7, 8]⟩ : Vector Nat).pop_back = .ok () v1 ∧ v1.size + 1 = 2 ∧
      v1.capacity = 2 ∧ v1.values = some [7, 8] ∧ v1.live = [7]) ∧
    (⟨0, 2, some [7, 8]⟩ : Vector Nat).pop_back
      = .thrown (.out_of_range "pop_back() was called on an empty Vector")
          ⟨0, 2, some [7, 8]⟩ :=
  ⟨(pop_back_behaviour (⟨2, 2, some [7, 8]⟩ : Vector Nat)).2.2.2 (by decide),
    (pop_back_behaviour (⟨0, 2, some [7, 8]⟩ : Vector Nat)).2.1 (by decide)⟩

/-- C9: `erase` throws `std::out_of_range` exactly when the offset of the position from
`begin()` is negative or at least `size()`, so `erase(end())` and every `erase` on an
empty vector throw; whenever it throws, the vector is left as it was. -/
theorem erase_range_check (v : Vector E) (pos : ConstIterator) :
    ((v.erase pos).Raises ↔
      (pos.sub (begin v).toConst < 0 ∨ pos.sub (begin v).toConst ≥ (v.size : Int))) ∧
    (∀ (e : Exn) (s : Vector E), v.erase pos = .thrown e s →
      e = .out_of_range "iterator out of range" ∧ s = v) ∧
    (v.erase (end_ v).toConst).Raises ∧
    (v.size = 0 → (v.erase pos).Raises) := by
  have hsub : pos.sub (begin v).toConst = pos.ptr := by
    simp only [ConstIterator.sub, begin, Iterator.toConst, Int.sub_zero]
  rw [hsub]
  refine ⟨⟨fun h => ?_, fun h => ?_⟩, fun e s h => ?_, ?_, fun hz => ?_⟩
  · by_cases hr : pos.ptr < 0 ∨ (v.sz : Int) ≤ pos.ptr
    · exact hr
    · obtain ⟨e, s, hes⟩ := (raises_iff _).1 h
      exact absurd hes (erase_not_thrown v pos (by omega) (by omega) e s)
  · rw [erase_thrown v pos h]; trivial
  · by_cases hr : pos.ptr < 0 ∨ (v.sz : Int) ≤ pos.ptr
    · rw [erase_thrown v pos hr] at h
      simp only [Outcome.thrown.injEq] at h
      exact ⟨h.1.symm, h.2.symm⟩
    · exact absurd h (erase_not_thrown v pos (by omega) (by omega) e s)
  · rw [erase_thrown v (end_ v).toConst (Or.inr (Int.le_refl _))]; trivial
  · have hz1 : v.sz = 0 := hz
    rw [erase_thrown v pos (by omega)]; trivial

/-- C9, instance: on `[7, 8]`, `erase` at offset 2, which is `end()`, throws and `erase`
at offset 1 does not. -/
theorem erase_range_check_witness :
    ((⟨2, 2, some [7, 8]⟩ : Vector Nat).erase ⟨2⟩).Raises ∧
    ¬ ((⟨2, 2, some [7, 8]⟩ : Vector Nat).erase ⟨1⟩).Raises :=
  ⟨(erase_range_check (⟨2, 2, some [7, 8]⟩ : Vector Nat) ⟨2⟩).1.2 (by decide),
    fun h => absurd ((erase_range_check (⟨2, 2, some [7, 8]⟩ : Vector Nat) ⟨1⟩).1.1 h)
      (by decide)⟩

end Claims

section Claims

open Vector

variable {E : Type} [Inhabited E]

/-- C8: `insert` throws `std::out_of_range` exactly when the offset of the position from
`begin()` is negative or greater than `size()`; whenever it throws, the vector is left as
it was, full or not, because the range check precedes the growth step, the shift and the
read of the argument, whatever the argument refers to. -/
theorem insert_range_check (v : Vector E) (pos : ConstIterator) (val : const_reference E) :
    ((v.insert pos val).Raises ↔
      (pos.sub (begin v).toConst < 0 ∨ pos.sub (begin v).toConst > (v.size : Int))) ∧
    (∀ (e : Exn) (s : Vector E), v.insert pos val = .thrown e s →
      e = .out_of_range "iterator out of range" ∧ s = v) := by
  have hsub : pos.sub (begin v).toConst = pos.ptr := by
    simp only [ConstIterator.sub, begin, Iterator.toConst, Int.sub_zero]
  rw [hsub]
  refine ⟨⟨fun h => ?_, fun h => ?_⟩, fun e s h => ?_⟩
  · by_cases hr : pos.ptr < 0 ∨ (v.sz : Int) < pos.ptr
    · exact hr
    · obtain ⟨e, s, hes⟩ := (raises_iff _).1 h
      exact absurd hes (insert_not_thrown v pos val (by omega) (by omega) e s)
  · rw [insert_thrown v pos val h]; trivial
  · by_cases hr : pos.ptr < 0 ∨ (v.sz : Int) < pos.ptr
    · rw [insert_thrown v pos val hr] at h
      simp only [Outcome.thrown.injEq] at h
      exact ⟨h.1.symm, h.2.symm⟩
    · exact absurd h (insert_not_thrown v pos val (by omega) (by omega) e s)

/-- C8, instance: on the full vector `[7, 8]`, `insert` at offsets 3 and -1 throws and
`insert` at offset 2 does not. -/
theorem insert_range_check_witness :
    ((⟨2, 2, some [7, 8]⟩ : Vector Nat).insert ⟨3⟩ (.object 9)).Raises ∧
    ((⟨2, 2, some [7, 8]⟩ : Vector Nat).insert ⟨-1⟩ (.object 9)).Raises ∧
    ¬ ((⟨2, 2, some [7, 8]⟩ : Vector Nat).insert ⟨2⟩ (.object 9)).Raises :=
  ⟨(insert_range_check (⟨2, 2, some [7, 8]⟩ : Vector Nat) ⟨3⟩ (.object 9)).1.2 (by decide),
    (insert_range_check (⟨2, 2, some [7, 8]⟩ : Vector Nat) ⟨-1⟩ (.object 9)).1.2
      (by decide),
    fun h => absurd
      ((insert_range_check (⟨2, 2, some [7, 8]⟩ : Vector Nat) ⟨2⟩ (.object 9)).1.1 h)
      (by decide)⟩

/-- C10: on a vector with `size <= capacity`, `reserve(n)` returns, leaves `size()` and
the live elements (values and order) as they were and sets `capacity()` to
`max(old capacity, n)`; so it never decreases the capacity, and it changes nothing at all
when `n <= capacity`. -/
theorem reserve_frame (v : Vector E) (n : Nat) (hA : v.Alloc) (hI : v.Inv) :
    ∃ v1, v.reserve n = .ok () v1 ∧ v1.size = v.size ∧ v1.live = v.live ∧
      v1.capacity = max v.capacity n ∧ v.capacity ≤ v1.capacity ∧
      (n ≤ v.capacity → v1 = v) := by
  obtain ⟨v1, h1, h2, h3, h4, _, h6⟩ := reserve_spec v n hA hI
  refine ⟨v1, h1, h2, h4, h3, ?_, h6⟩
  show v.max_sz ≤ v1.max_sz
  rw [h3]
  exact Nat.le_max_left _ _

/-- C10, instance: `reserve(4)` on `[7, 8]` with capacity 2. -/
theorem reserve_frame_witness :
    ∃ v1, (⟨2, 2, some [7, 8]⟩ : Vector Nat).reserve 4 = .ok () v1 ∧ v1.size = 2 ∧
      v1.live = [7, 8] ∧ v1.capacity = max 2 4 ∧ 2 ≤ v1.capacity ∧
      (4 ≤ 2 → v1 = ⟨2, 2, some [7, 8]⟩) :=
  reserve_frame ⟨2, 2, some [7, 8]⟩ 4 (by decide) (by decide)

end Claims


section Claims

open Vector

variable {E : Type} [Inhabited E]

/-- C11: on a vector with `size <= capacity`, `shrink_to_fit` returns with
`capacity() == size()`, the size and the live elements (values and order) as they were;
when `size() == capacity()` beforehand the vector is left exactly as it was. -/
theorem shrink_to_fit_correct (v : Vector E) (hA : v.Alloc) (hI : v.Inv) :
    ∃ v1, v.shrink_to_fit = .ok () v1 ∧ v1.capacity = v1.size ∧ v1.size = v.size ∧
      v1.live = v.live ∧ (v.size = v.capacity → v1 = v) := by
  obtain ⟨v1, h1, h2, h3, h4, _, h6⟩ := shrink_to_fit_spec v hA hI
  refine ⟨v1, h1, ?_, h2, h4, h6⟩
  show v1.max_sz = v1.sz
  rw [h3, h2]

/-- C11, instance: `shrink_to_fit` on `[7, 8]` stored with capacity 4. -/
theorem shrink_to_fit_correct_witness :
    ∃ v1, (⟨2, 4, some [7, 8, 0, 0]⟩ : Vector Nat).shrink_to_fit = .ok () v1 ∧
      v1.capacity = v1.size ∧ v1.size = 2 ∧ v1.live = [7, 8] ∧
      ((2 : Nat) = 4 → v1 = ⟨2, 4, some [7, 8, 0, 0]⟩) :=
  shrink_to_fit_correct ⟨2, 4, some [7, 8, 0, 0]⟩ (by decide) (by decide)

/-- On a vector with `size <= capacity`, `push_back` of a value passed from outside the
storage of the vector, followed immediately by `pop_back()`, does not throw, and afterwards
`size()` and the live elements at positions `[0, size)` are what they were before the
`push_back`; the capacity has not shrunk. -/
theorem push_back_object_pop_back (v : Vector E) (x : E) (hA : v.Alloc) (hI : v.Inv) :
    ∃ v1 v2, v.push_back (.object x) = .ok () v1 ∧ v1.pop_back = .ok () v2 ∧
      ((v.push_back (.object x)).andThen fun _ s => s.pop_back) = .ok () v2 ∧
      v2.size = v.size ∧ v2.live = v.live ∧ v.capacity ≤ v2.capacity := by
  obtain ⟨v1, h1, h2, h3, h4, h5, h6⟩ := push_back_spec v x hA hI
  have hlen : v.live.length = v.sz := length_live v hA hI
  have hpop := pop_back_ok v1 (by omega)
  refine ⟨v1, _, h1, hpop, ?_, ?_, ?_, ?_⟩
  · rw [h1]; exact hpop
  · show v1.sz - 1 = v.sz
    omega
  · show v1.slots.take (v1.sz - 1) = v.live
    have h7 : v1.slots.take (v1.sz - 1) = (v1.slots.take v1.sz).take (v1.sz - 1) := by
      rw [List.take_take, Nat.min_eq_left (by omega)]
    have h8 : v1.slots.take v1.sz = v.live ++ [x] := h3
    rw [h7, h8, h2, Nat.add_sub_cancel, List.take_append_of_le_length (by omega),
      List.take_of_length_le (by omega)]
  · show v.max_sz ≤ v1.max_sz
    rw [h6]
    split
    · exact Nat.le_of_lt (grow_target_gt _)
    · exact Nat.le_refl _

/-- C16, failing input: `Vector<int> v{1, 2, 3}; v.push_back(v[0]); v.pop_back();`.  The
list constructor leaves `[1, 2, 3]` with capacity 3, so `push_back` grows first: `reserve`
releases the array, and `values[sz++] = val` then reads `val`, a slot of the released array.
The behaviour of the round trip is undefined.  With the value 1 passed from outside the
storage it returns with `[1, 2, 3]` and capacity 9. -/
theorem push_back_pop_back_own_element :
    list_ctor [1, 2, 3] = some (⟨3, 3, some [1, 2, 3]⟩ : Vector Nat) ∧
    (((⟨3, 3, some [1, 2, 3]⟩ : Vector Nat).push_back (.slot 0)).andThen
        fun _ s => s.pop_back) = .undefined ∧
    ((Mem.push_back [some [1, 2, 3]] ⟨3, 3, some 0⟩ (.slot 0)).map
        fun st => Mem.pop_back st.1 st.2) = none ∧
    (((⟨3, 3, some [1, 2, 3]⟩ : Vector Nat).push_back (.object 1)).andThen
        fun _ s => s.pop_back) = .ok () ⟨3, 9, some [1, 2, 3, 1, 0, 0, 0, 0, 0]⟩ := by
  decide

/-- Under `size <= capacity` every slot that `push_back`, `insert` and `erase` read or write
through `values` lies inside the array `values` points to: after the growth step
`size < capacity` holds and the array has `capacity` slots, and `erase` reaches its loop
only when `size >= 1`.  So for an argument passed from outside the storage of the vector
none of them has undefined behaviour. -/
theorem accesses_through_values_in_bounds (v : Vector E) (hA : v.Alloc) (hI : v.Inv) :
    (∃ v1, (if v.sz ≥ v.max_sz then grow v else Outcome.ok () v) = .ok () v1 ∧
      v1.size < v1.capacity ∧ v1.slots.length = v1.capacity) ∧
    (∀ x : E, v.push_back (.object x) ≠ .undefined) ∧
    (∀ (pos : ConstIterator) (val : E), v.insert pos (.object val) ≠ .undefined) ∧
    (∀ pos : ConstIterator, v.erase pos ≠ .undefined) ∧
    (∀ pos : ConstIterator, ¬ (v.erase pos).Raises → 1 ≤ v.size) := by
  refine ⟨?_, fun x => ?_, fun pos val => ?_, fun pos => ?_, fun pos h => ?_⟩
  · obtain ⟨v1, a1, h1, h2, h3, _, h5, _⟩ := grow_if_full_spec v hA hI
    exact ⟨v1, h1, h5, alloc_of_values v1 a1 h2 h3⟩
  · obtain ⟨v1, h1, _⟩ := push_back_spec v x hA hI
    rw [h1]
    exact fun h => Outcome.noConfusion h
  · by_cases hr : pos.ptr < 0 ∨ (v.sz : Int) < pos.ptr
    · rw [insert_thrown v pos _ hr]
      exact fun h => Outcome.noConfusion h
    · obtain ⟨v1, h1, _⟩ := insert_spec v pos.ptr.toNat val hA hI (by omega)
      rw [const_iterator_eq pos (by omega), h1]
      exact fun h => Outcome.noConfusion h
  · by_cases hr : pos.ptr < 0 ∨ (v.sz : Int) ≤ pos.ptr
    · rw [erase_thrown v pos hr]
      exact fun h => Outcome.noConfusion h
    · obtain ⟨v1, h1, _⟩ := erase_spec v pos.ptr.toNat hA hI (by omega)
      rw [const_iterator_eq pos (by omega), h1]
      exact fun h => Outcome.noConfusion h
  · by_cases hr : pos.ptr < 0 ∨ (v.sz : Int) ≤ pos.ptr
    · rw [erase_thrown v pos hr] at h
      exact absurd trivial h
    · show 1 ≤ v.sz
      omega

/-- C20, failing input: `Vector<int> v{1, 2, 3}; v.push_back(v[0]);`, and likewise
`v.insert(v.begin(), v[0]);`.  The vector is full, so `grow()` runs: `reserve` copies the
elements to a new array of 9 slots at a new address and releases the array at the old
address.  `val` still refers to slot 0 of the released array, and `values[sz++] = val`
(in `insert`, `values[current] = val`) reads it: the slot read is a slot of no array at
all, whatever the capacity in force. -/
theorem push_back_reads_released_array :
    Mem.grow [some [1, 2, 3]] ⟨3, 3, some 0⟩
      = some ([none, some [1, 2, 3, 0, 0, 0, 0, 0, 0]], ⟨3, 9, some 1⟩) ∧
    Mem.read [none, some [1, 2, 3, 0, 0, 0, 0, 0, 0]] (some 0) (.slot 0)
      = (none : Option Nat) ∧
    Mem.push_back [some [1, 2, 3]] ⟨3, 3, some 0⟩ (.slot 0) = none ∧
    Mem.insert [some [1, 2, 3]] ⟨3, 3, some 0⟩ ⟨0⟩ (.slot 0) = .undefined ∧
    (⟨3, 3, some [1, 2, 3]⟩ : Vector Nat).push_back (.slot 0) = .undefined ∧
    (⟨3, 3, some [1, 2, 3]⟩ : Vector Nat).insert ⟨0⟩ (.slot 0) = .undefined := by
  decide

end Claims


section Claims

open Vector

/-- C15, the code at the failing input: the self-assignment `v = v` on `[1, 2, 3]` returns
with `sz` reset to 0, because the loop test `sz < v.sz` reads the member that `sz = 0` has
just overwritten; the size, 3 before, is 0 afterwards and no element is live. -/
theorem self_assignment_empties :
    (⟨3, 3, some [1, 2, 3]⟩ : Vector Nat).operator_assign .self
        = .ok () ⟨0, 3, some [1, 2, 3]⟩ ∧
      (⟨3, 3, some [1, 2, 3]⟩ : Vector Nat).size = 3 ∧
      (⟨3, 3, some [1, 2, 3]⟩ : Vector Nat).live = [1, 2, 3] ∧
      (⟨0, 3, some [1, 2, 3]⟩ : Vector Nat).size = 0 ∧
      (⟨0, 3, some [1, 2, 3]⟩ : Vector Nat).live = [] := by
  decide

end Claims


/-! ## Amortised cost of appending -/

theorem grow_target_ge (c : Nat) : 3 * c ≤ 2 * Vector.grow_target c := by
  unfold Vector.grow_target Dbl.toSize Dbl.add Dbl.mul Dbl.ofSize Dbl.round LOAD_FACTOR
    LOAD_CONSTANT
  simp only [Nat.add_zero, Nat.zero_add, pow_zero, Nat.mul_one]
  have h1 := roundMant_lower c
  have h2 := roundMant_lower (roundMant c * 7286824197085463)
  have h3 := roundMant_lower
    (roundMant (roundMant c * 7286824197085463) + roundMant 5 * 2 ^ 52)
  have h5 : roundMant 5 = 5 := by decide
  rw [h5] at h3 ⊢
  generalize roundMant (roundMant (roundMant c * 7286824197085463) + 5 * 2 ^ 52) = d at *
  generalize roundMant (roundMant c * 7286824197085463) = b at *
  generalize roundMant c = a at *
  have hd : (c + c / 2 + 1) ≤ d / 2 ^ 52 := by
    rw [Nat.le_div_iff_mul_le (Nat.two_pow_pos 52)]
    omega
  omega

section Cost

open Vector

section Storage

variable {E : Type}

theorem push_back_copies_eq (v : Vector E) :
    push_back_copies v = if v.sz ≥ v.max_sz then v.sz else 0 := by
  have hgt := grow_target_gt v.max_sz
  by_cases hfull : v.sz ≥ v.max_sz
  · simp only [push_back_copies, if_pos hfull, grow_copies, reserve_copies,
      if_neg (show ¬ v.max_sz ≥ grow_target v.max_sz by omega), Nat.sub_zero]
  · simp only [push_back_copies, if_neg hfull]

end Storage

variable {E : Type} [Inhabited E]

theorem push_back_all_copies_bound (xs : List (const_reference E)) :
    ∀ (v : Vector E) (T : Nat),
    v.Alloc → v.Inv → T ≤ 2 * v.max_sz → T ≤ 3 * v.sz →
    T + push_back_all_copies v xs ≤ 3 * (v.sz + xs.length) := by
  induction xs with
  | nil =>
    intro v T _ _ _ h
    simpa [push_back_all_copies] using h
  | cons val xs ih =>
    intro v T hA hI hT1 hT2
    have hI1 : v.sz ≤ v.max_sz := hI
    have hk := push_back_copies_eq v
    rcases push_back_cases v val with hu | ⟨x, hx⟩
    · simp only [push_back_all_copies, hu, List.length_cons]
      rw [hk]
      split <;> omega
    · obtain ⟨v1, h1, h2, _, h4, h5, h6⟩ := push_back_spec v x hA hI
      have hgt := grow_target_gt v.max_sz
      have hge := grow_target_ge v.max_sz
      have key := ih v1 (T + push_back_copies v) h4 h5
      simp only [push_back_all_copies, hx, h1, List.length_cons]
      by_cases hfull : v.sz ≥ v.max_sz
      · rw [if_pos hfull] at h6 hk
        rw [hk] at key ⊢
        have := key (by omega) (by omega)
        omega
      · rw [if_neg hfull] at h6 hk
        rw [hk] at key ⊢
        have := key (by omega) (by omega)
        omega

end Cost

section Claims

open Vector

variable {E : Type} [Inhabited E]

/-- C17: appends are amortised constant time.  There is a constant `C`, namely 3, such
that calling `push_back` for each of `N` arguments on a default-constructed vector copies
at most `C * N` elements into new storage in total, counting for every growth the live
elements that `reserve` copies; and the first growth, from capacity 0, yields
capacity 5. -/
theorem push_back_amortized :
    (∃ C : Nat, ∀ xs : List (const_reference E),
      push_back_all_copies (default_ctor : Vector E) xs ≤ C * xs.length) ∧
    (∀ x : E, ∃ v, (default_ctor : Vector E).push_back (.object x) = .ok () v ∧
      v.capacity = 5) := by
  constructor
  · refine ⟨3, fun xs => ?_⟩
    have h := push_back_all_copies_bound xs (default_ctor : Vector E) 0 rfl (Nat.le_refl 0)
      (Nat.zero_le _) (Nat.zero_le _)
    simpa [default_ctor] using h
  · intro x
    obtain ⟨v, h1, _, _, _, _, h6⟩ := push_back_spec (default_ctor : Vector E) x rfl
      (Nat.le_refl 0)
    refine ⟨v, h1, ?_⟩
    show v.max_sz = 5
    rw [h6]
    show (if (0 : Nat) ≥ 0 then grow_target 0 else 0) = 5
    decide

end Claims


/-! ## Formatting -/

section Formatting

open Vector

variable {E : Type}

theorem intercalate_go_eq_foldl (sep : String) (l : List String) : ∀ acc : String,
    String.intercalate.go acc sep l = l.foldl (fun r x => r ++ sep ++ x) acc := by
  induction l with
  | nil => intro acc; rfl
  | cons x l ih => intro acc; rw [String.intercalate.go, ih, List.foldl_cons]

theorem foldl_append_front (sep : String) (l : List String) : ∀ p q : String,
    l.foldl (fun r x => r ++ sep ++ x) (p ++ q) = p ++ l.foldl (fun r x => r ++ sep ++ x) q := by
  induction l with
  | nil => intro p q; rfl
  | cons x l ih =>
    intro p q
    rw [List.foldl_cons, List.foldl_cons, String.append_assoc, String.append_assoc, ih,
      String.append_assoc]

/-- The iterations of the loop of `print` after the first one. -/
theorem print_loop_rest (render : E → String) (a : List E) (n : Nat) :
    ∀ (i : Nat) (acc : String), i + n ≤ a.length →
    forUp (fun i (st : String × Bool) =>
        let o := if !st.2 then st.1 ++ ", " else st.1
        let first := if !st.2 then st.2 else false
        (load (some a) i).map fun x => (o ++ render x, first)) n i (acc, false)
      = some ((((a.drop i).take n).map render).foldl (fun r x => r ++ ", " ++ x) acc,
          false) := by
  induction n with
  | zero => intro i acc _; rfl
  | succ n ih =>
    intro i acc h
    have hi : i < a.length := by omega
    rw [forUp, load_some, List.getElem?_eq_getElem hi, List.drop_eq_getElem_cons hi]
    simp only [Bool.not_false, if_true, Option.map_some', Option.some_bind, List.take_succ_cons,
      List.map_cons, List.foldl_cons]
    exact ih (i + 1) _ (by omega)

/-- The first iteration of the loop of `print`. -/
theorem print_loop_first (render : E → String) (a : List E) (m : Nat) (o : String)
    (h0 : 0 < a.length) :
    forUp (fun i (st : String × Bool) =>
        let o := if !st.2 then st.1 ++ ", " else st.1
        let first := if !st.2 then st.2 else false
        (load (some a) i).map fun x => (o ++ render x, first)) (m + 1) 0 (o, true)
      = forUp (fun i (st : String × Bool) =>
        let o := if !st.2 then st.1 ++ ", " else st.1
        let first := if !st.2 then st.2 else false
        (load (some a) i).map fun x => (o ++ render x, first)) m 1 (o ++ render a[0], false) := by
  rw [forUp, load_some, List.getElem?_eq_getElem h0]
  rfl

theorem print_spec (render : E → String) (v : Vector E) (o : String) (hA : v.Alloc)
    (hI : v.Inv) :
    v.print render o = some (o ++ "[" ++ ", ".intercalate (v.live.map render) ++ "]") := by
  have hI1 : v.sz ≤ v.max_sz := hI
  by_cases hz : v.sz = 0
  · simp only [print, hz, Nat.sub_zero, forUp, Option.map_some', live, List.take_zero,
      List.map_nil, String.intercalate, String.append_empty]
  · obtain ⟨a, ha, hl⟩ := values_of_alloc v hA (by omega)
    obtain ⟨m, hm⟩ : ∃ m, v.sz = m + 1 := ⟨v.sz - 1, by omega⟩
    have h0 : 0 < a.length := by omega
    have hlive : v.live = a[0] :: (a.drop 1).take m := by
      rw [live_of_values v a ha, hm, ← List.take_succ_cons, ← List.drop_eq_getElem_cons h0,
        List.drop_zero]
    unfold print
    rw [ha, hm, Nat.sub_zero]
    simp only []
    rw [print_loop_first render a m (o ++ "[") h0,
      print_loop_rest render a m 1 (o ++ "[" ++ render a[0]) (by omega), hlive]
    simp only [Option.map_some', List.map_cons, String.intercalate, intercalate_go_eq_foldl]
    rw [foldl_append_front]

end Formatting

section Claims

open Vector

variable {E : Type}

/-- C18: on a vector with `size <= capacity`, `print` and `operator<<` append to the stream
exactly `[`, then the renderings of the live elements in index order separated by the two
characters `, ` with no separator before the first or after the last, then `]`.  An empty
vector is written as `[]` and `[1, 2, 3]` as `[1, 2, 3]`; since only the live elements
enter the text, slots at positions `[size, capacity)` are never rendered. -/
theorem print_format (render : E → String) (v : Vector E) (o : String) (hA : v.Alloc)
    (hI : v.Inv) :
    v.print render o = some (o ++ "[" ++ ", ".intercalate (v.live.map render) ++ "]") ∧
    operator_shl render o v
      = some (o ++ "[" ++ ", ".intercalate (v.live.map render) ++ "]") ∧
    (v.size = 0 → v.print render o = some (o ++ "[" ++ "]")) ∧
    (⟨3, 3, some [1, 2, 3]⟩ : Vector Nat).print toString "" = some "[1, 2, 3]" ∧
    (⟨0, 0, none⟩ : Vector Nat).print toString "" = some "[]" ∧
    (⟨2, 4, some [1, 2, 8, 9]⟩ : Vector Nat).print toString "" = some "[1, 2]" := by
  have h := print_spec render v o hA hI
  refine ⟨h, h, fun hz => ?_, by decide, by decide, by decide⟩
  have hz1 : v.sz = 0 := hz
  rw [h, live, hz1, List.take_zero]
  simp only [List.map_nil, String.intercalate, String.append_empty]

/-- C18, instance: `print` of `[4, 5]` stored with capacity 3 onto a stream that holds
`v = `. -/
theorem print_format_witness :
    (⟨2, 3, some [4, 5, 6]⟩ : Vector Nat).print toString "v = "
      = some ("v = " ++ "[" ++ ", ".intercalate
          ((⟨2, 3, some [4, 5, 6]⟩ : Vector Nat).live.map toString) ++ "]") :=
  (print_format toString (⟨2, 3, some [4, 5, 6]⟩ : Vector Nat) "v = " (by decide)
    (by decide)).1

end Claims


/-! ## Rounding to nearest -/

/-- Rounding to 53 significant bits moves a numerator by at most half of the weight `2 ^ s`
of the last kept bit, and never across a multiple of that weight. -/
theorem roundMant_spec (N t : Nat) (h : N < 2 ^ (53 + t)) :
    ∃ s, s ≤ t ∧ 2 * roundMant N ≤ 2 * N + 2 ^ s ∧ 2 * N ≤ 2 * roundMant N + 2 ^ s ∧
      ∀ R, 2 ^ s ∣ R → (R ≤ N → R ≤ roundMant N) ∧ (N ≤ R → roundMant N ≤ R) := by
  unfold roundMant
  by_cases hs : N < 2 ^ 53
  · rw [if_pos hs]
    exact ⟨0, Nat.zero_le t, by omega, by omega, fun R _ => ⟨id, id⟩⟩
  · rw [if_neg hs]
    have hfuel : N < 2 ^ (53 + N) :=
      lt_of_lt_of_le (Nat.lt_two_pow N) (Nat.pow_le_pow_right (by norm_num) (by omega))
    have hq := (excessBits_spec N N hfuel).2 (by omega)
    generalize excessBits N N = s at hq ⊢
    have hP : 0 < 2 ^ s := Nat.two_pow_pos s
    have hdm := Nat.div_add_mod N (2 ^ s)
    have hr := Nat.mod_lt N hP
    rw [Nat.mul_comm (2 ^ s)] at hdm
    have hst : s ≤ t := by
      by_contra hc
      have h1 : 2 ^ (53 + t) ≤ 2 ^ (52 + s) := Nat.pow_le_pow_right (by norm_num) (by omega)
      have h2 : 2 ^ 52 * 2 ^ s ≤ N / 2 ^ s * 2 ^ s := Nat.mul_le_mul_right _ hq
      rw [← pow_add] at h2
      omega
    refine ⟨s, hst, ?_⟩
    simp only []
    generalize N / 2 ^ s = q at *
    generalize N % 2 ^ s = r at *
    generalize 2 ^ s = P at *
    have hcross : ∀ k : Nat, (P * k ≤ N → k ≤ q) ∧ (N ≤ P * k → 0 < r → q + 1 ≤ k) := by
      intro k
      constructor
      · intro hk
        by_contra hc
        have : P * (q + 1) ≤ P * k := Nat.mul_le_mul_left P (by omega)
        rw [Nat.mul_add, Nat.mul_one, Nat.mul_comm P q] at this
        omega
      · intro hk hr0
        by_contra hc
        have : P * k ≤ P * q := Nat.mul_le_mul_left P (by omega)
        rw [Nat.mul_comm P q] at this
        omega
    split
    · rename_i hup
      rw [Nat.add_mul, Nat.one_mul]
      refine ⟨by omega, by omega, ?_⟩
      rintro R ⟨k, rfl⟩
      constructor
      · intro hk
        omega
      · intro hk
        have hr0 : 0 < r := by omega
        have h1 := (hcross k).2 hk hr0
        have : P * (q + 1) ≤ P * k := Nat.mul_le_mul_left P h1
        rw [Nat.mul_add, Nat.mul_one, Nat.mul_comm P q] at this
        exact this
    · rename_i hdown
      refine ⟨by omega, by omega, ?_⟩
      rintro R ⟨k, rfl⟩
      constructor
      · intro hk
        have h1 := (hcross k).1 hk
        have : P * k ≤ P * q := Nat.mul_le_mul_left P h1
        rw [Nat.mul_comm P q] at this
        exact this
      · intro hk
        omega

/-- For capacities below `2 ^ 42` the value computed in `double` is the exact one,
`floor(c * 1.618 + 5)`. -/
theorem grow_target_exact (c : Nat) (hc : c < 2 ^ 42) :
    Vector.grow_target c = c * 1618 / 1000 + 5 := by
  unfold Vector.grow_target Dbl.toSize Dbl.add Dbl.mul Dbl.ofSize Dbl.round LOAD_FACTOR
    LOAD_CONSTANT
  simp only [Nat.add_zero, Nat.zero_add, pow_zero, Nat.mul_one]
  have hc1 : roundMant c = c := by
    unfold roundMant
    rw [if_pos (by omega)]
  have h5 : roundMant 5 = 5 := by decide
  rw [hc1, h5]
  obtain ⟨s1, hs1, a1, a2, a3⟩ := roundMant_spec (c * 7286824197085463) 42
    (by norm_num; omega)
  have hP1 : 2 ^ s1 ≤ 2 ^ 42 := Nat.pow_le_pow_right (by norm_num) hs1
  have hd1 : (2 : Nat) ^ s1 ∣ 2 ^ 52 := pow_dvd_pow 2 (by omega)
  have lo1 := (a3 (c * 1618 / 1000 * 2 ^ 52) (Dvd.dvd.mul_left hd1 _)).1 (by omega)
  generalize roundMant (c * 7286824197085463) = a at *
  obtain ⟨s2, hs2, b1, b2, b3⟩ := roundMant_spec (a + 5 * 2 ^ 52) 43 (by norm_num; omega)
  have hP2 : 2 ^ s2 ≤ 2 ^ 43 := Nat.pow_le_pow_right (by norm_num) hs2
  have hd2 : (2 : Nat) ^ s2 ∣ 2 ^ 52 := pow_dvd_pow 2 (by omega)
  have lo2 := (b3 ((c * 1618 / 1000 + 5) * 2 ^ 52) (Dvd.dvd.mul_left hd2 _)).1 (by omega)
  generalize roundMant (a + 5 * 2 ^ 52) = d at *
  generalize 2 ^ s1 = P1 at *
  generalize 2 ^ s2 = P2 at *
  apply Nat.le_antisymm
  · apply Nat.le_of_lt_succ
    rw [Nat.div_lt_iff_lt_mul (Nat.two_pow_pos 52)]
    omega
  · rw [Nat.le_div_iff_mul_le (Nat.two_pow_pos 52)]
    exact lo2


/-! ## The growth target as a `size_type` -/

/-- The shape of a rounded numerator that does not fit into 53 bits. -/
theorem roundMant_shape (N : Nat) (hN : 2 ^ 53 ≤ N) :
    ∃ s q r, N = q * 2 ^ s + r ∧ r < 2 ^ s ∧ 2 ^ 52 ≤ q ∧ q < 2 ^ 53 ∧ 1 ≤ s ∧
      roundMant N
        = if 2 ^ s < 2 * r ∨ (2 * r = 2 ^ s ∧ q % 2 = 1) then (q + 1) * 2 ^ s else q * 2 ^ s := by
  have hfuel : N < 2 ^ (53 + N) :=
    lt_of_lt_of_le (Nat.lt_two_pow N) (Nat.pow_le_pow_right (by norm_num) (by omega))
  obtain ⟨hq1, hq2⟩ := excessBits_spec N N hfuel
  have hq3 := hq2 hN
  refine ⟨excessBits N N, N / 2 ^ excessBits N N, N % 2 ^ excessBits N N, ?_, ?_, hq3, hq1,
    ?_, ?_⟩
  · rw [Nat.mul_comm]
    exact (Nat.div_add_mod N _).symm
  · exact Nat.mod_lt N (Nat.two_pow_pos _)
  · by_contra hs
    have h0 : excessBits N N = 0 := by omega
    rw [h0, pow_zero, Nat.div_one] at hq1
    omega
  · unfold roundMant
    rw [if_neg (by omega)]

theorem roundMant_mono (N N' : Nat) (h : N ≤ N') : roundMant N ≤ roundMant N' := by
  by_cases hN : N < 2 ^ 53
  · have e : roundMant N = N := by
      unfold roundMant
      rw [if_pos hN]
    rw [e]
    by_cases hN' : N' < 2 ^ 53
    · have e' : roundMant N' = N' := by
        unfold roundMant
        rw [if_pos hN']
      rw [e']
      exact h
    · obtain ⟨s, q, r, _, _, c3, _, c5, c6⟩ := roundMant_shape N' (by omega)
      have hP : 2 ≤ 2 ^ s :=
        le_trans (by norm_num) (Nat.pow_le_pow_right (by norm_num : 0 < 2) c5)
      have hlow : 2 ^ 52 * 2 ≤ q * 2 ^ s := Nat.mul_le_mul c3 hP
      have hle : q * 2 ^ s ≤ roundMant N' := by
        rw [c6]
        split
        · exact Nat.mul_le_mul_right _ (Nat.le_succ q)
        · exact Nat.le_refl _
      omega
  · obtain ⟨s, q, r, c1, c2, c3, c4, c5, c6⟩ := roundMant_shape N (by omega)
    obtain ⟨s', q', r', d1, d2, d3, d4, d5, d6⟩ := roundMant_shape N' (by omega)
    have hup : roundMant N ≤ (q + 1) * 2 ^ s := by
      rw [c6]
      split
      · exact Nat.le_refl _
      · exact Nat.mul_le_mul_right _ (Nat.le_succ q)
    have hlo : q' * 2 ^ s' ≤ roundMant N' := by
      rw [d6]
      split
      · exact Nat.mul_le_mul_right _ (Nat.le_succ q')
      · exact Nat.le_refl _
    have hss : s ≤ s' := by
      by_contra hc
      have h1 : 2 ^ (s' + 1) ≤ 2 ^ s := Nat.pow_le_pow_right (by norm_num) (by omega)
      rw [pow_succ] at h1
      have h2 : (q' + 1) * 2 ^ s' ≤ 2 ^ 53 * 2 ^ s' := Nat.mul_le_mul_right _ (by omega)
      have h3 : 2 ^ 52 * 2 ^ s ≤ q * 2 ^ s := Nat.mul_le_mul_right _ c3
      have h4 : 2 ^ 52 * (2 ^ s' * 2) ≤ 2 ^ 52 * 2 ^ s := Nat.mul_le_mul_left _ h1
      have h5 : (q' + 1) * 2 ^ s' = q' * 2 ^ s' + 2 ^ s' := by ring
      have h6 : 2 ^ 52 * (2 ^ s' * 2) = 2 ^ 53 * 2 ^ s' := by ring
      omega
    rcases Nat.lt_or_eq_of_le hss with hlt | heq
    · have h1 : 2 ^ (s + 1) ≤ 2 ^ s' := Nat.pow_le_pow_right (by norm_num) (by omega)
      rw [pow_succ] at h1
      have h2 : (q + 1) * 2 ^ s ≤ 2 ^ 53 * 2 ^ s := Nat.mul_le_mul_right _ (by omega)
      have h3 : 2 ^ 52 * 2 ^ s' ≤ q' * 2 ^ s' := Nat.mul_le_mul_right _ d3
      have h4 : 2 ^ 52 * (2 ^ s * 2) ≤ 2 ^ 52 * 2 ^ s' := Nat.mul_le_mul_left _ h1
      have h6 : 2 ^ 52 * (2 ^ s * 2) = 2 ^ 53 * 2 ^ s := by ring
      omega
    · subst heq
      have hP : 0 < 2 ^ s := Nat.two_pow_pos s
      generalize 2 ^ s = P at *
      have hqq : q ≤ q' := by
        by_contra hc
        have h1 : (q' + 1) * P ≤ q * P := Nat.mul_le_mul_right _ (by omega)
        have h2 : (q' + 1) * P = q' * P + P := by ring
        omega
      rcases Nat.lt_or_eq_of_le hqq with hlt | heq
      · have h1 : (q + 1) * P ≤ q' * P := Nat.mul_le_mul_right _ (by omega)
        omega
      · subst heq
        have hrr : r ≤ r' := by omega
        rw [c6, d6]
        by_cases hu : P < 2 * r ∨ (2 * r = P ∧ q % 2 = 1)
        · have hu' : P < 2 * r' ∨ (2 * r' = P ∧ q % 2 = 1) := by omega
          rw [if_pos hu, if_pos hu']
        · rw [if_neg hu]
          split
          · exact Nat.mul_le_mul_right _ (Nat.le_succ q)
          · exact Nat.le_refl _

theorem grow_target_mono (c c' : Nat) (h : c ≤ c') :
    Vector.grow_target c ≤ Vector.grow_target c' := by
  unfold Vector.grow_target Dbl.toSize Dbl.add Dbl.mul Dbl.ofSize Dbl.round LOAD_FACTOR
    LOAD_CONSTANT
  simp only [Nat.add_zero, Nat.zero_add, pow_zero, Nat.mul_one]
  apply Nat.div_le_div_right
  apply roundMant_mono
  apply Nat.add_le_add_right
  apply roundMant_mono
  apply Nat.mul_le_mul_right
  exact roundMant_mono c c' h

/-- The value `grow()` passes to `reserve` is a value of `size_type` exactly when the
capacity is below 11400954310080068608. -/
theorem grow_target_fits (c : Nat) :
    Vector.grow_target c ≤ SIZE_MAX ↔ c < 11400954310080068608 := by
  have h1 : Vector.grow_target 11400954310080068607 = 18446744073709549568 := by decide
  have h2 : Vector.grow_target 11400954310080068608 = 18446744073709555712 := by decide
  constructor
  · intro hc
    by_contra hn
    have := grow_target_mono 11400954310080068608 c (by omega)
    rw [h2] at this
    unfold SIZE_MAX at hc
    omega
  · intro hc
    have := grow_target_mono c 11400954310080068607 (by omega)
    rw [h1] at this
    unfold SIZE_MAX
    omega


section Claims

open Vector

variable {E : Type} [Inhabited E]

/-- C12, counterexample: `push_back` on a vector whose size and capacity are both
17592186044911 leaves the capacity 28464157020671, while `floor(c * 1.618 + 5)` is
28464157020670: the product is rounded to `double` before it is truncated. -/
theorem growth_not_exact_floor :
    ∃ v : Vector Nat, v.Alloc ∧ v.Inv ∧ v.size = v.capacity ∧ v.capacity = 17592186044911 ∧
      ∃ v1, v.push_back (.object 0) = .ok () v1 ∧ v1.capacity = 28464157020671 ∧
        v.capacity * 1618 / 1000 + 5 = 28464157020670 ∧
        v1.capacity ≠ v.capacity * 1618 / 1000 + 5 := by
  have hA : (⟨17592186044911, 17592186044911, some (List.replicate 17592186044911 0)⟩ :
      Vector Nat).Alloc := by
    simp only [Alloc, slots, Option.getD_some, List.length_replicate]
  have hI : (⟨17592186044911, 17592186044911, some (List.replicate 17592186044911 0)⟩ :
      Vector Nat).Inv := Nat.le_refl _
  obtain ⟨v1, h1, _, _, _, _, h6⟩ := push_back_spec _ 0 hA hI
  have hg : grow_target 17592186044911 = 28464157020671 := by decide
  have hcap : v1.max_sz = 28464157020671 := by
    rw [h6]
    simp only [ge_iff_le, Nat.le_refl, if_true]
    exact hg
  refine ⟨_, hA, hI, rfl, rfl, v1, h1, hcap, by decide, ?_⟩
  show v1.max_sz ≠ 17592186044911 * 1618 / 1000 + 5
  rw [hcap]
  decide

/-- C12, amended: when `push_back` or an `insert` at a valid position is called on a
vector whose size equals its capacity `c`, the resulting capacity is the value of
`c * 1.618 + 5` computed in `double` and truncated, which for every `c < 2 ^ 42` is
exactly `floor(c * 1.618 + 5)`; from capacity 0 this gives 5, 13, 26, 47, 81.  When
`size < capacity` beforehand, `push_back` and `insert` leave the capacity as it was.  The
calls return for every argument that is not a slot of the vector, and whenever a call
returns, with any argument, the capacity is the one stated. -/
theorem growth_policy (v : Vector E) (hA : v.Alloc) (hI : v.Inv) :
    (v.size = v.capacity →
      (∀ x : E, ∃ v1, v.push_back (.object x) = .ok () v1 ∧
        v1.capacity = grow_target v.capacity ∧
        (v.capacity < 2 ^ 42 → v1.capacity = v.capacity * 1618 / 1000 + 5)) ∧
      (∀ (pos : ConstIterator) (index : Nat) (val : E),
        pos.sub (begin v).toConst = (index : Int) → index ≤ v.size →
        ∃ it v1, v.insert pos (.object val) = .ok it v1 ∧
          v1.capacity = grow_target v.capacity ∧
          (v.capacity < 2 ^ 42 → v1.capacity = v.capacity * 1618 / 1000 + 5))) ∧
    (v.size < v.capacity →
      (∀ x : E, ∃ v1, v.push_back (.object x) = .ok () v1 ∧ v1.capacity = v.capacity) ∧
      (∀ (pos : ConstIterator) (index : Nat) (val : E),
        pos.sub (begin v).toConst = (index : Int) → index ≤ v.size →
        ∃ it v1, v.insert pos (.object val) = .ok it v1 ∧ v1.capacity = v.capacity)) ∧
    (grow_target 0 = 5 ∧ grow_target 5 = 13 ∧ grow_target 13 = 26 ∧ grow_target 26 = 47 ∧
      grow_target 47 = 81) ∧
    (∀ (val : const_reference E) (v1 : Vector E), v.push_back val = .ok () v1 →
      v1.capacity = if v.size = v.capacity then grow_target v.capacity else v.capacity) ∧
    (∀ (pos : ConstIterator) (val : const_reference E) (it : Iterator) (v1 : Vector E),
      v.insert pos val = .ok it v1 →
      v1.capacity = if v.size = v.capacity then grow_target v.capacity else v.capacity) := by
  have hI1 : v.sz ≤ v.max_sz := hI
  have hcond : (if v.sz ≥ v.max_sz then grow_target v.max_sz else v.max_sz)
      = if v.size = v.capacity then grow_target v.capacity else v.capacity := by
    show _ = if v.sz = v.max_sz then grow_target v.max_sz else v.max_sz
    by_cases hf : v.sz = v.max_sz
    · rw [if_pos (by omega), if_pos hf]
    · rw [if_neg (by omega), if_neg hf]
  refine ⟨fun hfull => ⟨fun x => ?_, fun pos index val hpos hi => ?_⟩,
    fun hfree => ⟨fun x => ?_, fun pos index val hpos hi => ?_⟩, by decide,
    fun val v1 hv => ?_, fun pos val it v1 hv => ?_⟩
  · have hf : v.sz = v.max_sz := hfull
    obtain ⟨v1, h1, _, _, _, _, h6⟩ := push_back_spec v x hA hI
    rw [if_pos (by omega)] at h6
    exact ⟨v1, h1, h6, fun hc => by
      show v1.max_sz = v.max_sz * 1618 / 1000 + 5
      rw [h6]; exact grow_target_exact _ hc⟩
  · have hf : v.sz = v.max_sz := hfull
    obtain ⟨v1, h1, _, _, _, _, h6⟩ := insert_spec v index val hA hI hi
    rw [if_pos (by omega)] at h6
    refine ⟨⟨(index : Int)⟩, v1, ?_, h6, fun hc => ?_⟩
    · rw [const_iterator_of_offset v pos index hpos, h1]
    · show v1.max_sz = v.max_sz * 1618 / 1000 + 5
      rw [h6]; exact grow_target_exact _ hc
  · have hf : v.sz < v.max_sz := hfree
    obtain ⟨v1, h1, _, _, _, _, h6⟩ := push_back_spec v x hA hI
    rw [if_neg (by omega)] at h6
    exact ⟨v1, h1, h6⟩
  · have hf : v.sz < v.max_sz := hfree
    obtain ⟨v1, h1, _, _, _, _, h6⟩ := insert_spec v index val hA hI hi
    rw [if_neg (by omega)] at h6
    refine ⟨⟨(index : Int)⟩, v1, ?_, h6⟩
    rw [const_iterator_of_offset v pos index hpos, h1]
  · rcases push_back_cases v val with hu | ⟨x, hx⟩
    · rw [hu] at hv
      exact Outcome.noConfusion hv
    · obtain ⟨v2, h1, _, _, _, _, h6⟩ := push_back_spec v x hA hI
      rw [hx, h1] at hv
      simp only [Outcome.ok.injEq, true_and] at hv
      subst hv
      show v2.max_sz = _
      rw [h6, hcond]
  · rcases insert_cases v pos val with hu | ⟨x, hx⟩
    · rw [hu] at hv
      exact Outcome.noConfusion hv
    · by_cases hr : pos.ptr < 0 ∨ (v.sz : Int) < pos.ptr
      · rw [insert_thrown v pos _ hr] at hv
        exact Outcome.noConfusion hv
      · obtain ⟨v2, h1, _, _, _, _, h6⟩ := insert_spec v pos.ptr.toNat x hA hI (by omega)
        rw [hx, const_iterator_eq pos (by omega), h1] at hv
        simp only [Outcome.ok.injEq] at hv
        obtain ⟨_, hv2⟩ := hv
        subst hv2
        show v2.max_sz = _
        rw [h6, hcond]

/-- C12, instance: `push_back` on the full vector `[7, 8]` of capacity 2, and on `[7]`
stored with capacity 2. -/
theorem growth_policy_witness :
    (∃ v1, (⟨2, 2, some [7, 8]⟩ : Vector Nat).push_back (.object 9) = .ok () v1 ∧
      v1.capacity = grow_target 2 ∧ ((2 : Nat) < 2 ^ 42 → v1.capacity = 2 * 1618 / 1000 + 5)) ∧
    (∃ v1, (⟨1, 2, some [7, 8]⟩ : Vector Nat).push_back (.object 9) = .ok () v1 ∧ v1.capacity = 2) :=
  ⟨((growth_policy (⟨2, 2, some [7, 8]⟩ : Vector Nat) (by decide) (by decide)).1
      (by decide)).1 9,
    ((growth_policy (⟨1, 2, some [7, 8]⟩ : Vector Nat) (by decide) (by decide)).2.1
      (by decide)).1 9⟩

/-- C19, the code at the failing input: `[1, 2, 3]` satisfies "storage allocated iff
capacity > 0", and so does the vector after `clear()`; `shrink_to_fit()` then executes
`new value_type[0]`, which is not null, and sets the capacity to 0. -/
theorem shrink_to_fit_breaks_storage_iff :
    (⟨3, 3, some [1, 2, 3]⟩ : Vector Nat).StorageIff ∧
    (⟨3, 3, some [1, 2, 3]⟩ : Vector Nat).clear = .ok () ⟨0, 3, some [1, 2, 3]⟩ ∧
    (⟨0, 3, some [1, 2, 3]⟩ : Vector Nat).StorageIff ∧
    (⟨0, 3, some [1, 2, 3]⟩ : Vector Nat).shrink_to_fit = .ok () ⟨0, 0, some []⟩ ∧
    (⟨0, 0, some []⟩ : Vector Nat).values ≠ none ∧
    (⟨0, 0, some []⟩ : Vector Nat).capacity = 0 ∧
    ¬ (⟨0, 0, some []⟩ : Vector Nat).StorageIff := by
  decide

end Claims


/-! ## The free store -/

namespace Mem

section Store

variable {E : Type}

theorem deref_set_same (h : Store E) (a : Nat) (blk : Ptr E) (ha : a < h.length) :
    deref (h.set a blk) (some a) = blk := by
  simp only [deref, List.getElem?_set_self ha, Option.join, Option.some_bind, id]

theorem deref_set_ne (h : Store E) (a : Nat) (blk : Ptr E) (p : Option Nat)
    (hp : p ≠ some a) : deref (h.set a blk) p = deref h p := by
  cases p with
  | none => rfl
  | some b =>
    have hb : a ≠ b := fun e => hp (by rw [e])
    simp only [deref, List.getElem?_set_ne hb]

theorem set_deref_self (h : Store E) (a : Nat) (ha : a < h.length) :
    h.set a (deref h (some a)) = h := by
  apply List.ext_getElem?
  intro j
  rw [List.getElem?_set]
  by_cases hj : a = j
  · subst hj
    rw [if_pos rfl, if_pos ha]
    simp only [deref, List.getElem?_eq_getElem ha, Option.join, Option.some_bind, id]
  · rw [if_neg hj]

/-- A pointer is null or an address of the store. -/
theorem deref_append (h : Store E) (blk : Ptr E) (p : Option Nat)
    (hp : ∀ a, p = some a → a < h.length) : deref (h ++ [blk]) p = deref h p := by
  cases p with
  | none => rfl
  | some a => simp only [deref, List.getElem?_append_left (hp a rfl)]

theorem deref_append_new (h : Store E) (blk : Ptr E) :
    deref (h ++ [blk]) (some h.length) = blk := by
  simp only [deref, List.getElem?_concat_length, Option.join, Option.some_bind, id]

theorem deref_eq_some (h : Store E) (p : Option Nat) (arr : List E) (hd : deref h p = some arr) :
    ∃ a, p = some a ∧ a < h.length := by
  cases p with
  | none => exact absurd hd (by simp [deref])
  | some a =>
    refine ⟨a, rfl, ?_⟩
    by_contra hc
    rw [deref, List.getElem?_eq_none (by omega)] at hd
    exact absurd hd (by simp)

/-- The loop `for (i...) buf[i] = values[i];` of `reserve` run in the free store writes
the array at `d` exactly as the loop on the array itself does. -/
theorem copy_loop_sim (src : Option Nat) (d : Nat) (hsd : src ≠ some d) (n : Nat) :
    ∀ (i : Nat) (h : Store E), d < h.length →
    forUp (fun i h1 => (load h1 src i).bind (store h1 (some d) i)) n i h
      = (forUp (fun i buf => (PR2.load (deref h src) i).bind (PR2.store buf i)) n i
          (deref h (some d))).map fun blk => h.set d blk := by
  induction n with
  | zero =>
    intro i h hd
    simp only [forUp, Option.map_some', set_deref_self h d hd]
  | succ n ih =>
    intro i h hd
    rw [forUp, forUp]
    simp only [load, store]
    cases hl : PR2.load (deref h src) i with
    | none => rfl
    | some x =>
      simp only [Option.some_bind]
      cases hs : PR2.store (deref h (some d)) i x with
      | none => rfl
      | some blk =>
        simp only [Option.map_some', Option.some_bind]
        have key := ih (i + 1) (h.set d blk) (by rw [List.length_set]; exact hd)
        rw [deref_set_ne h d blk src hsd, deref_set_same h d blk hd] at key
        simp only [load, store] at key
        rw [key]
        simp only [List.set_set]

end Store

end Mem


namespace Mem

section Store

variable {E : Type}

theorem allocated_lt (h : Store E) (o : Obj) (hal : Allocated h o) (a : Nat)
    (ha : o.values = some a) : a < h.length := by
  unfold Allocated at hal
  rw [ha] at hal
  exact hal

theorem allocated_ne_length (h : Store E) (o : Obj) (hal : Allocated h o) :
    o.values ≠ some h.length := by
  intro hc
  have := allocated_lt h o hal _ hc
  omega

theorem getElem?_delete_array (h : Store E) (p : Option Nat) (a : Nat) (hp : p ≠ some a) :
    (delete_array h p)[a]? = h[a]? := by
  cases p with
  | none => rfl
  | some b =>
    have hb : b ≠ a := fun e => hp (by rw [e])
    simp only [delete_array, List.getElem?_set_ne hb]

theorem length_delete_array (h : Store E) (p : Option Nat) :
    (delete_array h p).length = h.length := by
  cases p with
  | none => rfl
  | some b => simp only [delete_array, List.length_set]

theorem deref_congr (h h1 : Store E) (p : Option Nat)
    (hf : ∀ a, p = some a → h1[a]? = h[a]?) : deref h1 p = deref h p := by
  cases p with
  | none => rfl
  | some a => simp only [deref, hf a rfl]

/-- The loop `for (; sz < v.sz; ++sz) values[sz] = v.values[sz];` run in the free store
writes the array at `d` exactly as the loop on the vector does. -/
theorem member_loop_sim (src : Option Nat) (d : Nat) (hsd : src ≠ some d) (n : Nat) :
    ∀ (i : Nat) (h : Store E) (o : Obj), o.values = some d → d < h.length →
    forUp (fun _ (st : Store E × Obj) => (load st.1 src st.2.sz).bind fun x =>
        (store st.1 st.2.values st.2.sz x).map fun h1 =>
          (h1, { st.2 with sz := st.2.sz + 1 })) n i (h, o)
      = (forUp (fun _ (self : Vector E) => (PR2.load (deref h src) self.sz).bind fun x =>
          (PR2.store self.values self.sz x).map fun p =>
            { self with values := p, sz := self.sz + 1 }) n i (view h o)).map
        fun v => (h.set d v.values, ⟨v.sz, v.max_sz, some d⟩) := by
  induction n with
  | zero =>
    intro i h o ho hd
    obtain ⟨sz, cap, vals⟩ := o
    simp only at ho
    subst ho
    simp only [forUp, Option.map_some', view, set_deref_self h d hd]
  | succ n ih =>
    intro i h o ho hd
    obtain ⟨sz, cap, vals⟩ := o
    simp only at ho
    subst ho
    rw [forUp, forUp]
    simp only [load, store, view]
    cases hl : PR2.load (deref h src) sz with
    | none => rfl
    | some x =>
      simp only [Option.some_bind]
      cases hs : PR2.store (deref h (some d)) sz x with
      | none => rfl
      | some blk =>
        simp only [Option.map_some', Option.some_bind]
        have key := ih (i + 1) (h.set d blk) ⟨sz + 1, cap, some d⟩ rfl
          (by rw [List.length_set]; exact hd)
        rw [deref_set_ne h d blk src hsd] at key
        simp only [load, store, view, deref_set_same h d blk hd] at key
        rw [key]
        simp only [List.set_set]

end Store

end Mem


namespace Mem

section Store

variable {E : Type}

/-- The member loop of the copy constructor and of `operator=` run in the free store on an
object whose array is at `d`, when the loop on the vector it denotes returns `c`. -/
theorem member_loop_view (src : Option Nat) (d : Nat) (hsd : src ≠ some d) (n i : Nat)
    (h : Store E) (o : Obj) (ho : o.values = some d) (hd : d < h.length) (c : Vector E)
    (hc : forUp (fun _ (self : Vector E) => (PR2.load (deref h src) self.sz).bind fun x =>
          (PR2.store self.values self.sz x).map fun p =>
            { self with values := p, sz := self.sz + 1 }) n i (view h o) = some c) :
    ∃ h1 o1, forUp (fun _ (st : Store E × Obj) => (load st.1 src st.2.sz).bind fun x =>
        (store st.1 st.2.values st.2.sz x).map fun h1 =>
          (h1, { st.2 with sz := st.2.sz + 1 })) n i (h, o) = some (h1, o1) ∧
      view h1 o1 = c ∧ o1.values = some d ∧ h1.length = h.length ∧
      ∀ a, a ≠ d → h1[a]? = h[a]? := by
  refine ⟨h.set d c.values, ⟨c.sz, c.max_sz, some d⟩, ?_, ?_, rfl, List.length_set _ _ _,
    fun a ha => List.getElem?_set_ne (fun e => ha e.symm)⟩
  · rw [member_loop_sim src d hsd n i h o ho hd, hc]
    rfl
  · simp only [view, deref_set_same h d c.values hd]

end Store

variable {E : Type} [Inhabited E]

theorem reserve_store_spec (h : Store E) (o : Obj) (n : Nat) (hal : Allocated h o)
    (hA : (view h o).Alloc) (hI : (view h o).Inv) :
    ∃ h1 o1, reserve h o n = some (h1, o1) ∧
      Vector.reserve (view h o) n = .ok () (view h1 o1) ∧ Allocated h1 o1 ∧
      h.length ≤ h1.length ∧
      ∀ a, a < h.length → o.values ≠ some a → h1[a]? = h[a]? ∧ o1.values ≠ some a := by
  obtain ⟨v1, hv, _⟩ := Vector.reserve_spec (view h o) n hA hI
  by_cases hn : o.max_sz ≥ n
  · refine ⟨h, o, ?_, ?_, hal, Nat.le_refl _, fun _ _ hoa => ⟨rfl, hoa⟩⟩
    · rw [reserve, if_pos hn]
    · rw [Vector.reserve, if_pos (show (view h o).max_sz ≥ n from hn)]
  · have hne := allocated_ne_length h o hal
    have hsim := copy_loop_sim o.values h.length hne (o.sz - 0) 0 (h ++ [PR2.new_array n])
      (by rw [List.length_append]; exact Nat.lt_succ_self _)
    rw [deref_append_new, deref_append h _ o.values (fun a ha => allocated_lt h o hal a ha)]
      at hsim
    rw [Vector.reserve, if_neg (show ¬ (view h o).max_sz ≥ n from hn)] at hv
    have hloop : ∃ buf, forUp (fun i buf => (PR2.load (deref h o.values) i).bind
        (PR2.store buf i)) (o.sz - 0) 0 (PR2.new_array n) = some buf := by
      cases hc : forUp (fun i buf => (PR2.load (deref h o.values) i).bind
          (PR2.store buf i)) (o.sz - 0) 0 (PR2.new_array n) with
      | none =>
        simp only [view] at hv
        rw [hc] at hv
        exact absurd hv (fun e => Outcome.noConfusion e)
      | some buf => exact ⟨buf, rfl⟩
    obtain ⟨buf, hbuf⟩ := hloop
    rw [hbuf] at hsim
    refine ⟨delete_array ((h ++ [PR2.new_array n]).set h.length buf) o.values,
      { o with values := some h.length, max_sz := n }, ?_, ?_, ?_, ?_, ?_⟩
    · rw [reserve, if_neg hn]
      simp only [new_array]
      rw [hsim]
      rfl
    · rw [Vector.reserve, if_neg (show ¬ (view h o).max_sz ≥ n from hn)]
      simp only [view]
      rw [hbuf]
      have hd : deref (delete_array ((h ++ [PR2.new_array n]).set h.length buf) o.values)
          (some h.length) = buf := by
        simp only [deref, getElem?_delete_array _ _ _ hne, List.getElem?_set_self
          (show h.length < (h ++ [PR2.new_array n]).length by
            rw [List.length_append]; exact Nat.lt_succ_self _),
          Option.join, Option.some_bind, id]
      rw [hd]
    · show Allocated _ (⟨o.sz, n, some h.length⟩ : Obj)
      simp only [Allocated, length_delete_array, List.length_set, List.length_append,
        List.length_singleton]
      omega
    · simp only [length_delete_array, List.length_set, List.length_append,
        List.length_singleton]
      omega
    · intro a ha hoa
      refine ⟨?_, fun e => ?_⟩
      · rw [getElem?_delete_array _ _ _ hoa, List.getElem?_set_ne (by omega),
          List.getElem?_append_left ha]
      · simp only [Option.some.injEq] at e
        omega

theorem push_back_store_spec (h : Store E) (o : Obj) (x : E) (hal : Allocated h o)
    (hA : (view h o).Alloc) (hI : (view h o).Inv) :
    ∃ h2 o2, push_back h o (.object x) = some (h2, o2) ∧
      Vector.push_back (view h o) (.object x) = .ok () (view h2 o2) ∧ Allocated h2 o2 ∧
      h.length ≤ h2.length ∧
      ∀ a, a < h.length → o.values ≠ some a → h2[a]? = h[a]? ∧ o2.values ≠ some a := by
  obtain ⟨v2, hv, _⟩ := Vector.push_back_spec (view h o) x hA hI
  have hstep : ∃ h1 o1, (if o.sz ≥ o.max_sz then grow h o else some (h, o)) = some (h1, o1) ∧
      (if (view h o).sz ≥ (view h o).max_sz then Vector.grow (view h o)
        else Outcome.ok () (view h o)) = .ok () (view h1 o1) ∧ Allocated h1 o1 ∧
      h.length ≤ h1.length ∧
      ∀ a, a < h.length → o.values ≠ some a → h1[a]? = h[a]? ∧ o1.values ≠ some a := by
    by_cases hfull : o.sz ≥ o.max_sz
    · rw [if_pos hfull, if_pos (show (view h o).sz ≥ (view h o).max_sz from hfull)]
      exact reserve_store_spec h o (Vector.grow_target o.max_sz) hal hA hI
    · rw [if_neg hfull, if_neg (show ¬ (view h o).sz ≥ (view h o).max_sz from hfull)]
      exact ⟨h, o, rfl, rfl, hal, Nat.le_refl _, fun _ _ hoa => ⟨rfl, hoa⟩⟩
  obtain ⟨h1, o1, g1, g2, g3, g4, g5⟩ := hstep
  rw [Vector.push_back, g2] at hv
  simp only [Outcome.andThen, const_reference.read, Option.some_bind, Vector.store_back,
    view] at hv
  cases hs : PR2.store (deref h1 o1.values) o1.sz x with
  | none =>
    rw [hs] at hv
    exact absurd hv (fun e => Outcome.noConfusion e)
  | some blk =>
    have harr : ∃ arr, deref h1 o1.values = some arr := by
      cases hd : deref h1 o1.values with
      | none => rw [hd] at hs; exact absurd hs (by simp [PR2.store])
      | some arr => exact ⟨arr, rfl⟩
    obtain ⟨arr, harr⟩ := harr
    obtain ⟨d, hd1, hd2⟩ := deref_eq_some h1 o1.values arr harr
    refine ⟨h1.set d blk, { o1 with sz := o1.sz + 1 }, ?_, ?_, ?_, ?_, ?_⟩
    · rw [push_back, g1]
      simp only [Option.some_bind, read, store, hd1]
      rw [hd1] at hs
      rw [hs]
      rfl
    · rw [Vector.push_back, g2]
      rw [hd1] at hs
      simp only [Outcome.andThen, const_reference.read, Option.some_bind, Vector.store_back,
        view, hd1, hs, Option.map_some', Outcome.ofState, deref_set_same h1 d blk hd2]
    · show Allocated _ (⟨o1.sz + 1, o1.max_sz, o1.values⟩ : Obj)
      simp only [Allocated, hd1, List.length_set]
      exact hd2
    · rw [List.length_set]; exact g4
    · intro a ha hoa
      obtain ⟨f1, f2⟩ := g5 a ha hoa
      refine ⟨?_, f2⟩
      rw [List.getElem?_set_ne (fun e => f2 (by rw [hd1, e])), f1]

end Mem


namespace Mem

variable {E : Type} [Inhabited E]

theorem copy_ctor_store_spec (h : Store E) (so : Obj) (hal : Allocated h so)
    (hA : (view h so).Alloc) (hI : (view h so).Inv) :
    ∃ h1 co, copy_ctor h so = some (h1, co) ∧
      Vector.copy_ctor (view h so) = some (view h1 co) ∧ Allocated h1 co ∧
      h.length ≤ h1.length ∧
      ∀ a, a < h.length → h1[a]? = h[a]? ∧ co.values ≠ some a := by
  obtain ⟨c, hc, _⟩ := Vector.copy_ctor_spec (view h so) hA hI
  have hI1 : so.sz ≤ so.max_sz := hI
  by_cases hcap : so.max_sz ≤ 0
  · have hsz : so.sz = 0 := by omega
    refine ⟨h, ⟨0, so.max_sz, none⟩, ?_, ?_, trivial, Nat.le_refl _,
      fun a _ => ⟨rfl, fun e => Option.noConfusion e⟩⟩
    · simp only [copy_ctor, sized_ctor, if_pos hcap, hsz, Nat.sub_zero, forUp]
    · simp only [Vector.copy_ctor, Vector.sized_ctor, view, if_pos hcap, hsz, Nat.sub_zero,
        forUp, deref]
  · have hne : so.values ≠ some h.length := allocated_ne_length h so hal
    have hlen : h.length < (h ++ [PR2.new_array so.max_sz]).length := by
      rw [List.length_append]; exact Nat.lt_succ_self _
    have hsrc : deref (h ++ [PR2.new_array so.max_sz]) so.values = deref h so.values :=
      deref_append h _ so.values (fun a ha => allocated_lt h so hal a ha)
    have hview : view (h ++ [PR2.new_array so.max_sz]) ⟨0, so.max_sz, some h.length⟩
        = (Vector.sized_ctor so.max_sz : Vector E) := by
      simp only [view, deref_append_new, Vector.sized_ctor, if_neg hcap]
    have hc1 : forUp (fun _ (self : Vector E) =>
          (PR2.load (deref (h ++ [PR2.new_array so.max_sz]) so.values) self.sz).bind fun x =>
          (PR2.store self.values self.sz x).map fun p =>
            { self with values := p, sz := self.sz + 1 }) (so.sz - 0) 0
        (view (h ++ [PR2.new_array so.max_sz]) ⟨0, so.max_sz, some h.length⟩) = some c := by
      rw [hsrc, hview, ← hc]
      rfl
    obtain ⟨h1, o1, g1, g2, g3, g4, g5⟩ := member_loop_view so.values h.length hne
      (so.sz - 0) 0 (h ++ [PR2.new_array so.max_sz]) ⟨0, so.max_sz, some h.length⟩ rfl hlen c
      hc1
    refine ⟨h1, o1, ?_, ?_, ?_, ?_, fun a ha => ⟨?_, fun e => ?_⟩⟩
    · simp only [copy_ctor, sized_ctor, if_neg hcap, new_array]
      exact g1
    · rw [g2]; exact hc
    · simp only [Allocated, g3, g4]
      exact hlen
    · rw [g4, List.length_append]; omega
    · rw [g5 a (by omega), List.getElem?_append_left ha]
    · rw [g3] at e
      simp only [Option.some.injEq] at e
      omega

theorem operator_assign_store_spec (h : Store E) (t s : Obj) (htal : Allocated h t)
    (hsal : Allocated h s) (hsep : Separate t s) (htA : (view h t).Alloc)
    (hsA : (view h s).Alloc) (hsI : (view h s).Inv) :
    ∃ h1 t1, operator_assign h t s = some (h1, t1) ∧
      Vector.operator_assign (view h t) (.other (view h s)) = .ok () (view h1 t1) ∧
      Allocated h1 t1 ∧ h.length ≤ h1.length ∧
      ∀ a, a < h.length → t.values ≠ some a → h1[a]? = h[a]? ∧ t1.values ≠ some a := by
  obtain ⟨c, hc, _⟩ := Vector.operator_assign_other_spec (view h t) (view h s) htA hsA hsI
  have hsI1 : s.sz ≤ s.max_sz := hsI
  have hst : ∀ p, t.values = some p → s.values ≠ some p := by
    intro p hp
    unfold Separate at hsep
    rw [hp] at hsep
    exact hsep
  by_cases hgt : s.sz > t.max_sz
  · -- the target releases its array and allocates one of the capacity of the source
    have hlen0 : (delete_array h t.values).length = h.length := length_delete_array h t.values
    have hne : s.values ≠ some (delete_array h t.values).length := by
      rw [hlen0]; exact allocated_ne_length h s hsal
    have hlen : (delete_array h t.values).length
        < (delete_array h t.values ++ [PR2.new_array s.max_sz]).length := by
      rw [List.length_append]; exact Nat.lt_succ_self _
    have hsrc : deref (delete_array h t.values ++ [PR2.new_array s.max_sz]) s.values
        = deref h s.values := by
      rw [deref_append _ _ s.values (fun a ha => by
        rw [hlen0]; exact allocated_lt h s hsal a ha)]
      exact deref_congr _ _ _ (fun a ha => getElem?_delete_array h t.values a
        (fun e => hst a e ha))
    have hc1 : forUp (fun _ (self : Vector E) =>
          (PR2.load (deref (delete_array h t.values ++ [PR2.new_array s.max_sz]) s.values)
            self.sz).bind fun x =>
          (PR2.store self.values self.sz x).map fun p =>
            { self with values := p, sz := self.sz + 1 }) (s.sz - 0) 0
        (view (delete_array h t.values ++ [PR2.new_array s.max_sz])
          ⟨0, s.max_sz, some (delete_array h t.values).length⟩) = some c := by
      rw [hsrc]
      simp only [view, deref_append_new]
      simp only [Vector.operator_assign, Vector.Source.get, view,
        if_pos (show s.sz > t.max_sz from hgt)] at hc
      cases hl : forUp (fun _ (self : Vector E) =>
          (PR2.load (deref h s.values) self.sz).bind fun x =>
          (PR2.store self.values self.sz x).map fun p =>
            { self with values := p, sz := self.sz + 1 }) (s.sz - 0) 0
          (⟨0, s.max_sz, PR2.new_array s.max_sz⟩ : Vector E) with
      | none =>
        rw [hl] at hc
        exact absurd hc (fun e => Outcome.noConfusion e)
      | some c1 =>
        rw [hl] at hc
        simp only [Outcome.ofState, Outcome.ok.injEq, true_and] at hc
        rw [hc]
    obtain ⟨h1, o1, g1, g2, g3, g4, g5⟩ := member_loop_view s.values
      (delete_array h t.values).length hne (s.sz - 0) 0
      (delete_array h t.values ++ [PR2.new_array s.max_sz])
      ⟨0, s.max_sz, some (delete_array h t.values).length⟩ rfl hlen c hc1
    refine ⟨h1, o1, ?_, ?_, ?_, ?_, fun a ha hta => ⟨?_, fun e => ?_⟩⟩
    · simp only [operator_assign, if_pos hgt, new_array]
      exact g1
    · rw [g2]; exact hc
    · simp only [Allocated, g3, g4]
      exact hlen
    · rw [g4, List.length_append, hlen0]; omega
    · rw [g5 a (by rw [hlen0]; omega), List.getElem?_append_left (by rw [hlen0]; exact ha),
        getElem?_delete_array h t.values a hta]
    · rw [g3, hlen0] at e
      simp only [Option.some.injEq] at e
      omega
  · by_cases hz : s.sz = 0
    · refine ⟨h, { t with sz := 0 }, ?_, ?_, htal, Nat.le_refl _, fun a _ hta => ⟨rfl, hta⟩⟩
      · simp only [operator_assign, hz, Nat.sub_zero, forUp, gt_iff_lt, Nat.not_lt_zero,
          if_false]
      · simp only [Vector.operator_assign, Vector.Source.get, view, hz, Nat.sub_zero, forUp,
          Outcome.ofState, gt_iff_lt, Nat.not_lt_zero, if_false]
    · -- the target keeps its array, which is not empty
      obtain ⟨arr, harr, _⟩ := Vector.values_of_alloc (view h t) htA
        (show 0 < t.max_sz by omega)
      obtain ⟨d, hd1, hd2⟩ := deref_eq_some h t.values arr harr
      have hne : s.values ≠ some d := hst d hd1
      have hc1 : forUp (fun _ (self : Vector E) =>
            (PR2.load (deref h s.values) self.sz).bind fun x =>
            (PR2.store self.values self.sz x).map fun p =>
              { self with values := p, sz := self.sz + 1 }) (s.sz - 0) 0
          (view h ⟨0, t.max_sz, some d⟩) = some c := by
        simp only [Vector.operator_assign, Vector.Source.get, view,
          if_neg (show ¬ s.sz > t.max_sz from hgt), hd1] at hc
        simp only [view]
        cases hl : forUp (fun _ (self : Vector E) =>
            (PR2.load (deref h s.values) self.sz).bind fun x =>
            (PR2.store self.values self.sz x).map fun p =>
              { self with values := p, sz := self.sz + 1 }) (s.sz - 0) 0
            (⟨0, t.max_sz, deref h (some d)⟩ : Vector E) with
        | none =>
          rw [hl] at hc
          exact absurd hc (fun e => Outcome.noConfusion e)
        | some c1 =>
          rw [hl] at hc
          simp only [Outcome.ofState, Outcome.ok.injEq, true_and] at hc
          rw [hc]
      obtain ⟨h1, o1, g1, g2, g3, g4, g5⟩ := member_loop_view s.values d hne (s.sz - 0) 0 h
        ⟨0, t.max_sz, some d⟩ rfl hd2 c hc1
      refine ⟨h1, o1, ?_, ?_, ?_, ?_, fun a ha hta => ⟨?_, fun e => ?_⟩⟩
      · simp only [operator_assign, if_neg hgt, hd1]
        exact g1
      · rw [g2]; exact hc
      · simp only [Allocated, g3, g4]
        exact hd2
      · rw [g4]
      · exact g5 a (fun e => hta (by rw [hd1, e]))
      · rw [g3] at e
        exact hta (by rw [hd1, e])

end Mem


namespace Mem

section Store

variable {E : Type}

/-- An object whose array the store keeps as it was denotes the same vector. -/
theorem view_congr (h h1 : Store E) (o : Obj) (hal : Allocated h o)
    (hf : ∀ a, a < h.length → o.values = some a → h1[a]? = h[a]?) : view h1 o = view h o := by
  simp only [view, Vector.mk.injEq, true_and]
  exact deref_congr h h1 o.values (fun a ha => hf a (allocated_lt h o hal a ha) ha)

/-- Every vector is the vector some object of some free store denotes. -/
theorem exists_view (v : Vector E) : ∃ (h : Store E) (o : Obj), Allocated h o ∧ view h o = v := by
  obtain ⟨sz, cap, vals⟩ := v
  cases vals with
  | none => exact ⟨[], ⟨sz, cap, none⟩, trivial, rfl⟩
  | some a => exact ⟨[some a], ⟨sz, cap, some 0⟩, Nat.zero_lt_one, rfl⟩

theorem allocated_mono (h h1 : Store E) (o : Obj) (hal : Allocated h o)
    (hle : h.length ≤ h1.length) : Allocated h1 o := by
  unfold Allocated at hal ⊢
  cases hv : o.values with
  | none => trivial
  | some a =>
    rw [hv] at hal
    exact Nat.lt_of_lt_of_le hal hle

end Store

end Mem

namespace Mem

section Store

variable {E : Type}

theorem frame_refl (h : Store E) (o : Obj) (hal : Allocated h o) : Frame h o h o :=
  ⟨hal, Nat.le_refl _, fun _ _ hoa => ⟨rfl, hoa⟩⟩

/-- A loop whose body works on the array at `d` alone, going up. -/
theorem forUp_local (f : Nat → Ptr E → Option (Ptr E)) (d : Nat) (n : Nat) :
    ∀ (i : Nat) (h : Store E), d < h.length →
    forUp (fun i h1 => (f i (deref h1 (some d))).map fun blk => h1.set d blk) n i h
      = (forUp f n i (deref h (some d))).map fun blk => h.set d blk := by
  induction n with
  | zero =>
    intro i h hd
    simp only [forUp, Option.map_some', set_deref_self h d hd]
  | succ n ih =>
    intro i h hd
    rw [forUp, forUp]
    cases hf : f i (deref h (some d)) with
    | none => rfl
    | some blk =>
      simp only [Option.map_some', Option.some_bind]
      rw [ih (i + 1) (h.set d blk) (by rw [List.length_set]; exact hd),
        deref_set_same h d blk hd]
      simp only [List.set_set]

/-- A loop whose body works on the array at `d` alone, going down. -/
theorem forDown_local (f : Nat → Ptr E → Option (Ptr E)) (d lo : Nat) :
    ∀ (hi : Nat) (h : Store E), d < h.length →
    forDown (fun i h1 => (f i (deref h1 (some d))).map fun blk => h1.set d blk) lo hi h
      = (forDown f lo hi (deref h (some d))).map fun blk => h.set d blk := by
  intro hi
  induction hi with
  | zero =>
    intro h hd
    simp only [forDown, Option.map_some', set_deref_self h d hd]
  | succ i ih =>
    intro h hd
    rw [forDown, forDown]
    by_cases hlo : i + 1 > lo
    · rw [if_pos hlo, if_pos hlo]
      cases hf : f i (deref h (some d)) with
      | none => rfl
      | some blk =>
        simp only [Option.map_some', Option.some_bind]
        rw [ih (h.set d blk) (by rw [List.length_set]; exact hd), deref_set_same h d blk hd]
        simp only [List.set_set]
    · rw [if_neg hlo, if_neg hlo]
      simp only [Option.map_some', set_deref_self h d hd]

theorem shift_up_body (d : Nat) :
    (fun (i : Nat) (h2 : Store E) => (load h2 (some d) i).bind (store h2 (some d) (i + 1)))
      = fun i h2 => ((fun (i : Nat) (p : Ptr E) => (PR2.load p i).bind (PR2.store p (i + 1))) i
          (deref h2 (some d))).map fun blk => h2.set d blk := by
  funext i h2
  simp only [load, store, Option.map_bind]
  rfl

theorem shift_down_body (d : Nat) :
    (fun (i : Nat) (h1 : Store E) => (load h1 (some d) (i + 1)).bind (store h1 (some d) i))
      = fun i h1 => ((fun (i : Nat) (p : Ptr E) => (PR2.load p (i + 1)).bind (PR2.store p i)) i
          (deref h1 (some d))).map fun blk => h1.set d blk := by
  funext i h1
  simp only [load, store, Option.map_bind]
  rfl

theorem erase_store_spec (h : Store E) (o : Obj) (pos : ConstIterator) (hal : Allocated h o)
    (hA : (view h o).Alloc) (hI : (view h o).Inv) :
    (erase h o pos).Leaves fun h2 o2 => Frame h o h2 o2 ∧
      (Vector.erase (view h o) pos).Leaves fun v => v = view h2 o2 := by
  by_cases hr : pos.ptr < 0 ∨ (o.sz : Int) ≤ pos.ptr
  · have he : erase h o pos = .thrown (.out_of_range "iterator out of range") h o := by
      simp only [erase, ConstIterator.sub, begin, Iterator.toConst, Int.sub_zero]
      by_cases h1 : pos.ptr < 0
      · rw [if_pos h1]
      · rw [if_neg h1, if_pos (by omega)]
    rw [he, Vector.erase_thrown (view h o) pos hr]
    exact ⟨frame_refl h o hal, rfl⟩
  · have hI1 : o.sz ≤ o.max_sz := hI
    have hsz : pos.ptr.toNat < o.sz := by omega
    obtain ⟨arr, harr, hlen⟩ := Vector.values_of_alloc (view h o) hA
      (show 0 < o.max_sz by omega)
    obtain ⟨d, hd1, hd2⟩ := deref_eq_some h o.values arr harr
    have harr1 : deref h (some d) = some arr := by rw [← hd1]; exact harr
    obtain ⟨a1, s1, _, _⟩ := shift_down_spec (o.sz - 1 - pos.ptr.toNat) pos.ptr.toNat arr
      (by have : arr.length = o.max_sz := hlen
          omega)
    have he : erase h o pos
        = .ok ⟨((pos.ptr.toNat : Nat) : Int)⟩ (h.set d (some a1)) { o with sz := o.sz - 1 } := by
      simp only [erase, ConstIterator.sub, begin, Iterator.toConst, Int.sub_zero]
      rw [if_neg (by omega), if_neg (by omega), hd1, shift_down_body d,
        forUp_local (fun i p => (PR2.load p (i + 1)).bind (PR2.store p i)) d _ _ h hd2,
        harr1, s1]
      rfl
    have hv : Vector.erase (view h o) pos
        = .ok ⟨((pos.ptr.toNat : Nat) : Int)⟩ ⟨o.sz - 1, o.max_sz, some a1⟩ := by
      simp only [Vector.erase, ConstIterator.sub, Vector.begin, Iterator.toConst, Int.sub_zero,
        view]
      rw [if_neg (by omega), if_neg (by omega), hd1, harr1, s1]
    rw [he, hv]
    refine ⟨⟨?_, ?_, fun a ha hoa => ⟨?_, hoa⟩⟩, ?_⟩
    · show Allocated _ (⟨o.sz - 1, o.max_sz, o.values⟩ : Obj)
      simp only [Allocated, hd1, List.length_set]
      exact hd2
    · rw [List.length_set]
    · exact List.getElem?_set_ne (fun e => hoa (by rw [hd1, e]))
    · show (⟨o.sz - 1, o.max_sz, some a1⟩ : Vector E) = view _ ⟨o.sz - 1, o.max_sz, o.values⟩
      simp only [view, hd1, deref_set_same h d (some a1) hd2]

theorem pop_back_store_spec (h : Store E) (o : Obj) (hal : Allocated h o) :
    (pop_back h o).Leaves fun h2 o2 => Frame h o h2 o2 ∧
      (Vector.pop_back (view h o)).Leaves fun v => v = view h2 o2 := by
  by_cases hz : o.sz ≤ 0
  · rw [pop_back, if_pos hz, Vector.pop_back, if_pos (show (view h o).sz ≤ 0 from hz)]
    exact ⟨frame_refl h o hal, rfl⟩
  · rw [pop_back, if_neg hz, Vector.pop_back, if_neg (show ¬ (view h o).sz ≤ 0 from hz)]
    exact ⟨⟨hal, Nat.le_refl _, fun _ _ hoa => ⟨rfl, hoa⟩⟩, rfl⟩

end Store

end Mem


namespace Mem

variable {E : Type} [Inhabited E]

/-- The growth step `if (sz >= max_sz) grow();` in the free store. -/
theorem grow_if_full_store_spec (h : Store E) (o : Obj) (hal : Allocated h o)
    (hA : (view h o).Alloc) (hI : (view h o).Inv) :
    ∃ h1 o1, (if o.sz ≥ o.max_sz then grow h o else some (h, o)) = some (h1, o1) ∧
      (if (view h o).sz ≥ (view h o).max_sz then Vector.grow (view h o)
        else Outcome.ok () (view h o)) = .ok () (view h1 o1) ∧ Frame h o h1 o1 := by
  by_cases hfull : o.sz ≥ o.max_sz
  · rw [if_pos hfull, if_pos (show (view h o).sz ≥ (view h o).max_sz from hfull)]
    obtain ⟨h1, o1, g1, g2, g3, g4, g5⟩ :=
      reserve_store_spec h o (Vector.grow_target o.max_sz) hal hA hI
    exact ⟨h1, o1, g1, g2, g3, g4, g5⟩
  · rw [if_neg hfull, if_neg (show ¬ (view h o).sz ≥ (view h o).max_sz from hfull)]
    exact ⟨h, o, rfl, rfl, frame_refl h o hal⟩

theorem shrink_to_fit_store_spec (h : Store E) (o : Obj) (hal : Allocated h o)
    (hA : (view h o).Alloc) (hI : (view h o).Inv) :
    ∃ h1 o1, shrink_to_fit h o = some (h1, o1) ∧
      Vector.shrink_to_fit (view h o) = .ok () (view h1 o1) ∧ Frame h o h1 o1 := by
  obtain ⟨v1, hv, _⟩ := Vector.shrink_to_fit_spec (view h o) hA hI
  by_cases hn : o.max_sz ≤ o.sz
  · refine ⟨h, o, ?_, ?_, frame_refl h o hal⟩
    · rw [shrink_to_fit, if_pos hn]
    · rw [Vector.shrink_to_fit, if_pos (show (view h o).max_sz ≤ (view h o).sz from hn)]
  · have hne := allocated_ne_length h o hal
    have hsim := copy_loop_sim o.values h.length hne (o.sz - 0) 0
      (h ++ [PR2.new_array o.sz]) (by rw [List.length_append]; exact Nat.lt_succ_self _)
    rw [deref_append_new, deref_append h _ o.values (fun a ha => allocated_lt h o hal a ha)]
      at hsim
    rw [Vector.shrink_to_fit, if_neg (show ¬ (view h o).max_sz ≤ (view h o).sz from hn)] at hv
    have hloop : ∃ buf, forUp (fun i buf => (PR2.load (deref h o.values) i).bind
        (PR2.store buf i)) (o.sz - 0) 0 (PR2.new_array o.sz) = some buf := by
      cases hc : forUp (fun i buf => (PR2.load (deref h o.values) i).bind
          (PR2.store buf i)) (o.sz - 0) 0 (PR2.new_array o.sz) with
      | none =>
        simp only [view] at hv
        rw [hc] at hv
        exact absurd hv (fun e => Outcome.noConfusion e)
      | some buf => exact ⟨buf, rfl⟩
    obtain ⟨buf, hbuf⟩ := hloop
    rw [hbuf] at hsim
    refine ⟨delete_array ((h ++ [PR2.new_array o.sz]).set h.length buf) o.values,
      { o with values := some h.length, max_sz := o.sz }, ?_, ?_, ?_, ?_, ?_⟩
    · rw [shrink_to_fit, if_neg hn]
      simp only [new_array]
      rw [hsim]
      rfl
    · rw [Vector.shrink_to_fit, if_neg (show ¬ (view h o).max_sz ≤ (view h o).sz from hn)]
      simp only [view]
      rw [hbuf]
      have hd : deref (delete_array ((h ++ [PR2.new_array o.sz]).set h.length buf) o.values)
          (some h.length) = buf := by
        simp only [deref, getElem?_delete_array _ _ _ hne, List.getElem?_set_self
          (show h.length < (h ++ [PR2.new_array o.sz]).length by
            rw [List.length_append]; exact Nat.lt_succ_self _),
          Option.join, Option.some_bind, id]
      rw [hd]
    · show Allocated _ (⟨o.sz, o.sz, some h.length⟩ : Obj)
      simp only [Allocated, length_delete_array, List.length_set, List.length_append,
        List.length_singleton]
      omega
    · simp only [length_delete_array, List.length_set, List.length_append,
        List.length_singleton]
      omega
    · intro a ha hoa
      refine ⟨?_, fun e => ?_⟩
      · rw [getElem?_delete_array _ _ _ hoa, List.getElem?_set_ne (by omega),
          List.getElem?_append_left ha]
      · simp only [Option.some.injEq] at e
        omega

theorem insert_store_spec (h : Store E) (o : Obj) (pos : ConstIterator) (val : E)
    (hal : Allocated h o) (hA : (view h o).Alloc) (hI : (view h o).Inv) :
    (insert h o pos (.object val)).Leaves fun h2 o2 => Frame h o h2 o2 ∧
      (Vector.insert (view h o) pos (.object val)).Leaves fun v => v = view h2 o2 := by
  by_cases hr : pos.ptr < 0 ∨ (o.sz : Int) < pos.ptr
  · have he : insert h o pos (.object val)
        = .thrown (.out_of_range "iterator out of range") h o := by
      simp only [insert, ConstIterator.sub, begin, Iterator.toConst, Int.sub_zero]
      by_cases h1 : pos.ptr < 0
      · rw [if_pos h1]
      · rw [if_neg h1, if_pos (by omega)]
    rw [he, Vector.insert_thrown (view h o) pos _ hr]
    exact ⟨frame_refl h o hal, rfl⟩
  · have hcur : pos.ptr.toNat ≤ o.sz := by omega
    obtain ⟨h1, o1, g1, g2, g3, g4, g5⟩ := grow_if_full_store_spec h o hal hA hI
    obtain ⟨v1, a1, k1, k2, k3, k4, k5, _⟩ := Vector.grow_if_full_spec (view h o) hA hI
    rw [g2] at k1
    simp only [Outcome.ok.injEq, true_and] at k1
    subst k1
    have ksz : o1.sz = o.sz := k4
    have kcap : o1.sz < o1.max_sz := k5
    have klen : a1.length = o1.max_sz := k3
    obtain ⟨d, hd1, hd2⟩ := deref_eq_some h1 o1.values a1 k2
    have harr1 : deref h1 (some d) = some a1 := by rw [← hd1]; exact k2
    obtain ⟨a2, s1, s2, _⟩ := shift_up_spec pos.ptr.toNat o1.sz a1 (by omega)
    have hst : PR2.store (some a2) pos.ptr.toNat val
        = some (some (a2.set pos.ptr.toNat val)) := store_some a2 _ val (by omega)
    have he : insert h o pos (.object val) = .ok ⟨((pos.ptr.toNat : Nat) : Int)⟩
        ((h1.set d (some a2)).set d (some (a2.set pos.ptr.toNat val)))
        { o1 with sz := o1.sz + 1 } := by
      simp only [insert, ConstIterator.sub, begin, Iterator.toConst, Int.sub_zero]
      rw [if_neg (by omega), if_neg (by omega), g1]
      simp only [hd1]
      rw [shift_up_body d,
        forDown_local (fun i p => (PR2.load p i).bind (PR2.store p (i + 1))) d _ _ h1 hd2,
        harr1, s1]
      simp only [Option.map_some', read, Option.some_bind, store,
        deref_set_same h1 d (some a2) hd2, hst]
    have hv : Vector.insert (view h o) pos (.object val)
        = .ok ⟨((pos.ptr.toNat : Nat) : Int)⟩
        ⟨o1.sz + 1, o1.max_sz, some (a2.set pos.ptr.toNat val)⟩ := by
      simp only [Vector.insert, ConstIterator.sub, Vector.begin, Iterator.toConst,
        Int.sub_zero]
      rw [if_neg (by omega), if_neg (show ¬ pos.ptr.toNat > (view h o).sz by
        show ¬ pos.ptr.toNat > o.sz
        omega), g2]
      simp only [Outcome.andThen, view, hd1, harr1, s1, const_reference.read,
        Option.some_bind, hst]
    rw [he, hv]
    refine ⟨⟨?_, ?_, fun a ha hoa => ⟨?_, ?_⟩⟩, ?_⟩
    · show Allocated _ (⟨o1.sz + 1, o1.max_sz, o1.values⟩ : Obj)
      simp only [Allocated, hd1, List.length_set]
      exact hd2
    · simp only [List.length_set]; exact g4
    · obtain ⟨f1, f2⟩ := g5 a ha hoa
      have hne : d ≠ a := fun e => f2 (by rw [hd1, e])
      rw [List.getElem?_set_ne hne, List.getElem?_set_ne hne, f1]
    · exact (g5 a ha hoa).2
    · show (⟨o1.sz + 1, o1.max_sz, some (a2.set pos.ptr.toNat val)⟩ : Vector E)
        = view _ ⟨o1.sz + 1, o1.max_sz, o1.values⟩
      simp only [view, hd1, List.set_set, deref_set_same h1 d _ hd2]

end Mem

/-! ## References into the storage, in the free store -/

namespace Mem

section Store

variable {E : Type}

theorem deref_delete_array_self (h : Store E) (p : Option Nat) :
    deref (delete_array h p) p = none := by
  cases p with
  | none => rfl
  | some a =>
    simp only [deref, delete_array, List.getElem?_set]
    split
    · split <;> rfl
    · rename_i hne
      exact absurd trivial hne

end Store

variable {E : Type} [Inhabited E]

/-- Once `reserve` has allocated, nothing is left at the address `values` held before. -/
theorem reserve_releases_old (h h1 : Store E) (o o1 : Obj) (n : Nat) (hn : ¬ o.max_sz ≥ n)
    (hr : reserve h o n = some (h1, o1)) :
    deref h1 o.values = none ∧ o1.values = some h.length := by
  rw [reserve, if_neg hn] at hr
  cases hc : forUp (fun i h1 => (load h1 o.values i).bind (store h1 (new_array h n).2 i))
      (o.sz - 0) 0 (new_array h n).1 with
  | none =>
    rw [hc] at hr
    exact absurd hr (by simp)
  | some h2 =>
    rw [hc] at hr
    simp only [Option.map_some', Option.some.injEq, Prod.mk.injEq] at hr
    obtain ⟨e1, e2⟩ := hr
    subst e1
    subst e2
    exact ⟨deref_delete_array_self h2 o.values, rfl⟩

/-- The free store and the flag `released` agree on what a reference reads after the
growth step of `push_back` and `insert`. -/
theorem read_after_growth (h h1 : Store E) (o o1 : Obj) (val : const_reference E)
    (hal : Allocated h o)
    (hg : (if o.sz ≥ o.max_sz then grow h o else some (h, o)) = some (h1, o1))
    (h2 : Store E) (d : Nat) (blk : Ptr E) (hd : o1.values = some d) (hd2 : d < h1.length)
    (hh2 : h2 = h1.set d blk) :
    read h2 o.values val
      = val.read (if (view h o).sz ≥ (view h o).max_sz then Vector.grow_releases (view h o)
          else false) blk := by
  cases val with
  | object x => rfl
  | slot i =>
    by_cases hfull : o.sz ≥ o.max_sz
    · have hgt := grow_target_gt o.max_sz
      rw [if_pos hfull] at hg
      obtain ⟨r1, r2⟩ := reserve_releases_old h h1 o o1 _ (by omega) hg
      have hne : o.values ≠ some d := by
        rw [hd] at r2
        simp only [Option.some.injEq] at r2
        rw [r2]
        exact allocated_ne_length h o hal
      simp only [read, load, hh2, deref_set_ne h1 d blk o.values hne, r1,
        const_reference.read, if_pos (show (view h o).sz ≥ (view h o).max_sz from hfull),
        Vector.grow_releases_of_full, if_true]
      rfl
    · rw [if_neg hfull] at hg
      simp only [Option.some.injEq, Prod.mk.injEq] at hg
      obtain ⟨e1, e2⟩ := hg
      subst e1
      subst e2
      simp only [read, load, hh2, hd, deref_set_same h d blk hd2, const_reference.read,
        if_neg (show ¬ (view h o).sz ≥ (view h o).max_sz from hfull), Bool.false_eq_true,
        if_false]

end Mem

namespace Mem

variable {E : Type} [Inhabited E]

/-- The two embeddings of `push_back` agree for every argument: a call in the free store
has undefined behaviour exactly when the call on the vector it denotes has, and otherwise
it returns with the object denoting the vector that call returns, the rest of the store as
it was. -/
theorem push_back_sim (h : Store E) (o : Obj) (val : const_reference E) (hal : Allocated h o)
    (hA : (view h o).Alloc) (hI : (view h o).Inv) :
    (push_back h o val = none ∧ Vector.push_back (view h o) val = .undefined) ∨
    ∃ h2 o2, push_back h o val = some (h2, o2) ∧
      Vector.push_back (view h o) val = .ok () (view h2 o2) ∧ Frame h o h2 o2 := by
  obtain ⟨h1, o1, g1, g2, _⟩ := grow_if_full_store_spec h o hal hA hI
  obtain ⟨v1, a1, k1, k2, _⟩ := Vector.grow_if_full_spec (view h o) hA hI
  rw [g2] at k1
  simp only [Outcome.ok.injEq, true_and] at k1
  subst k1
  obtain ⟨d, hd1, hd2⟩ := deref_eq_some h1 o1.values a1 k2
  have harr1 : deref h1 (some d) = some a1 := by rw [← hd1]; exact k2
  have hread := read_after_growth h h1 o o1 val hal g1 h1 d (some a1) hd1 hd2
    (by rw [← harr1, set_deref_self h1 d hd2])
  have hm : ∀ w : const_reference E, push_back h o w
      = (read h1 o.values w).bind fun x =>
          (store h1 o1.values o1.sz x).map fun h2 => (h2, { o1 with sz := o1.sz + 1 }) := by
    intro w
    rw [push_back, g1]
    rfl
  have hv : ∀ w : const_reference E, Vector.push_back (view h o) w
      = Outcome.ofState ((w.read (if (view h o).sz ≥ (view h o).max_sz
          then Vector.grow_releases (view h o) else false) (some a1)).bind
            (Vector.store_back (view h1 o1))) := by
    intro w
    rw [Vector.push_back, g2]
    simp only [Outcome.andThen, k2]
  cases hx : val.read (if (view h o).sz ≥ (view h o).max_sz
      then Vector.grow_releases (view h o) else false) (some a1) with
  | none =>
    left
    rw [hm, hv, hread, hx]
    exact ⟨rfl, rfl⟩
  | some x =>
    right
    obtain ⟨h2, o2, p1, p2, p3, p4, p5⟩ := push_back_store_spec h o x hal hA hI
    refine ⟨h2, o2, ?_, ?_, p3, p4, p5⟩
    · rw [← p1, hm, hm, hread, hx]
      rfl
    · rw [← p2, hv, hv, hx]
      rfl

/-- The two embeddings of `insert` agree for every argument. -/
theorem insert_sim (h : Store E) (o : Obj) (pos : ConstIterator) (val : const_reference E)
    (hal : Allocated h o) (hA : (view h o).Alloc) (hI : (view h o).Inv) :
    (insert h o pos val = .undefined ∧ Vector.insert (view h o) pos val = .undefined) ∨
    (insert h o pos val).Leaves fun h2 o2 => Frame h o h2 o2 ∧
      (Vector.insert (view h o) pos val).Leaves fun v => v = view h2 o2 := by
  by_cases hr : pos.ptr < 0 ∨ (o.sz : Int) < pos.ptr
  · right
    have he : insert h o pos val = .thrown (.out_of_range "iterator out of range") h o := by
      simp only [insert, ConstIterator.sub, begin, Iterator.toConst, Int.sub_zero]
      by_cases h1 : pos.ptr < 0
      · rw [if_pos h1]
      · rw [if_neg h1, if_pos (by omega)]
    rw [he, Vector.insert_thrown (view h o) pos _ hr]
    exact ⟨frame_refl h o hal, rfl⟩
  · have hcur : pos.ptr.toNat ≤ o.sz := by omega
    obtain ⟨h1, o1, g1, g2, _⟩ := grow_if_full_store_spec h o hal hA hI
    obtain ⟨v1, a1, k1, k2, k3, k4, k5, _⟩ := Vector.grow_if_full_spec (view h o) hA hI
    rw [g2] at k1
    simp only [Outcome.ok.injEq, true_and] at k1
    subst k1
    have ksz : o1.sz = o.sz := k4
    have kcap : o1.sz < o1.max_sz := k5
    have klen : a1.length = o1.max_sz := k3
    obtain ⟨d, hd1, hd2⟩ := deref_eq_some h1 o1.values a1 k2
    have harr1 : deref h1 (some d) = some a1 := by rw [← hd1]; exact k2
    obtain ⟨a2, s1, s2, _⟩ := shift_up_spec pos.ptr.toNat o1.sz a1 (by omega)
    have hread := read_after_growth h h1 o o1 val hal g1 (h1.set d (some a2)) d (some a2)
      hd1 hd2 rfl
    have hm : ∀ w : const_reference E, insert h o pos w
        = match (read (h1.set d (some a2)) o.values w).bind
              (store (h1.set d (some a2)) o1.values pos.ptr.toNat) with
          | none => .undefined
          | some h3 => .ok ⟨((pos.ptr.toNat : Nat) : Int)⟩ h3 { o1 with sz := o1.sz + 1 } := by
      intro w
      simp only [insert, ConstIterator.sub, begin, Iterator.toConst, Int.sub_zero]
      rw [if_neg (by omega), if_neg (by omega), g1]
      simp only [hd1]
      rw [shift_up_body d,
        forDown_local (fun i p => (PR2.load p i).bind (PR2.store p (i + 1))) d _ _ h1 hd2,
        harr1, s1]
      rfl
    have hv : ∀ w : const_reference E, Vector.insert (view h o) pos w
        = match (w.read (if (view h o).sz ≥ (view h o).max_sz
              then Vector.grow_releases (view h o) else false) (some a2)).bind
              (PR2.store (some a2) pos.ptr.toNat) with
          | none => .undefined
          | some p => .ok ⟨((pos.ptr.toNat : Nat) : Int)⟩
              { view h1 o1 with values := p, sz := (view h1 o1).sz + 1 } := by
      intro w
      rw [Vector.insert_in_range (view h o) pos w (by omega)
        (show pos.ptr ≤ ((view h o).sz : Int) by show pos.ptr ≤ (o.sz : Int); omega), g2]
      simp only [Outcome.andThen, k2]
      rw [show (view h1 o1).sz = o1.sz from rfl, s1]
    cases hx : val.read (if (view h o).sz ≥ (view h o).max_sz
        then Vector.grow_releases (view h o) else false) (some a2) with
    | none =>
      left
      rw [hm, hv, hread, hx]
      exact ⟨rfl, rfl⟩
    | some x =>
      right
      have p := insert_store_spec h o pos x hal hA hI
      have e1 : insert h o pos val = insert h o pos (.object x) := by
        rw [hm, hm, hread, hx]
        rfl
      have e2 : Vector.insert (view h o) pos val = Vector.insert (view h o) pos (.object x) := by
        rw [hv, hv, hx]
        rfl
      rw [e1, e2]
      exact p

end Mem

section Claims

open Vector

variable {E : Type} [Inhabited E]

/-- C13: copy construction from a vector `s` with `size <= capacity` returns a vector with
the capacity, the size and the live elements (in index order) of `s`.  Run in a free store
that holds `s`, the constructor allocates a new array for the copy and leaves `s` and its
array as they were; a later `push_back` on the copy appends to the copy, and it and every
other mutating member function called on the copy (`clear`, `reserve`, `shrink_to_fit`,
`pop_back`, `insert`, `erase`, and `operator=` from `s`) has defined behaviour and leaves
`s` as it was; for `push_back` and `insert` that is so for every argument that is not a
slot of the copy, and with any argument they leave `s` as it was whenever their behaviour
is defined. -/
theorem copy_construction_correct (s : Vector E) (hA : s.Alloc) (hI : s.Inv) :
    ∃ c, copy_ctor s = some c ∧ c.capacity = s.capacity ∧ c.size = s.size ∧
      c.live = s.live ∧
      ∀ (h : Store E) (so : Obj), Mem.Allocated h so → Mem.view h so = s →
        ∃ h1 co, Mem.copy_ctor h so = some (h1, co) ∧ Mem.view h1 co = c ∧
          Mem.view h1 so = s ∧ Mem.Separate co so ∧
          (∀ x : E, ∃ h2 co2, Mem.push_back h1 co (.object x) = some (h2, co2) ∧
            c.push_back (.object x) = .ok () (Mem.view h2 co2) ∧
            (Mem.view h2 co2).live = s.live ++ [x] ∧ Mem.view h2 so = s) ∧
          Mem.Leaves (Mem.clear h1 co) (fun h2 _ => Mem.view h2 so = s) ∧
          (∀ n : Nat, Mem.Leaves (Mem.reserve h1 co n) fun h2 _ => Mem.view h2 so = s) ∧
          Mem.Leaves (Mem.shrink_to_fit h1 co) (fun h2 _ => Mem.view h2 so = s) ∧
          (Mem.pop_back h1 co).Leaves (fun h2 _ => Mem.view h2 so = s) ∧
          (∀ (pos : ConstIterator) (val : E),
            (Mem.insert h1 co pos (.object val)).Leaves fun h2 _ => Mem.view h2 so = s) ∧
          (∀ pos : ConstIterator,
            (Mem.erase h1 co pos).Leaves fun h2 _ => Mem.view h2 so = s) ∧
          Mem.Leaves (Mem.operator_assign h1 co so) (fun h2 _ => Mem.view h2 so = s) ∧
          (∀ val : const_reference E, Mem.push_back h1 co val = none ∨
            Mem.Leaves (Mem.push_back h1 co val) fun h2 _ => Mem.view h2 so = s) ∧
          (∀ (pos : ConstIterator) (val : const_reference E),
            Mem.insert h1 co pos val = .undefined ∨
            (Mem.insert h1 co pos val).Leaves fun h2 _ => Mem.view h2 so = s) := by
  obtain ⟨c, hc, h2, h3, h4, h5⟩ := copy_ctor_spec s hA hI
  have hcI : c.Inv := by
    show c.sz ≤ c.max_sz
    rw [h2, h3]; exact hI
  refine ⟨c, hc, h3, h2, h4, fun h so hal hview => ?_⟩
  subst hview
  obtain ⟨h1, co, g1, g2, g3, g4, g5⟩ := Mem.copy_ctor_store_spec h so hal hA hI
  have hco : Mem.view h1 co = c := by
    rw [hc] at g2
    exact (Option.some.inj g2).symm
  have hso1 : Mem.view h1 so = Mem.view h so :=
    Mem.view_congr h h1 so hal (fun a ha _ => (g5 a ha).1)
  have hal1 : Mem.Allocated h1 so := Mem.allocated_mono h h1 so hal g4
  have hcoA : (Mem.view h1 co).Alloc := by rw [hco]; exact h5
  have hcoI : (Mem.view h1 co).Inv := by rw [hco]; exact hcI
  have hsep : Mem.Separate co so := by
    unfold Mem.Separate
    cases hv : co.values with
    | none => trivial
    | some p =>
      intro e
      exact (g5 p (Mem.allocated_lt h so hal p e)).2 hv
  -- whatever a call on the copy leaves behind, the source is as it was
  have hkeep : ∀ (h2 : Store E) (co2 : Obj), Mem.Frame h1 co h2 co2 →
      Mem.view h2 so = Mem.view h so := by
    intro h2 co2 hf
    rw [← hso1]
    exact Mem.view_congr h1 h2 so hal1 (fun a ha hsa =>
      (hf.2.2 a ha (fun e => (g5 a (Mem.allocated_lt h so hal a hsa)).2 e)).1)
  refine ⟨h1, co, g1, hco, hso1, hsep, fun x => ?_, ?_, fun n => ?_, ?_, ?_,
    fun pos val => ?_, fun pos => ?_, ?_, fun val => ?_, fun pos val => ?_⟩
  · obtain ⟨h2', co2, k1, k2, k3, k4, k5⟩ := Mem.push_back_store_spec h1 co x g3 hcoA hcoI
    obtain ⟨c2, p1, _, p3, _⟩ := push_back_spec c x h5 hcI
    rw [hco] at k2
    have hc2 : Mem.view h2' co2 = c2 := by
      rw [p1] at k2
      simp only [Outcome.ok.injEq, true_and] at k2
      exact k2.symm
    exact ⟨h2', co2, k1, k2, by rw [hc2, p3, h4], hkeep h2' co2 ⟨k3, k4, k5⟩⟩
  · exact hkeep h1 _ ⟨g3, Nat.le_refl _, fun _ _ hoa => ⟨rfl, hoa⟩⟩
  · obtain ⟨h2', co2, k1, _, k3, k4, k5⟩ := Mem.reserve_store_spec h1 co n g3 hcoA hcoI
    rw [k1]
    exact hkeep h2' co2 ⟨k3, k4, k5⟩
  · obtain ⟨h2', co2, k1, _, k3⟩ := Mem.shrink_to_fit_store_spec h1 co g3 hcoA hcoI
    rw [k1]
    exact hkeep h2' co2 k3
  · have k := Mem.pop_back_store_spec h1 co g3
    cases hr : Mem.pop_back h1 co with
    | ok r h2' co2 => rw [hr] at k; exact hkeep h2' co2 k.1
    | thrown e h2' co2 => rw [hr] at k; exact hkeep h2' co2 k.1
    | undefined => rw [hr] at k; exact k
  · have k := Mem.insert_store_spec h1 co pos val g3 hcoA hcoI
    cases hr : Mem.insert h1 co pos (.object val) with
    | ok r h2' co2 => rw [hr] at k; exact hkeep h2' co2 k.1
    | thrown e h2' co2 => rw [hr] at k; exact hkeep h2' co2 k.1
    | undefined => rw [hr] at k; exact k
  · have k := Mem.erase_store_spec h1 co pos g3 hcoA hcoI
    cases hr : Mem.erase h1 co pos with
    | ok r h2' co2 => rw [hr] at k; exact hkeep h2' co2 k.1
    | thrown e h2' co2 => rw [hr] at k; exact hkeep h2' co2 k.1
    | undefined => rw [hr] at k; exact k
  · obtain ⟨h2', co2, k1, _, k3, k4, k5⟩ := Mem.operator_assign_store_spec h1 co so g3 hal1
      hsep hcoA (by rw [hso1]; exact hA) (by rw [hso1]; exact hI)
    rw [k1]
    exact hkeep h2' co2 ⟨k3, k4, k5⟩
  · rcases Mem.push_back_sim h1 co val g3 hcoA hcoI with ⟨hu, _⟩ | ⟨h2', co2, k1, _, k3⟩
    · exact Or.inl hu
    · rw [k1]
      exact Or.inr (hkeep h2' co2 k3)
  · rcases Mem.insert_sim h1 co pos val g3 hcoA hcoI with ⟨hu, _⟩ | k
    · exact Or.inl hu
    · right
      cases hr : Mem.insert h1 co pos val with
      | ok r h2' co2 => rw [hr] at k; exact hkeep h2' co2 k.1
      | thrown e h2' co2 => rw [hr] at k; exact hkeep h2' co2 k.1
      | undefined => rw [hr] at k; exact k

/-- C13, instance: `s = [1, 2, 3]` at address 0 is copied to `c2`, then `c2.push_back(4)`;
`c2` is `[1, 2, 3, 4]` and `s` is still `[1, 2, 3]`. -/
theorem copy_construction_correct_witness :
    ∃ c : Vector Nat, copy_ctor ⟨3, 3, some [1, 2, 3]⟩ = some c ∧ c.capacity = 3 ∧
      c.size = 3 ∧ c.live = [1, 2, 3] ∧
      ∃ h1 co, Mem.copy_ctor [some [1, 2, 3]] ⟨3, 3, some 0⟩ = some (h1, co) ∧
        Mem.view h1 co = c ∧ Mem.view h1 ⟨3, 3, some 0⟩ = ⟨3, 3, some [1, 2, 3]⟩ ∧
        Mem.Separate co ⟨3, 3, some 0⟩ ∧
        ∃ h2 co2, Mem.push_back h1 co (.object 4) = some (h2, co2) ∧
          c.push_back (.object 4) = .ok () (Mem.view h2 co2) ∧
          (Mem.view h2 co2).live = [1, 2, 3] ++ [4] ∧
          Mem.view h2 ⟨3, 3, some 0⟩ = ⟨3, 3, some [1, 2, 3]⟩ :=
  (copy_construction_correct (⟨3, 3, some [1, 2, 3]⟩ : Vector Nat) (by decide)
    (by decide)).imp fun _ hc => ⟨hc.1, hc.2.1, hc.2.2.1, hc.2.2.2.1,
      (hc.2.2.2.2 [some [1, 2, 3]] ⟨3, 3, some 0⟩ (by decide) rfl).imp fun _ h1 =>
        h1.imp fun _ hco => ⟨hco.1, hco.2.1, hco.2.2.1, hco.2.2.2.1, hco.2.2.2.2.1 4⟩⟩

/-- C14: copy assignment between distinct vectors, each with `size <= capacity`.  The
assignment `t = s` returns; afterwards the target has size `s.size()` and the live
elements of `s` in index order, and its capacity is `s.capacity()` if `s.size()` exceeded
the old capacity of `t` and the old capacity of `t` otherwise.  Run in a free store that
holds both vectors in separate arrays, it leaves `s` and its array as they were. -/
theorem copy_assignment_correct (t s : Vector E) (htA : t.Alloc) (_htI : t.Inv)
    (hsA : s.Alloc) (hsI : s.Inv) :
    ∃ t1, t.operator_assign (.other s) = .ok () t1 ∧ t1.size = s.size ∧ t1.live = s.live ∧
      t1.capacity = (if s.size > t.capacity then s.capacity else t.capacity) ∧
      ∀ (h : Store E) (tgt src : Obj), Mem.Allocated h tgt → Mem.Allocated h src →
        Mem.Separate tgt src → Mem.view h tgt = t → Mem.view h src = s →
        ∃ h1 tgt1, Mem.operator_assign h tgt src = some (h1, tgt1) ∧ Mem.view h1 tgt1 = t1 ∧
          Mem.view h1 src = s := by
  obtain ⟨t1, h1, h2, h3, h4, _⟩ := operator_assign_other_spec t s htA hsA hsI
  refine ⟨t1, h1, h2, h3, h4, fun h tgt src htal hsal hsep hvt hvs => ?_⟩
  subst hvt
  subst hvs
  obtain ⟨h1', tgt1, g1, g2, _, _, g5⟩ := Mem.operator_assign_store_spec h tgt src htal hsal hsep htA
    hsA hsI
  refine ⟨h1', tgt1, g1, ?_, ?_⟩
  · rw [h1] at g2
    simp only [Outcome.ok.injEq, true_and] at g2
    exact g2.symm
  · refine Mem.view_congr h h1' src hsal (fun a ha hsa => (g5 a ha (fun e => ?_)).1)
    unfold Mem.Separate at hsep
    rw [e] at hsep
    exact hsep hsa

/-- C14, instance: assigning `[7, 8, 9]` (capacity 4, at address 1) to `[1]` (capacity 1,
at address 0), which reallocates. -/
theorem copy_assignment_correct_witness :
    ∃ t1, (⟨1, 1, some [1]⟩ : Vector Nat).operator_assign
        (.other ⟨3, 4, some [7, 8, 9, 0]⟩) = .ok () t1 ∧ t1.size = 3 ∧
      t1.live = [7, 8, 9] ∧ t1.capacity = (if 3 > 1 then 4 else 1) ∧
      ∃ h1 tgt1, Mem.operator_assign [some [1], some [7, 8, 9, 0]] ⟨1, 1, some 0⟩
          ⟨3, 4, some 1⟩ = some (h1, tgt1) ∧ Mem.view h1 tgt1 = t1 ∧
        Mem.view h1 ⟨3, 4, some 1⟩ = ⟨3, 4, some [7, 8, 9, 0]⟩ :=
  (copy_assignment_correct ⟨1, 1, some [1]⟩ ⟨3, 4, some [7, 8, 9, 0]⟩ (by decide) (by decide)
    (by decide) (by decide)).imp fun _ ht => ⟨ht.1, ht.2.1, ht.2.2.1, ht.2.2.2.1,
      ht.2.2.2.2 [some [1], some [7, 8, 9, 0]] ⟨1, 1, some 0⟩ ⟨3, 4, some 1⟩ (by decide)
        (by decide) (by decide) rfl rfl⟩

end Claims


end PR2
